import Mathlib

/-!
# Genomics processor: trie index and genome matcher

A shallow embedding of `Trie.h`, `Genome.cpp` and `GenomeMatcher.cpp`.

Conventions of the embedding.
* `std::string` is a `List Char`; `std::vector<T>` is a `List T`.
* A C++ `int` is an `Int` (no overflow of `int` arithmetic is modelled: all
  lengths and positions are assumed to fit in an `int`); a `size_t` is a `Nat`,
  and every conversion of a possibly negative `int` to `size_t` is the explicit
  `toSizeT`, reduction modulo `2 ^ 64`.
* An output parameter is an extra argument together with an extra result.
* A call whose behaviour C++ leaves undefined, or that throws, yields `none`.
-/

namespace Genomics

/-! ## Trie.h -/

/-- The `Trie<ValueType>::Node` record: a label, the values stored at the node and
the child nodes in the order of their creation. Child pointers are never null in
a trie built by the class, so a child is a node. -/
inductive Node (V : Type) where
  | mk (m_label : Char) (m_values : List V) (m_children : List (Node V)) : Node V

namespace Node
variable {V : Type}

/-- Field `m_label`. -/
def m_label : Node V → Char
  | mk l _ _ => l

/-- Field `m_values`. -/
def m_values : Node V → List V
  | mk _ vs _ => vs

/-- Field `m_children`. -/
def m_children : Node V → List (Node V)
  | mk _ _ cs => cs

end Node

variable {V : Type}

/-- The child loop of `insertHelper` (Trie.h 107-118) over the children of `head`:
the first child labelled `c` is replaced by `f` of it (the recursive call descends
into it); when the loop ends without a match a new child labelled `c` is created,
pushed at the back, and `f` descends into it. -/
def insertChild (c : Char) (f : Node V → Node V) : List (Node V) → List (Node V)
  | [] => [f (Node.mk c [] [])]
  | ch :: chs => if ch.m_label = c then f ch :: chs else ch :: insertChild c f chs

/-- `Trie::insertHelper` (Trie.h 100-119) fused with the `push_back` of
`Trie::insert` (line 61): the first argument is the part `key[index..]` of the key
still to consume; the result is the subtree at `head` after the value has been
appended to the node the helper returns. -/
def insertHelper : List Char → V → Node V → Node V
  | [], value, head => Node.mk head.m_label (head.m_values ++ [value]) head.m_children
  | c :: rest, value, head =>
      Node.mk head.m_label head.m_values
        (insertChild c (insertHelper rest value) head.m_children)

/-- The child loop of `findExactHelper` (Trie.h 128-136): the first child whose
label is `c`, or `none` when the loop ends without one. -/
def findChild (c : Char) : List (Node V) → Option (Node V)
  | [] => none
  | ch :: chs => if ch.m_label = c then some ch else findChild c chs

/-- `Trie::findExactHelper` (Trie.h 121-137); `none` is the `nullptr` result. The
first argument is `key[index..]`. -/
def findExactHelper : List Char → Node V → Option (Node V)
  | [], head => some head
  | c :: rest, head =>
      match findChild c head.m_children with
      | some ch => findExactHelper rest ch
      | none => none

/-- `Trie::findSNiPHelper` (Trie.h 139-183). The first argument is `key[index..]`,
so `index == key.size()` is the empty list and `index == key.size() - 1` is an
empty tail; the result is the list of values pushed onto `v`, in order. -/
def findSNiPHelper : List Char → Nat → Node V → Bool → List V
  | [], _, _, _ => []
  | c :: rest, index, head, alreadyMismatch =>
      head.m_children.flatMap fun ch =>
        if index = 0 then
          if ch.m_label = c then findSNiPHelper rest (index + 1) ch false else []
        else if ch.m_label = c then
          (if rest = [] then ch.m_values else [])
            ++ findSNiPHelper rest (index + 1) ch alreadyMismatch
        else if !alreadyMismatch then
          (if rest = [] then ch.m_values else [])
            ++ findSNiPHelper rest (index + 1) ch true
        else []

/-- The class `Trie<ValueType>`: its only data member is the root node. -/
structure Trie (V : Type) where
  m_root : Node V

namespace Trie

/-- `Trie::Trie()` (Trie.h 40-44): a root without values or children. The label
of the root is never read; the null character stands for it. -/
def empty : Trie V := ⟨Node.mk (Char.ofNat 0) [] []⟩

/-- `Trie::insert` (Trie.h 58-62). -/
def insert (t : Trie V) (key : List Char) (value : V) : Trie V :=
  ⟨insertHelper key value t.m_root⟩

/-- `Trie::find` (Trie.h 64-85). -/
def find (t : Trie V) (key : List Char) (exactMatchOnly : Bool) : List V :=
  if exactMatchOnly then
    match findExactHelper key t.m_root with
    | none => []
    | some n => n.m_values
  else findSNiPHelper key 0 t.m_root false

end Trie

/-- The trie obtained from the empty trie by the `insert` calls of `ins`, in order. -/
def buildTrie (ins : List (List Char × V)) : Trie V :=
  ins.foldl (fun t e => t.insert e.1 e.2) Trie.empty

/-! ### Specification vocabulary for the trie -/

/-- The values that the insertion sequence `ins` stores under the key `k`, in
insertion order, duplicates kept. -/
def valuesFor (ins : List (List Char × V)) (k : List Char) : List V :=
  ins.filterMap fun e => if e.1 = k then some e.2 else none

/-- The number of positions at which two strings differ, over their common length. -/
def mismatches : List Char → List Char → Nat
  | a :: as, b :: bs => (if a = b then 0 else 1) + mismatches as bs
  | _, _ => 0

/-- The one-mismatch relation of the specification between a searched key `k` and a
stored key `k'`: same length, same first character, at most one differing position. -/
def snipMatch (k k' : List Char) : Bool :=
  decide (k'.length = k.length) && decide (k'.head? = k.head?) && decide (mismatches k k' ≤ 1)

/-- The values at the node reached from `n` along the path `p`, empty when there is
no such node. -/
def valuesAt (p : List Char) (n : Node V) : List V :=
  match findExactHelper p n with
  | none => []
  | some x => x.m_values

/-- The values gathered below `n` by a walk that follows every child whose label is
the next character of the key and, while no mismatch has been spent, every other
child as well (proof device for `findSNiPHelper` at positive index). -/
def collect : List Char → Node V → Bool → List V
  | [], n, _ => n.m_values
  | c :: rest, n, mism =>
      n.m_children.flatMap fun ch =>
        if ch.m_label = c then collect rest ch mism
        else if !mism then collect rest ch true else []

/-- The label paths of the nodes visited by `collect`, in the order visited. -/
def snipKeys : List Char → Node V → Bool → List (List Char)
  | [], _, _ => [[]]
  | c :: rest, n, mism =>
      n.m_children.flatMap fun ch =>
        if ch.m_label = c then (snipKeys rest ch mism).map (ch.m_label :: ·)
        else if !mism then (snipKeys rest ch true).map (ch.m_label :: ·) else []

/-- Well-formed nodes: below the node no two children of one node share a label. -/
inductive WF : Node V → Prop
  | mk (l : Char) (vs : List V) (cs : List (Node V)) :
      (cs.map Node.m_label).Nodup → (∀ ch ∈ cs, WF ch) → WF (Node.mk l vs cs)

/-! ## Machine integers -/

/-- Conversion of an `int` to `size_t`: a negative value wraps around by `2 ^ 64`
(the value modulo `2 ^ 64` for every value in the range of `int`). -/
def toSizeT (x : Int) : Nat :=
  if 0 ≤ x then x.toNat else (x + 2 ^ 64).toNat

/-- Subtraction of two `size_t` values: the difference wraps around by `2 ^ 64` when
the subtrahend is the larger one (the difference modulo `2 ^ 64` for operands in the
range of `size_t`). -/
def subSizeT (a b : Nat) : Nat :=
  if b ≤ a then a - b else a + 2 ^ 64 - b

/-- A loop whose body may fail: the body `f` is run on the items in order, threading
the state; the first failure is the failure of the loop. -/
def loopM {σ α : Type} (f : σ → α → Option σ) : σ → List α → Option σ
  | st, [] => some st
  | st, a :: as =>
      match f st a with
      | none => none
      | some st' => loopM f st' as

/-! ## Genome.cpp -/

/-- The class `GenomeImpl`: a name and a sequence of bases. -/
structure Genome where
  m_name : List Char
  m_sequence : List Char
deriving DecidableEq

namespace Genome

/-- `GenomeImpl::length` (Genome.cpp 156-158). -/
def length (g : Genome) : Int := g.m_sequence.length

/-- `GenomeImpl::name` (Genome.cpp 160-162). -/
def name (g : Genome) : List Char := g.m_name

/-- `GenomeImpl::extract` (Genome.cpp 164-173): `none` is the result `false`, which
leaves the fragment of the caller as it was; `some f` is the result `true` with `f`
assigned to the fragment. The comparisons with `m_sequence.size()` are made in
`size_t`, after `position < 0` and `length <= 0` have been excluded. -/
def extract (g : Genome) (position length : Int) : Option (List Char) :=
  if position < 0 ∨ toSizeT position ≥ g.m_sequence.length ∨
      length ≤ 0 ∨ toSizeT (position + length) > g.m_sequence.length then
    none
  else
    some ((g.m_sequence.drop (toSizeT position)).take (toSizeT length))

end Genome

/-! ## GenomeMatcher.cpp -/

/-- Modelled from the spec: the record `DNAMatch` is declared in `provided.h`, which
is not among the sources; it is the DNA Match record of the specification, (genome
name, start position within that genome, matched length), with `int` numbers. -/
structure DNAMatch where
  genomeName : List Char
  position : Int
  length : Int
deriving DecidableEq

/-- Modelled from the spec: the record `GenomeMatch` is declared in `provided.h`,
which is not among the sources; it is the Genome Match record of the specification,
(genome name, percent match). The `double` percentage is held by its value, a
rational number; the arithmetic that produces it is the rounded one of `Dbl`. -/
structure GenomeMatch where
  genomeName : List Char
  percentMatch : ℚ
deriving DecidableEq

/-- `unordered_map<string, int>::insert`: the pair is added unless the key is already
present, in which case the map is left as it is. -/
def gMapInsert (m : List (List Char × Int)) (key : List Char) (value : Int) :
    List (List Char × Int) :=
  if m.any (fun e => decide (e.1 = key)) then m else m ++ [(key, value)]

/-- `unordered_map<string, int>::at`: the value stored under the key; `none` stands
for the exception thrown when the key is absent. -/
def gMapAt : List (List Char × Int) → List Char → Option Int
  | [], _ => none
  | e :: m, key => if e.1 = key then some e.2 else gMapAt m key

/-- The data members of `GenomeMatcherImpl` (GenomeMatcher.cpp 19-23). -/
structure GenomeMatcherImpl where
  m_minSearchLength : Int
  m_genomes : List Genome
  m_genomeTrie : Trie DNAMatch
  gMap : List (List Char × Int)

/-- Reading of `s[i]` on a `std::string`: the character at `i` below the size, the
null character at the size, and undefined behaviour (`none`) past it. -/
def strAt (s : List Char) (i : Nat) : Option Char :=
  if i < s.length then s[i]? else if i = s.length then some (Char.ofNat 0) else none

/-- The loop of the exact branch of `findDNAHelper` (GenomeMatcher.cpp 159-163): the
first list is `cmp1` from index `i` on. -/
def findDNAExact (cmp2 : List Char) : List Char → Nat → Option Bool
  | [], _ => some true
  | c :: cs, i =>
      match strAt cmp2 i with
      | none => none
      | some d => if c ≠ d then some false else findDNAExact cmp2 cs (i + 1)

/-- The loop of the one-mismatch branch of `findDNAHelper` (GenomeMatcher.cpp
168-179): the first list is `cmp1` from index `i` on. -/
def findDNASNiP (cmp2 : List Char) : List Char → Nat → Bool → Option Bool
  | [], _, _ => some true
  | c :: cs, i, alreadyMismatch =>
      match strAt cmp2 i with
      | none => none
      | some d =>
          if c ≠ d then
            if !alreadyMismatch then findDNASNiP cmp2 cs (i + 1) true else some false
          else findDNASNiP cmp2 cs (i + 1) alreadyMismatch

/-- `GenomeMatcherImpl::findDNAHelper` (GenomeMatcher.cpp 155-183). -/
def findDNAHelper (cmp1 cmp2 : List Char) (exactMatchOnly : Bool) : Option Bool :=
  if exactMatchOnly then findDNAExact cmp2 cmp1 0 else findDNASNiP cmp2 cmp1 0 false

/-- The local variables that the loop over the candidates of
`findGenomesWithThisDNA` carries from one candidate to the next; `matchList` is the
vector `matches`. -/
structure ExtState where
  tempFrag : List Char
  tempMax : Int
  matchList : List DNAMatch

namespace GenomeMatcherImpl

/-- `GenomeMatcherImpl::GenomeMatcherImpl` (GenomeMatcher.cpp 29-31). -/
def new (minSearchLength : Int) : GenomeMatcherImpl :=
  ⟨minSearchLength, [], Trie.empty, []⟩

/-- `GenomeMatcherImpl::minimumSearchLength` (GenomeMatcher.cpp 53-55). -/
def minimumSearchLength (s : GenomeMatcherImpl) : Int := s.m_minSearchLength

/-- `GenomeMatcherImpl::addGenome` (GenomeMatcher.cpp 33-51). The loop
`for (i = 0; i + m_minSearchLength <= genome.length(); i++)` runs for the
`genome.length() - m_minSearchLength + 1` first values of `i` (for none when that
number is negative); a failed `extract` leaves `temp` empty. -/
def addGenome (s : GenomeMatcherImpl) (genome : Genome) : GenomeMatcherImpl :=
  let genomes := s.m_genomes ++ [genome]
  let trie := (List.range (genome.length - s.m_minSearchLength + 1).toNat).foldl
    (fun (t : Trie DNAMatch) (i : Nat) =>
      t.insert ((genome.extract i s.m_minSearchLength).getD [])
        (DNAMatch.mk genome.name i s.m_minSearchLength))
    s.m_genomeTrie
  ⟨s.m_minSearchLength, genomes, trie,
    gMapInsert s.gMap genome.name ((genomes.length : Int) - 1)⟩

/-- The expression `m_genomes[gMap.at(name)]`: `none` when `at` throws or the index
is outside the vector. -/
def genomeOf (s : GenomeMatcherImpl) (name : List Char) : Option Genome :=
  match gMapAt s.gMap name with
  | none => none
  | some idx => if idx < 0 then none else s.m_genomes[idx.toNat]?

/-- The loop that erases candidates (GenomeMatcher.cpp 66-75). The test compares, in
`size_t`, the position with `length() - fragment.size()`. -/
def filterCandidates (s : GenomeMatcherImpl) (fragment : List Char) :
    List DNAMatch → Option (List DNAMatch)
  | [] => some []
  | ci :: rest =>
      match s.genomeOf ci.genomeName with
      | none => none
      | some g =>
          match filterCandidates s fragment rest with
          | none => none
          | some rest' =>
              if toSizeT ci.position > subSizeT (toSizeT g.length) fragment.length then
                some rest'
              else some (ci :: rest')

/-- One turn of the inner loop (GenomeMatcher.cpp 83-95) for the candidate `ci` and
the loop variable `i`; the state is the current `(*ci).length`, `tempFrag` and
`tempMax`. -/
def extendStep (s : GenomeMatcherImpl) (fragment : List Char) (minimumLength : Int)
    (exactMatchOnly : Bool) (ci : DNAMatch) (st : Int × List Char × Int) (i : Nat) :
    Option (Int × List Char × Int) :=
  match s.genomeOf ci.genomeName with
  | none => none
  | some g =>
      let tempFrag := (g.extract ci.position (i + minimumLength)).getD st.2.1
      match findDNAHelper tempFrag (fragment.take (toSizeT (i + minimumLength)))
          exactMatchOnly with
      | none => none
      | some false => some (st.1, tempFrag, st.2.2)
      | some true =>
          some ((tempFrag.length : Int), tempFrag,
            if toSizeT st.2.2 < tempFrag.length then (tempFrag.length : Int) else st.2.2)

/-- One turn of the loop over the candidates (GenomeMatcher.cpp 82-100). Past the
guard of line 58 `minimumLength` lies between 0 and `fragment.size()`, so the inner
loop `for (i = 0; i + minimumLength <= fragment.size(); i++)` runs for the
`fragment.size() - minimumLength + 1` first values of `i`. -/
def extendCandidate (s : GenomeMatcherImpl) (fragment : List Char) (minimumLength : Int)
    (exactMatchOnly : Bool) (st : ExtState) (ci : DNAMatch) : Option ExtState :=
  match loopM (extendStep s fragment minimumLength exactMatchOnly ci)
      (ci.length, st.tempFrag, st.tempMax)
      (List.range ((fragment.length : Int) - minimumLength + 1).toNat) with
  | none => none
  | some (len, tempFrag, tempMax) =>
      some ⟨tempFrag, tempMax,
        if len = tempMax then st.matchList ++ [DNAMatch.mk ci.genomeName ci.position len]
        else st.matchList⟩

/-- `GenomeMatcherImpl::findGenomesWithThisDNA` (GenomeMatcher.cpp 57-105). The
argument `matchList` is the vector `matches` of the caller on entry; the result is
the returned boolean and that vector on exit. -/
def findGenomesWithThisDNA (s : GenomeMatcherImpl) (fragment : List Char)
    (minimumLength : Int) (exactMatchOnly : Bool) (matchList : List DNAMatch) :
    Option (Bool × List DNAMatch) :=
  if fragment.length < toSizeT minimumLength ∨ minimumLength < s.m_minSearchLength then
    some (false, matchList)
  else
    match s.filterCandidates fragment
        (s.m_genomeTrie.find (fragment.take (toSizeT s.m_minSearchLength)) exactMatchOnly) with
    | none => none
    | some candidates =>
        match loopM (extendCandidate s fragment minimumLength exactMatchOnly)
            ⟨[], minimumLength, []⟩ candidates with
        | none => none
        | some st => some (decide (st.matchList.length > 0), st.matchList)

/-- The matcher obtained from `GenomeMatcherImpl(minSearchLength)` by the `addGenome`
calls of `gs`, in order. -/
def build (minSearchLength : Int) (gs : List Genome) : GenomeMatcherImpl :=
  gs.foldl addGenome (new minSearchLength)

end GenomeMatcherImpl

/-! ### Double precision arithmetic

The type `double` of the relatedness query is IEEE 754 binary64: a significand of 53
binary digits, every operation rounded to the nearest representable value, ties to
the even significand. The exponent is not bounded here: the quotients and products of
`int` values stay far from the overflow and underflow of binary64. -/

/-- The number of binary digits of `n`; the first argument bounds the recursion, and
`n` itself is a sufficient bound. -/
def bitLength : Nat → Nat → Nat
  | 0, _ => 0
  | fuel + 1, n => if n = 0 then 0 else bitLength fuel (n / 2) + 1

/-- The integer nearest to the quotient `a / b`, the even one of the two when the
quotient lies halfway between them. -/
def roundHalfEven (a b : Nat) : Nat :=
  if 2 * (a % b) < b then a / b
  else if b < 2 * (a % b) then a / b + 1
  else if (a / b) % 2 = 0 then a / b
  else a / b + 1

/-- The binary64 value nearest to the quotient `a / b` of two positive numbers, as a
significand and an exponent `e`: the value is the significand times `2 ^ e`. With `k`
the difference of the numbers of binary digits of `a` and `b`, the quotient lies
between `2 ^ (k - 1)` and `2 ^ (k + 1)`; the exponent is chosen so that the quotient
scaled by `2 ^ (-e)` lies in `[2 ^ 52, 2 ^ 53)`, and is then rounded to an integer. -/
def roundQuot (a b : Nat) : Nat × Int :=
  let k : Int := (bitLength a a : Int) - (bitLength b b : Int)
  let e : Int := (if b * 2 ^ k.toNat ≤ a * 2 ^ (-k).toNat then k else k - 1) - 52
  (roundHalfEven (a * 2 ^ (-e).toNat) (b * 2 ^ e.toNat), e)

/-- A finite `double`: the value is `sig * 2 ^ exp`. -/
structure Dbl where
  sig : Int
  exp : Int
deriving DecidableEq

namespace Dbl

/-- The `double` nearest to the quotient `a / b` of two integers, `b` not zero. -/
def ofQuot (a b : Int) : Dbl :=
  if a = 0 then ⟨0, 0⟩
  else ⟨a.sign * b.sign * ((roundQuot a.natAbs b.natAbs).1 : Int),
    (roundQuot a.natAbs b.natAbs).2⟩

/-- The conversion of an `int` to `double`. -/
def ofInt (n : Int) : Dbl := ofQuot n 1

/-- The division of two `double`s, the divisor not zero. -/
def div (x y : Dbl) : Dbl :=
  ofQuot (x.sig * 2 ^ (x.exp - y.exp).toNat) (y.sig * 2 ^ (y.exp - x.exp).toNat)

/-- The product of two `double`s. -/
def mul (x y : Dbl) : Dbl :=
  ofQuot (x.sig * y.sig * 2 ^ (x.exp + y.exp).toNat) (2 ^ (-(x.exp + y.exp)).toNat)

/-- The value of a `double`. -/
def toRat (d : Dbl) : ℚ := (d.sig : ℚ) * (2 : ℚ) ^ d.exp

end Dbl

/-- The statement `nMatchingSequences[idx]++` on the array of counters: `none` when
the index is outside the array. -/
def bumpCounter : List Int → Nat → Option (List Int)
  | [], _ => none
  | c :: cs, 0 => some ((c + 1) :: cs)
  | c :: cs, idx + 1 =>
      match bumpCounter cs idx with
      | none => none
      | some cs' => some (c :: cs')

namespace GenomeMatcherImpl

/-- The loop over the windows of the query (GenomeMatcher.cpp 117-125), from the loop
variable `i` on: the state is the pair of `tempMatches` and `matches`, the result is
`matches` at the exit of the loop. A failed `extract` leaves the fresh `frag` empty.
The first argument bounds the number of turns; a loop that has not reached its exit
within the bound yields `none`. -/
def windowLoop (s : GenomeMatcherImpl) (query : Genome) (fragmentMatchLength : Int)
    (exactMatchOnly : Bool) : Nat → Int → List DNAMatch × List DNAMatch →
    Option (List DNAMatch)
  | 0, _, _ => none
  | fuel + 1, i, st =>
      if i * fragmentMatchLength < query.length then
        match s.findGenomesWithThisDNA
            ((query.extract (i * fragmentMatchLength) fragmentMatchLength).getD [])
            fragmentMatchLength exactMatchOnly st.1 with
        | none => none
        | some r => windowLoop s query fragmentMatchLength exactMatchOnly fuel (i + 1)
            (r.2, st.2 ++ r.2)
      else some st.2

/-- The loop that counts the match records per genome (GenomeMatcher.cpp 134-136). -/
def countLoop (s : GenomeMatcherImpl) : List Int → List DNAMatch → Option (List Int)
  | counts, [] => some counts
  | counts, m :: ms =>
      match gMapAt s.gMap m.genomeName with
      | none => none
      | some idx =>
          if idx < 0 then none
          else
            match bumpCounter counts idx.toNat with
            | none => none
            | some counts' => countLoop s counts' ms

/-- The loop that computes the percentages and appends the records that reach the
threshold (GenomeMatcher.cpp 139-148), over the genomes paired with their counters;
`S` is the `int` quotient of line 112 before its conversion to `double`, and
`matchPercentThreshold` the value of the `double` of the caller. The operations are
those of the source, each rounded: `nMatchingSequences[i] * 1.0`, the division by
`S`, and `percentage * 100.0`. With `S` zero the quotient of a zero counter is a NaN,
which no comparison accepts; the quotient of a positive counter by zero, an infinity,
has no counterpart among the rationals and yields `none`. -/
def percentLoop (S : Int) (matchPercentThreshold : ℚ) :
    List (Genome × Int) → List GenomeMatch → Option (List GenomeMatch)
  | [], results => some results
  | (g, n) :: rest, results =>
      if S = 0 then
        if n = 0 then percentLoop S matchPercentThreshold rest results else none
      else
        let percentage : Dbl := Dbl.div (Dbl.mul (Dbl.ofInt n) (Dbl.ofInt 1)) (Dbl.ofInt S)
        if (Dbl.mul percentage (Dbl.ofInt 100)).toRat ≥ matchPercentThreshold then
          percentLoop S matchPercentThreshold rest
            (results ++ [GenomeMatch.mk g.name (Dbl.mul percentage (Dbl.ofInt 100)).toRat])
        else percentLoop S matchPercentThreshold rest results

/-- `GenomeMatcherImpl::findRelatedGenomes` (GenomeMatcher.cpp 107-153). The argument
`results` is the vector of the caller on entry; the result is the returned boolean
and that vector on exit. A division by zero in line 112 is undefined behaviour. The
window loop takes at most `query.length()` turns when `fragmentMatchLength` is
positive, and does not end otherwise unless the query is empty. -/
def findRelatedGenomes (s : GenomeMatcherImpl) (query : Genome) (fragmentMatchLength : Int)
    (exactMatchOnly : Bool) (matchPercentThreshold : ℚ) (results : List GenomeMatch) :
    Option (Bool × List GenomeMatch) :=
  if fragmentMatchLength < s.m_minSearchLength then some (false, results)
  else if fragmentMatchLength = 0 then none
  else
    let S : Int := Int.tdiv query.length fragmentMatchLength
    match s.windowLoop query fragmentMatchLength exactMatchOnly
        (query.m_sequence.length + 1) 0 ([], []) with
    | none => none
    | some matchList =>
        match s.countLoop (s.m_genomes.map fun _ => (0 : Int)) matchList with
        | none => none
        | some counts =>
            match percentLoop S matchPercentThreshold (s.m_genomes.zip counts) results with
            | none => none
            | some results' => some (decide (results'.length > 0), results')

end GenomeMatcherImpl

/-! ### Specification vocabulary for the matcher -/

/-- The bases of a sequence at `[p, p + n)`. -/
def window (seq : List Char) (p n : Nat) : List Char :=
  (seq.drop p).take n

/-- The occurrence relation of the specification between a fragment and the bases of
a sequence at position `p`: equality in exact mode; in one-mismatch mode, agreement
at the first base and at most one differing position. -/
def occursAt (exactMatchOnly : Bool) (seq : List Char) (p : Nat) (fragment : List Char) : Bool :=
  if exactMatchOnly then decide (window seq p fragment.length = fragment)
  else snipMatch fragment (window seq p fragment.length)

/-- The key and record that `addGenome` inserts for each window of a genome. -/
def indexEntries (m : Int) (g : Genome) : List (List Char × DNAMatch) :=
  (List.range (g.length - m + 1).toNat).map fun (i : Nat) =>
    ((g.extract (i : Int) m).getD [], DNAMatch.mk g.name (i : Int) m)

/-- The insertions made into the trie by the registration of `gs`, in order. -/
def allEntries (m : Int) (gs : List Genome) : List (List Char × DNAMatch) :=
  gs.flatMap (indexEntries m)

/-- The relation between the searched key and a stored key under which the trie
yields the values of the stored key. -/
def keyMatch (exactMatchOnly : Bool) (k k' : List Char) : Bool :=
  if exactMatchOnly then decide (k' = k) else snipMatch k k'

/-- The candidate starts early enough in its genome for the whole fragment. -/
def fitsB (s : GenomeMatcherImpl) (n : Nat) (c : DNAMatch) : Bool :=
  match s.genomeOf c.genomeName with
  | some g => decide (c.position + (n : Int) ≤ g.length)
  | none => false

/-- The comparison that `findDNAHelper` makes on strings of equal length. -/
def matchedB (exactMatchOnly : Bool) (cmp1 cmp2 : List Char) : Bool :=
  if exactMatchOnly then decide (cmp1 = cmp2) else decide (mismatches cmp1 cmp2 ≤ 1)

/-- The candidate is pushed by a search whose minimum length is the length of the
fragment: its bases match the fragment, or its length already is that length. -/
def keepB (s : GenomeMatcherImpl) (fragment : List Char) (exactMatchOnly : Bool)
    (c : DNAMatch) : Bool :=
  match s.genomeOf c.genomeName with
  | some g =>
      matchedB exactMatchOnly (window g.m_sequence c.position.toNat fragment.length) fragment
        || decide (c.length = (fragment.length : Int))
  | none => false

/-- The name lookup is sound and complete for the list of genomes: a stored index
points at a genome of that name, and every registered name has an index. -/
def GMapOk (s : GenomeMatcherImpl) : Prop :=
  (∀ name idx, gMapAt s.gMap name = some idx →
      0 ≤ idx ∧ ∃ g, s.m_genomes[idx.toNat]? = some g ∧ g.name = name)
    ∧ (∀ g ∈ s.m_genomes, (gMapAt s.gMap g.name).isSome = true)

/-! ### Concrete genomes and matchers used in the examples -/

/-- The genome ("G1", "ACGTACGT") of scenarios A and B. -/
def genomeG1 : Genome := ⟨"G1".toList, "ACGTACGT".toList⟩

/-- The matcher of scenarios A and B: minimum search length 4, genome G1 registered. -/
def matcherAB : GenomeMatcherImpl := GenomeMatcherImpl.build 4 [genomeG1]

/-- A matcher with minimum search length 2 and one genome, in which the seed "AC"
occurs at position 0, where "ACGT" does not continue, and at position 4, where it does. -/
def matcherRunning : GenomeMatcherImpl :=
  GenomeMatcherImpl.build 2 [⟨"G1".toList, "ACAAACGT".toList⟩]

/-- A matcher with minimum search length 4 and the genome ("G", "ACGTA"). -/
def matcherExtend : GenomeMatcherImpl :=
  GenomeMatcherImpl.build 4 [⟨"G".toList, "ACGTA".toList⟩]

/-- A matcher with minimum search length 1 and the genome ("G", "A"). -/
def matcherOne : GenomeMatcherImpl :=
  GenomeMatcherImpl.build 1 [⟨"G".toList, "A".toList⟩]

/-- A matcher with minimum search length 4 and the genome ("G1", "ACGTC"). -/
def matcherTail : GenomeMatcherImpl :=
  GenomeMatcherImpl.build 4 [⟨"G1".toList, "ACGTC".toList⟩]

/-- The genome ("E", "ACTTT"), in which the fragment "ACGT" matches up to length 2. -/
def genomeE : Genome := ⟨"E".toList, "ACTTT".toList⟩

/-- The genome ("C", "ACAAA"), in which the fragment "ACGT" matches up to length 2. -/
def genomeC : Genome := ⟨"C".toList, "ACAAA".toList⟩

/-- A matcher with minimum search length 2 in which the genome ("D", "ACG"), shorter
than the four-character fragment searched, is followed by `genomeE` and `genomeC`. -/
def matcherTies : GenomeMatcherImpl :=
  GenomeMatcherImpl.build 2 [⟨"D".toList, "ACG".toList⟩, genomeE, genomeC]

/-- The query of 29 bases A followed by 21 bases C: 50 windows of length 1. -/
def queryRound : Genome :=
  ⟨"Q".toList, List.replicate 29 'A' ++ List.replicate 21 'C'⟩

/-! ### Further definitions: output parameters, name lookup, examples -/

/-- `GenomeImpl::extract` (Genome.cpp 164-173) with its output parameter: the
argument `fragment` is the string of the caller on entry; the result is the returned
boolean and that string on exit, assigned only on the path that returns `true`. -/
def Genome.extractInto (g : Genome) (position length : Int) (fragment : List Char) :
    Bool × List Char :=
  match g.extract position length with
  | none => (false, fragment)
  | some f => (true, f)

/-- A matcher with minimum search length 2 and the only genome ("D", "AC"), shorter
than the three-character fragments searched. -/
def matcherWrap : GenomeMatcherImpl :=
  GenomeMatcherImpl.build 2 [⟨"D".toList, "AC".toList⟩]

/-- The list index of the first genome of the given name, if there is one. -/
def firstIndex : List Genome → List Char → Option Nat
  | [], _ => none
  | g :: gs, name => if g.name = name then some 0 else (firstIndex gs name).map (· + 1)

/-- Two genomes of the same name "X": ("X", "ACGT") and ("X", "TTTTT"). -/
def genomeX1 : Genome := ⟨"X".toList, "ACGT".toList⟩

/-- The second genome named "X". -/
def genomeX2 : Genome := ⟨"X".toList, "TTTTT".toList⟩

/-- The matcher with minimum search length 4 in which `genomeX1` and then `genomeX2`
are registered. -/
def matcherDup : GenomeMatcherImpl :=
  ((GenomeMatcherImpl.new 4).addGenome genomeX1).addGenome genomeX2

/-- The records that the index invariant of the specification expects under the key
`k`: for each registered genome, in registration order, and each position `i` from 0
to `g.length() - m`, in increasing order, with `g.extract(i, m) = k`, the record
`{g.name(), i, m}`. -/
def expectedRecords (m : Int) (gs : List Genome) (k : List Char) : List DNAMatch :=
  gs.flatMap fun g =>
    ((List.range (g.length - m + 1).toNat).filter
        (fun (i : Nat) => decide (g.extract (i : Int) m = some k))).map
      (fun (i : Nat) => DNAMatch.mk g.name (i : Int) m)

/-- The index invariant: the exact lookup of every key of the length of the minimum
search length holds the expected records, in the expected order. -/
def IndexInv (s : GenomeMatcherImpl) : Prop :=
  ∀ k : List Char, (k.length : Int) = s.m_minSearchLength →
    s.m_genomeTrie.find k true = expectedRecords s.m_minSearchLength s.m_genomes k

/-- The name lookup holds, for every name, the index of the first genome of that
name. -/
def GMapFirst (s : GenomeMatcherImpl) : Prop :=
  ∀ name, gMapAt s.gMap name = (firstIndex s.m_genomes name).map (fun (i : Nat) => (i : Int))

/-- The length that the inner loop of `findGenomesWithThisDNA` leaves in a candidate
after its first `k` turns, when every extraction succeeds: the last of the lengths
`minN`, `minN + 1`, ... at which the comparison `matched` succeeded, or the length
`len0` that the candidate had when none did. -/
def bestUpTo (matched : Nat → Bool) (minN : Nat) (len0 : Int) : Nat → Int
  | 0 => len0
  | k + 1 =>
      if matched (k + minN) then ((k + minN : Nat) : Int) else bestUpTo matched minN len0 k

/-- The percentage that `findRelatedGenomes` computes from the counter `n` of a genome
and the number `S` of whole windows: the `double` `n / S * 100`, the quotient and the
product each rounded, and no number (a NaN, which no comparison accepts) when `S` is
zero. -/
def computedPercent (S n : Int) : Option ℚ :=
  if S = 0 then none
  else some (Dbl.mul (Dbl.div (Dbl.mul (Dbl.ofInt n) (Dbl.ofInt 1)) (Dbl.ofInt S))
    (Dbl.ofInt 100)).toRat

/-- The output that the specification expects from `findRelatedGenomes` on an empty
vector: one record per genome whose computed percentage reaches the threshold, with
the name of the genome and that percentage, in registration order. -/
def thresholdRecords (S : Int) (matchPercentThreshold : ℚ) (l : List (Genome × Int)) :
    List GenomeMatch :=
  l.filterMap fun e =>
    match computedPercent S e.2 with
    | some p => if p ≥ matchPercentThreshold then some (GenomeMatch.mk e.1.name p) else none
    | none => none

/-- The genome ("G1", "ACGTC") of `matcherTail`. -/
def genomeTail : Genome := ⟨"G1".toList, "ACGTC".toList⟩

/-- The query ("Q", "GGGGACGT"): two whole windows of length 4. -/
def queryTwo : Genome := ⟨"Q".toList, "GGGGACGT".toList⟩

/-! ### Genome.cpp: loading -/

/-- The character loop of `GenomeImpl::load` on a sequence line (Genome.cpp 127-137):
every character is replaced by its upper case; `none` when one of them is then none
of A, C, T, G, N (the path that returns `false`), else the upper-cased line. -/
def upperLine : List Char → Option (List Char)
  | [] => some []
  | c :: cs =>
      if c.toUpper ≠ 'A' ∧ c.toUpper ≠ 'C' ∧ c.toUpper ≠ 'T' ∧ c.toUpper ≠ 'G'
          ∧ c.toUpper ≠ 'N' then
        none
      else
        match upperLine cs with
        | none => none
        | some up => some (c.toUpper :: up)

/-- The `getline` loop of `GenomeImpl::load` and the code after it (Genome.cpp 94-153)
on the lines that are left to read, with the current `name`, `sequence` and vector of
genomes; the result is the returned boolean and the vector on exit. On an empty line
`temp[0]` is the null character, which is not `'>'`. -/
def loadLoop : List (List Char) → List Char → List Char → List Genome → Bool × List Genome
  | [], name, sequence, genomes =>
      if sequence = [] ∨ name = [] then (false, genomes)
      else (true, genomes ++ [Genome.mk name sequence])
  | temp :: rest, name, sequence, genomes =>
      if temp.head? = some '>' then
        if temp = ['>'] then (false, genomes)
        else if name ≠ [] ∧ sequence = [] then (false, genomes)
        else
          loadLoop rest (temp.drop 1) []
            (if sequence ≠ [] then genomes ++ [Genome.mk name sequence] else genomes)
      else
        if name = [] then (false, genomes)
        else
          match upperLine temp with
          | none => (false, genomes)
          | some up => loadLoop rest name (sequence ++ up) genomes

/-- `GenomeImpl::load` (Genome.cpp 27-154) on an input given as its list of lines. -/
def Genome.load (lines : List (List Char)) (genomes : List Genome) : Bool × List Genome :=
  loadLoop lines [] [] genomes

/-- The characters that a sequence may hold. -/
def bases : List Char := ['A', 'C', 'G', 'T', 'N']

/-- The concatenation of the upper-cased lines. -/
def upperFlat (ls : List (List Char)) : List Char :=
  (ls.map fun l => l.map Char.toUpper).flatten

/-- The lines of a record of the input: the header line, `'>'` followed by the name,
and then the sequence lines. -/
def recordLines (r : List Char × List (List Char)) : List (List Char) :=
  ('>' :: r.1) :: r.2

/-- A record of the input that `load` accepts: a non-empty name, sequence lines that
do not begin with `'>'`, whose upper-cased concatenation is non-empty and holds
bases only. -/
def ValidRecord (r : List Char × List (List Char)) : Prop :=
  r.1 ≠ [] ∧ (∀ l ∈ r.2, l.head? ≠ some '>') ∧ upperFlat r.2 ≠ []
    ∧ ∀ c ∈ upperFlat r.2, c ∈ bases

/-! ## Trie: exact lookup -/

@[simp] theorem Node.m_label_mk (l : Char) (vs : List V) (cs : List (Node V)) :
    (Node.mk l vs cs).m_label = l := rfl

@[simp] theorem Node.m_values_mk (l : Char) (vs : List V) (cs : List (Node V)) :
    (Node.mk l vs cs).m_values = vs := rfl

@[simp] theorem Node.m_children_mk (l : Char) (vs : List V) (cs : List (Node V)) :
    (Node.mk l vs cs).m_children = cs := rfl

theorem label_insertHelper (k : List Char) (v : V) (n : Node V) :
    (insertHelper k v n).m_label = n.m_label := by
  cases k <;> rfl

theorem findChild_insertChild_same (c : Char) (f : Node V → Node V)
    (hf : ∀ n, (f n).m_label = n.m_label) (chs : List (Node V)) :
    findChild c (insertChild c f chs) = some (f ((findChild c chs).getD (Node.mk c [] []))) := by
  induction chs with
  | nil => simp [insertChild, findChild, hf]
  | cons ch chs ih =>
    by_cases h : ch.m_label = c
    · simp [insertChild, findChild, h, hf]
    · simp [insertChild, findChild, h, ih]

theorem findChild_insertChild_ne (c d : Char) (hd : d ≠ c) (f : Node V → Node V)
    (hf : ∀ n, (f n).m_label = n.m_label) (chs : List (Node V)) :
    findChild d (insertChild c f chs) = findChild d chs := by
  induction chs with
  | nil => simp [insertChild, findChild, hf, Ne.symm hd]
  | cons ch chs ih =>
    by_cases h : ch.m_label = c
    · simp [insertChild, findChild, h, hf, Ne.symm hd]
    · simp only [insertChild, findChild, h, if_false, ih]

theorem valuesAt_nil (n : Node V) : valuesAt [] n = n.m_values := rfl

theorem valuesAt_cons (d : Char) (p : List Char) (n : Node V) :
    valuesAt (d :: p) n =
      match findChild d n.m_children with
      | some ch => valuesAt p ch
      | none => [] := by
  simp only [valuesAt, findExactHelper]
  cases findChild d n.m_children <;> rfl

theorem valuesAt_insertHelper (k : List Char) (v : V) :
    ∀ (p : List Char) (n : Node V),
      valuesAt p (insertHelper k v n) = valuesAt p n ++ (if p = k then [v] else []) := by
  induction k with
  | nil =>
    intro p n
    cases p with
    | nil => simp [valuesAt_nil, insertHelper]
    | cons d p => simp [valuesAt_cons, insertHelper]
  | cons c k ih =>
    intro p n
    cases p with
    | nil => simp [valuesAt_nil, insertHelper]
    | cons d p =>
      by_cases hd : d = c
      · subst hd
        have h1 := findChild_insertChild_same d (insertHelper k v) (label_insertHelper k v)
          n.m_children
        simp only [valuesAt_cons, insertHelper, Node.m_children_mk, h1, ih]
        cases hfc : findChild d n.m_children with
        | none =>
          cases p with
          | nil => simp [valuesAt_nil]
          | cons e p => simp [valuesAt_cons, findChild]
        | some ch => simp
      · have h1 := findChild_insertChild_ne c d hd (insertHelper k v) (label_insertHelper k v)
          n.m_children
        simp [valuesAt_cons, insertHelper, h1, hd]

theorem find_exact_eq (t : Trie V) (k : List Char) : t.find k true = valuesAt k t.m_root := rfl

theorem find_exact_insert (t : Trie V) (k' : List Char) (v : V) (k : List Char) :
    (t.insert k' v).find k true = t.find k true ++ (if k = k' then [v] else []) := by
  simp only [find_exact_eq, Trie.insert, valuesAt_insertHelper]

theorem find_exact_foldl (ins : List (List Char × V)) (k : List Char) :
    ∀ t : Trie V, (ins.foldl (fun t e => t.insert e.1 e.2) t).find k true
      = t.find k true ++ valuesFor ins k := by
  induction ins with
  | nil => intro t; simp [valuesFor]
  | cons e ins ih =>
    intro t
    rw [List.foldl_cons, ih, find_exact_insert]
    by_cases h : e.1 = k
    · simp [valuesFor, List.filterMap_cons, h]
    · have h2 : ¬ k = e.1 := fun x => h x.symm
      simp [valuesFor, List.filterMap_cons, h, h2]

theorem find_exact_build (ins : List (List Char × V)) (k : List Char) :
    (buildTrie ins).find k true = valuesFor ins k := by
  unfold buildTrie
  rw [find_exact_foldl]
  simp [find_exact_eq, Trie.empty, valuesAt, findExactHelper]
  cases k <;> simp [findExactHelper, findChild]

theorem valuesFor_eq_nil (ins : List (List Char × V)) (k : List Char)
    (h : ∀ e ∈ ins, e.1 ≠ k) : valuesFor ins k = [] := by
  induction ins with
  | nil => rfl
  | cons e ins ih =>
    have h1 : e.1 ≠ k := h e (List.mem_cons_self _ _)
    have h2 := ih (fun x hx => h x (List.mem_cons_of_mem _ hx))
    simp only [valuesFor] at h2
    simp [valuesFor, List.filterMap_cons, h1, h2]

/-- C1: on a trie built from the empty trie by any sequence of `insert` calls, the
exact lookup of a key returns the values inserted under exactly that key, in
insertion order with duplicates kept; it is empty when no insertion used the key,
whatever prefixes or extensions of the key were inserted. -/
theorem trie_find_exact_spec (ins : List (List Char × V)) (k : List Char) :
    (buildTrie ins).find k true = valuesFor ins k
      ∧ ((∀ e ∈ ins, e.1 ≠ k) → (buildTrie ins).find k true = []) :=
  ⟨find_exact_build ins k, fun h => by rw [find_exact_build, valuesFor_eq_nil ins k h]⟩

/-! ## Trie: well-formedness is preserved by insertion -/

theorem WF.labels {n : Node V} (h : WF n) : (n.m_children.map Node.m_label).Nodup := by
  cases h with
  | mk l vs cs h1 h2 => exact h1

theorem WF.child {n : Node V} (h : WF n) : ∀ ch ∈ n.m_children, WF ch := by
  cases h with
  | mk l vs cs h1 h2 => exact h2

theorem WF.leaf (c : Char) (vs : List V) : WF (Node.mk c vs []) :=
  WF.mk c vs [] (by simp) (by simp)

theorem labels_insertChild (c : Char) (f : Node V → Node V)
    (hf : ∀ n, (f n).m_label = n.m_label) (chs : List (Node V)) :
    (insertChild c f chs).map Node.m_label
      = if c ∈ chs.map Node.m_label then chs.map Node.m_label
        else chs.map Node.m_label ++ [c] := by
  induction chs with
  | nil => simp [insertChild, hf]
  | cons ch chs ih =>
    by_cases h : ch.m_label = c
    · simp [insertChild, h, hf]
    · have h2 : ¬ c = ch.m_label := fun x => h x.symm
      simp only [insertChild, h, if_false, List.map_cons, ih, List.mem_cons, h2, false_or]
      split <;> simp

theorem mem_insertChild (c : Char) (f : Node V → Node V) (chs : List (Node V)) (x : Node V)
    (hx : x ∈ insertChild c f chs) :
    x ∈ chs ∨ (∃ y ∈ chs, x = f y) ∨ x = f (Node.mk c [] []) := by
  induction chs with
  | nil =>
    simp only [insertChild, List.mem_singleton] at hx
    exact Or.inr (Or.inr hx)
  | cons ch chs ih =>
    by_cases h : ch.m_label = c
    · simp only [insertChild, h, if_true, List.mem_cons] at hx
      rcases hx with hx | hx
      · exact Or.inr (Or.inl ⟨ch, List.mem_cons_self _ _, hx⟩)
      · exact Or.inl (List.mem_cons_of_mem _ hx)
    · simp only [insertChild, h, if_false, List.mem_cons] at hx
      rcases hx with hx | hx
      · exact Or.inl (hx ▸ List.mem_cons_self _ _)
      · rcases ih hx with h1 | ⟨y, hy, h1⟩ | h1
        · exact Or.inl (List.mem_cons_of_mem _ h1)
        · exact Or.inr (Or.inl ⟨y, List.mem_cons_of_mem _ hy, h1⟩)
        · exact Or.inr (Or.inr h1)

theorem WF_insertHelper (k : List Char) (v : V) :
    ∀ n : Node V, WF n → WF (insertHelper k v n) := by
  induction k with
  | nil =>
    intro n hn
    cases hn with
    | mk l vs cs h1 h2 => exact WF.mk _ _ _ h1 h2
  | cons c k ih =>
    intro n hn
    cases hn with
    | mk l vs cs h1 h2 =>
      simp only [insertHelper, Node.m_label_mk, Node.m_values_mk, Node.m_children_mk]
      refine WF.mk _ _ _ ?_ ?_
      · rw [labels_insertChild c _ (label_insertHelper k v)]
        split
        · exact h1
        · rename_i hc
          exact List.Nodup.append h1 (by simp) (by simp [hc])
      · intro x hx
        rcases mem_insertChild c _ cs x hx with h | ⟨y, hy, h⟩ | h
        · exact h2 x h
        · exact h ▸ ih y (h2 y hy)
        · exact h ▸ ih _ (WF.leaf c [])

theorem WF_foldl (ins : List (List Char × V)) :
    ∀ t : Trie V, WF t.m_root → WF (ins.foldl (fun t e => t.insert e.1 e.2) t).m_root := by
  induction ins with
  | nil => intro t h; exact h
  | cons e ins ih =>
    intro t h
    exact ih _ (WF_insertHelper e.1 e.2 _ h)

theorem WF_buildTrie (ins : List (List Char × V)) : WF (buildTrie ins).m_root :=
  WF_foldl ins _ (WF.leaf _ [])

/-! ## Trie: one-mismatch lookup -/

theorem findChild_of_mem (chs : List (Node V)) (hnd : (chs.map Node.m_label).Nodup)
    (ch : Node V) (hch : ch ∈ chs) : findChild ch.m_label chs = some ch := by
  induction chs with
  | nil => cases hch
  | cons x xs ih =>
    rw [List.map_cons, List.nodup_cons] at hnd
    rcases List.mem_cons.1 hch with h | h
    · subst h; simp [findChild]
    · have hne : x.m_label ≠ ch.m_label := by
        intro e
        exact hnd.1 (e ▸ List.mem_map_of_mem _ h)
      simp only [findChild, hne, if_false]
      exact ih hnd.2 h

theorem findChild_some (c : Char) (chs : List (Node V)) (ch : Node V)
    (h : findChild c chs = some ch) : ch ∈ chs ∧ ch.m_label = c := by
  induction chs with
  | nil => simp [findChild] at h
  | cons x xs ih =>
    by_cases hx : x.m_label = c
    · simp only [findChild, hx, if_true, Option.some.injEq] at h
      subst h
      exact ⟨List.mem_cons_self _ _, hx⟩
    · simp only [findChild, hx, if_false] at h
      exact ⟨List.mem_cons_of_mem _ (ih h).1, (ih h).2⟩

theorem findChild_none (c : Char) (chs : List (Node V)) (h : findChild c chs = none) :
    ∀ ch ∈ chs, ch.m_label ≠ c := by
  induction chs with
  | nil => simp
  | cons x xs ih =>
    by_cases hx : x.m_label = c
    · simp [findChild, hx] at h
    · simp only [findChild, hx, if_false] at h
      intro ch hch
      rcases List.mem_cons.1 hch with e | e
      · exact e ▸ hx
      · exact ih h ch e

theorem flatMap_congr_mem {α β : Type} (l : List α) (f g : α → List β)
    (h : ∀ x ∈ l, f x = g x) : l.flatMap f = l.flatMap g := by
  induction l with
  | nil => rfl
  | cons x xs ih =>
    rw [List.flatMap_cons, List.flatMap_cons, h x (List.mem_cons_self _ _),
      ih (fun y hy => h y (List.mem_cons_of_mem _ hy))]

theorem flatMap_eq_nil_of {α β : Type} (l : List α) (f : α → List β)
    (h : ∀ x ∈ l, f x = []) : l.flatMap f = [] := by
  rw [flatMap_congr_mem l f (fun _ => []) h]
  induction l with
  | nil => rfl
  | cons x xs ih => simp

theorem snip_eq_collect (key : List Char) :
    ∀ (index : Nat) (n : Node V) (am : Bool), index ≠ 0 → key ≠ [] →
      findSNiPHelper key index n am = collect key n am := by
  induction key with
  | nil => intro _ _ _ _ h; exact absurd rfl h
  | cons c rest ih =>
    intro index n am hi _
    simp only [findSNiPHelper, collect, hi, if_false]
    refine congrArg _ (funext fun ch => ?_)
    by_cases hr : rest = []
    · subst hr
      simp [findSNiPHelper, collect]
    · have h1 := fun b => ih (index + 1) ch b (Nat.succ_ne_zero _) hr
      simp [hr, h1]

theorem valuesAt_child (n : Node V) (hn : WF n) (ch : Node V) (hch : ch ∈ n.m_children)
    (q : List Char) : valuesAt (ch.m_label :: q) n = valuesAt q ch := by
  rw [valuesAt_cons, findChild_of_mem _ hn.labels ch hch]

theorem findExact_child (n : Node V) (hn : WF n) (ch : Node V) (hch : ch ∈ n.m_children)
    (q : List Char) : findExactHelper (ch.m_label :: q) n = findExactHelper q ch := by
  simp only [findExactHelper, findChild_of_mem _ hn.labels ch hch]

theorem collect_eq_keys (rest : List Char) :
    ∀ (n : Node V) (mism : Bool), WF n →
      collect rest n mism = (snipKeys rest n mism).flatMap (fun q => valuesAt q n) := by
  induction rest with
  | nil => intro n mism _; simp [collect, snipKeys, valuesAt_nil]
  | cons c rest ih =>
    intro n mism hn
    simp only [collect, snipKeys, List.flatMap_assoc]
    refine flatMap_congr_mem _ _ _ (fun ch hch => ?_)
    have hw := hn.child ch hch
    have hv : ∀ ks : List (List Char),
        (ks.map (ch.m_label :: ·)).flatMap (fun q => valuesAt q n)
          = ks.flatMap (fun q => valuesAt q ch) := by
      intro ks
      rw [List.flatMap_map]
      exact flatMap_congr_mem _ _ _ (fun q _ => valuesAt_child n hn ch hch q)
    by_cases h1 : ch.m_label = c
    · simp only [h1, if_true]
      rw [← h1, hv, ih ch mism hw]
    · by_cases h2 : mism = true
      · simp [h1, h2]
      · have h3 : mism = false := by simpa using h2
        subst h3
        simp only [h1, if_false, Bool.not_false, if_true]
        rw [hv, ih ch true hw]

theorem mem_snipKeys (rest : List Char) :
    ∀ (n : Node V) (mism : Bool) (q : List Char), WF n →
      (q ∈ snipKeys rest n mism ↔
        q.length = rest.length ∧ (findExactHelper q n).isSome = true
          ∧ mismatches rest q ≤ (if mism then 0 else 1)) := by
  induction rest with
  | nil =>
    intro n mism q _
    cases q with
    | nil => simp [snipKeys, findExactHelper, mismatches]
    | cons d q => simp [snipKeys]
  | cons c rest ih =>
    intro n mism q hn
    simp only [snipKeys, List.mem_flatMap]
    constructor
    · rintro ⟨ch, hch, hq⟩
      have hw := hn.child ch hch
      by_cases h1 : ch.m_label = c
      · simp only [h1, if_true, List.mem_map] at hq
        obtain ⟨q', hq', rfl⟩ := hq
        have := (ih ch mism q' hw).1 hq'
        refine ⟨by simp [this.1], ?_, ?_⟩
        · rw [← h1, findExact_child n hn ch hch]; exact this.2.1
        · simpa [mismatches] using this.2.2
      · by_cases h2 : mism = true
        · simp [h1, h2] at hq
        · have h3 : mism = false := by simpa using h2
          subst h3
          simp only [h1, if_false, Bool.not_false, if_true, List.mem_map] at hq
          obtain ⟨q', hq', rfl⟩ := hq
          have := (ih ch true q' hw).1 hq'
          refine ⟨by simp [this.1], ?_, ?_⟩
          · rw [findExact_child n hn ch hch]; exact this.2.1
          · have h4 : ¬ c = ch.m_label := fun x => h1 x.symm
            have h5 := this.2.2
            simp only [if_true] at h5
            simp [mismatches, h4]
            omega
    · rintro ⟨hl, hs, hm⟩
      cases q with
      | nil => simp at hl
      | cons d q' =>
        simp only [findExactHelper] at hs
        cases hfc : findChild d n.m_children with
        | none => simp [hfc] at hs
        | some ch =>
          simp only [hfc] at hs
          obtain ⟨hch, hlab⟩ := findChild_some d _ ch hfc
          have hw := hn.child ch hch
          refine ⟨ch, hch, ?_⟩
          have hl' : q'.length = rest.length := by simpa using hl
          by_cases h1 : ch.m_label = c
          · have hcd : c = d := h1.symm.trans hlab
            simp only [h1, if_true, List.mem_map]
            refine ⟨q', (ih ch mism q' hw).2 ⟨hl', hs, ?_⟩, by rw [hcd]⟩
            simpa [mismatches, hcd] using hm
          · have hcd : ¬ c = d := fun x => h1 (hlab.trans x.symm)
            simp only [mismatches, hcd, if_false] at hm
            by_cases h2 : mism = true
            · simp [h2] at hm
            · have h3 : mism = false := by simpa using h2
              subst h3
              simp only [h1, if_false, Bool.not_false, if_true, List.mem_map]
              refine ⟨q', (ih ch true q' hw).2 ⟨hl', hs, ?_⟩, by rw [hlab]⟩
              simp at hm ⊢
              omega

theorem head_of_mem_snipKeys_branch (c : Char) (rest : List Char) (mism : Bool) (ch : Node V)
    (q : List Char)
    (hq : q ∈ (if ch.m_label = c then (snipKeys rest ch mism).map (ch.m_label :: ·)
        else if (!mism) = true then (snipKeys rest ch true).map (ch.m_label :: ·) else [])) :
    q.head? = some ch.m_label := by
  split at hq
  · obtain ⟨q', _, rfl⟩ := List.mem_map.1 hq; rfl
  · split at hq
    · obtain ⟨q', _, rfl⟩ := List.mem_map.1 hq; rfl
    · cases hq

theorem nodup_snipKeys (rest : List Char) :
    ∀ (n : Node V) (mism : Bool), WF n → (snipKeys rest n mism).Nodup := by
  induction rest with
  | nil => intro n mism _; simp [snipKeys]
  | cons c rest ih =>
    intro n mism hn
    simp only [snipKeys]
    rw [List.nodup_flatMap]
    constructor
    · intro ch hch
      have hw := hn.child ch hch
      have hinj : Function.Injective (fun q : List Char => ch.m_label :: q) :=
        fun a b h => (List.cons.inj h).2
      split
      · exact (ih ch mism hw).map hinj
      · split
        · exact (ih ch true hw).map hinj
        · exact List.nodup_nil
    · have hp : List.Pairwise (fun a b : Node V => a.m_label ≠ b.m_label) n.m_children :=
        List.pairwise_map.1 hn.labels
      refine hp.imp ?_
      intro a b hab q hqa hqb
      have h1 := head_of_mem_snipKeys_branch c rest mism a q hqa
      have h2 := head_of_mem_snipKeys_branch c rest mism b q hqb
      rw [h1] at h2
      exact hab (Option.some.inj h2)

/-- The keys whose nodes the one-mismatch lookup of `c :: rest` visits from the root. -/
theorem find_snip_eq (t : Trie V) (ht : WF t.m_root) (c : Char) (rest : List Char)
    (hr : rest ≠ []) :
    t.find (c :: rest) false
      = (match findChild c t.m_root.m_children with
          | some ch => (snipKeys rest ch false).map (c :: ·)
          | none => []).flatMap (fun q => valuesAt q t.m_root) := by
  have h0 : t.find (c :: rest) false
      = t.m_root.m_children.flatMap fun ch =>
          if ch.m_label = c then collect rest ch false else [] := by
    simp only [Trie.find, findSNiPHelper, if_true, Bool.false_eq_true, if_false]
    refine congrArg _ (funext fun ch => ?_)
    rw [snip_eq_collect rest 1 ch false (by decide) hr]
  rw [h0]
  cases hfc : findChild c t.m_root.m_children with
  | none =>
    have := findChild_none c _ hfc
    simp only [List.flatMap_nil]
    exact flatMap_eq_nil_of _ _ (fun ch hch => by simp [this ch hch])
  | some ch0 =>
    obtain ⟨hmem, hlab⟩ := findChild_some c _ ch0 hfc
    simp only
    rw [List.flatMap_map]
    have hv : ((snipKeys rest ch0 false).flatMap fun q => valuesAt (c :: q) t.m_root)
        = collect rest ch0 false := by
      rw [collect_eq_keys rest ch0 false (ht.child ch0 hmem)]
      refine flatMap_congr_mem _ _ _ (fun q _ => ?_)
      rw [← hlab, valuesAt_child _ ht ch0 hmem]
    rw [hv]
    -- exactly one child carries the label `c`
    have hnd := ht.labels
    revert hmem hnd
    generalize t.m_root.m_children = chs
    intro hmem hnd
    induction chs with
    | nil => cases hmem
    | cons x xs ih =>
      rw [List.map_cons, List.nodup_cons] at hnd
      rw [List.flatMap_cons]
      rcases List.mem_cons.1 hmem with h | h
      · subst h
        have : xs.flatMap (fun ch => if ch.m_label = c then collect rest ch false else []) = [] := by
          refine flatMap_eq_nil_of _ _ (fun y hy => ?_)
          have : y.m_label ≠ c := by
            intro e
            exact hnd.1 (by rw [hlab, ← e]; exact List.mem_map_of_mem _ hy)
          simp [this]
        simp [hlab, this]
      · have hx : x.m_label ≠ c := by
          intro e
          exact hnd.1 (by rw [e, ← hlab]; exact List.mem_map_of_mem _ h)
        simp only [hx, if_false, List.nil_append]
        exact ih h hnd.2

theorem mem_valuesFor (ins : List (List Char × V)) (k : List Char) (v : V) :
    v ∈ valuesFor ins k ↔ (k, v) ∈ ins := by
  simp only [valuesFor, List.mem_filterMap]
  constructor
  · rintro ⟨e, he, h⟩
    split at h
    · rename_i hk
      cases h
      rw [← hk]; exact he
    · cases h
  · intro h
    exact ⟨(k, v), h, by simp⟩

theorem valuesFor_cons (e : List Char × V) (ins : List (List Char × V)) (k : List Char) :
    valuesFor (e :: ins) k = (if e.1 = k then [e.2] else []) ++ valuesFor ins k := by
  by_cases h : e.1 = k <;> simp [valuesFor, List.filterMap_cons, h]

theorem flatMap_single_of_nodup (ks : List (List Char)) (hnd : ks.Nodup) (a : List Char) (v : V) :
    ks.flatMap (fun k => if a = k then [v] else []) = if a ∈ ks then [v] else [] := by
  induction ks with
  | nil => rfl
  | cons k ks ih =>
    rw [List.nodup_cons] at hnd
    rw [List.flatMap_cons, ih hnd.2]
    by_cases h : a = k
    · subst h
      simp [hnd.1]
    · have : ¬ a ∈ k :: ks ↔ ¬ a ∈ ks := by simp [h]
      by_cases h2 : a ∈ ks <;> simp [h, h2]

theorem flatMap_valuesFor_perm (ks : List (List Char)) (hnd : ks.Nodup)
    (ins : List (List Char × V)) :
    (ks.flatMap (fun k => valuesFor ins k)).Perm
      ((ins.filter (fun e => decide (e.1 ∈ ks))).map Prod.snd) := by
  induction ins with
  | nil =>
    have h0 := flatMap_eq_nil_of ks (fun k => valuesFor ([] : List (List Char × V)) k)
      (fun _ _ => rfl)
    rw [h0]
    exact List.Perm.refl _
  | cons e ins ih =>
    have h1 : (ks.flatMap fun k => valuesFor (e :: ins) k)
        = ks.flatMap fun k => (if e.1 = k then [e.2] else []) ++ valuesFor ins k :=
      congrArg _ (funext fun k => valuesFor_cons e ins k)
    rw [h1]
    refine (List.flatMap_append_perm ks _ _).symm.trans ?_
    rw [flatMap_single_of_nodup ks hnd]
    by_cases h : e.1 ∈ ks
    · simp only [h, if_true, List.filter_cons, decide_True, List.map_cons]
      exact List.Perm.cons _ ih
    · simp only [h, if_false, List.filter_cons, decide_False, List.nil_append]
      exact ih

theorem snipMatch_cons (c d : Char) (rest q : List Char) :
    snipMatch (c :: rest) (d :: q) = true
      ↔ q.length = rest.length ∧ c = d ∧ mismatches rest q ≤ 1 := by
  simp only [snipMatch, Bool.and_eq_true, decide_eq_true_eq, List.length_cons, List.head?_cons,
    Option.some.injEq, mismatches]
  constructor
  · rintro ⟨⟨h1, h2⟩, h3⟩
    refine ⟨by omega, h2.symm, ?_⟩
    simpa [h2.symm] using h3
  · rintro ⟨h1, h2, h3⟩
    refine ⟨⟨by omega, h2.symm⟩, ?_⟩
    simpa [h2] using h3

theorem snipMatch_length (k k' : List Char) (h : snipMatch k k' = true) :
    k'.length = k.length := by
  simp only [snipMatch, Bool.and_eq_true, decide_eq_true_eq] at h
  exact h.1.1

/-- The one-mismatch lookup of a key of length at least two, as a concatenation over
the matching stored keys. -/
theorem find_snip_build (ins : List (List Char × V)) (k : List Char) (hk : 2 ≤ k.length) :
    ∃ ks : List (List Char), ks.Nodup
      ∧ (∀ k', k' ∈ ks ↔ (snipMatch k k' = true ∧ ∃ v, (k', v) ∈ ins))
      ∧ (buildTrie ins).find k false = ks.flatMap (fun k' => valuesFor ins k') := by
  obtain ⟨c, rest, rfl, hr⟩ : ∃ c rest, k = c :: rest ∧ rest ≠ [] := by
    cases k with
    | nil => simp at hk
    | cons c rest =>
      refine ⟨c, rest, rfl, ?_⟩
      intro h; subst h; simp at hk
  have hwf := WF_buildTrie ins
  have hfind := find_snip_eq (buildTrie ins) hwf c rest hr
  have hval : ∀ q, valuesAt q (buildTrie ins).m_root = valuesFor ins q := fun q => by
    rw [← find_exact_eq, find_exact_build]
  -- all keys visited, stored or not
  let ks0 : List (List Char) :=
    match findChild c (buildTrie ins).m_root.m_children with
    | some ch => (snipKeys rest ch false).map (c :: ·)
    | none => []
  have hks0 : (buildTrie ins).find (c :: rest) false = ks0.flatMap (fun q => valuesFor ins q) := by
    rw [hfind]
    exact flatMap_congr_mem _ _ _ (fun q _ => hval q)
  have hnd0 : ks0.Nodup := by
    show (match findChild c (buildTrie ins).m_root.m_children with
      | some ch => (snipKeys rest ch false).map (c :: ·)
      | none => []).Nodup
    cases hfc : findChild c (buildTrie ins).m_root.m_children with
    | none => exact List.nodup_nil
    | some ch =>
      have hmem := (findChild_some c _ ch hfc).1
      exact (nodup_snipKeys rest ch false (hwf.child ch hmem)).map
        (fun a b h => (List.cons.inj h).2)
  have hmem0 : ∀ q, q ∈ ks0 ↔
      (snipMatch (c :: rest) q = true ∧ (findExactHelper q (buildTrie ins).m_root).isSome = true) := by
    intro q
    show q ∈ (match findChild c (buildTrie ins).m_root.m_children with
      | some ch => (snipKeys rest ch false).map (c :: ·)
      | none => []) ↔ _
    cases q with
    | nil =>
      have : snipMatch (c :: rest) [] = false := by simp [snipMatch]
      cases hfc : findChild c (buildTrie ins).m_root.m_children <;> simp [this]
    | cons d q' =>
      rw [snipMatch_cons]
      cases hfc : findChild c (buildTrie ins).m_root.m_children with
      | none =>
        simp only [List.not_mem_nil, false_iff, not_and]
        rintro ⟨_, hcd, _⟩
        subst hcd
        simp [findExactHelper, hfc]
      | some ch =>
        have hch := findChild_some c _ ch hfc
        have hw := hwf.child ch hch.1
        simp only [List.mem_map, List.cons.injEq]
        constructor
        · rintro ⟨q0, hq0, rfl, rfl⟩
          have := (mem_snipKeys rest ch false q0 hw).1 hq0
          refine ⟨⟨this.1, rfl, by simpa using this.2.2⟩, ?_⟩
          simp only [findExactHelper, hfc]
          exact this.2.1
        · rintro ⟨⟨h1, h2, h3⟩, h4⟩
          subst h2
          simp only [findExactHelper, hfc] at h4
          exact ⟨q', (mem_snipKeys rest ch false q' hw).2 ⟨h1, h4, by simpa using h3⟩, rfl, rfl⟩
  -- keep the stored keys only
  refine ⟨ks0.filter (fun q => !(valuesFor ins q).isEmpty), hnd0.filter _, ?_, ?_⟩
  · intro k'
    rw [List.mem_filter, hmem0]
    simp only [Bool.not_eq_true', List.isEmpty_eq_false]
    constructor
    · rintro ⟨⟨h1, _⟩, h3⟩
      obtain ⟨v, hv⟩ := List.exists_mem_of_ne_nil _ h3
      exact ⟨h1, v, (mem_valuesFor ins k' v).1 hv⟩
    · rintro ⟨h1, v, hv⟩
      have hv' := (mem_valuesFor ins k' v).2 hv
      have hne : valuesFor ins k' ≠ [] := List.ne_nil_of_mem hv'
      refine ⟨⟨h1, ?_⟩, hne⟩
      have h5 := hval k'
      simp only [valuesAt] at h5
      cases hfe : findExactHelper k' (buildTrie ins).m_root with
      | none => rw [hfe] at h5; exact absurd h5.symm hne
      | some x => rfl
  · rw [hks0]
    clear hks0 hnd0 hmem0 hfind
    generalize ks0 = l
    induction l with
    | nil => rfl
    | cons q l ih =>
      rw [List.flatMap_cons, ih, List.filter_cons]
      by_cases h : valuesFor ins q = []
      · simp [h]
      · simp [h]

/-- The one-mismatch lookup of a key of length at least two, as a multiset. -/
theorem find_snip_perm (ins : List (List Char × V)) (k : List Char) (hk : 2 ≤ k.length) :
    ((buildTrie ins).find k false).Perm
      ((ins.filter (fun e => snipMatch k e.1)).map Prod.snd) := by
  obtain ⟨ks, hnd, hmem, hfind⟩ := find_snip_build ins k hk
  rw [hfind]
  refine (flatMap_valuesFor_perm ks hnd ins).trans ?_
  have : ins.filter (fun e => decide (e.1 ∈ ks)) = ins.filter (fun e => snipMatch k e.1) := by
    refine List.filter_congr (fun e he => ?_)
    by_cases h : snipMatch k e.1 = true
    · have : e.1 ∈ ks := (hmem e.1).2 ⟨h, e.2, he⟩
      simp [h, this]
    · have : ¬ e.1 ∈ ks := fun x => h ((hmem e.1).1 x).1
      simp [h, this]
  rw [this]

/-- C2: on a trie built from the empty trie by `insert` calls, the one-mismatch
lookup of a key of length at least two is, as a multiset, the list of the values
inserted under the stored keys of the same length that agree with the key at the
first character and differ from it in at most one position, once per insertion;
and it is the concatenation, over the distinct matching stored keys, of the values
of each key in their insertion order. -/
theorem trie_find_snip_spec (ins : List (List Char × V)) (k : List Char) (hk : 2 ≤ k.length) :
    ((buildTrie ins).find k false).Perm
        ((ins.filter (fun e => snipMatch k e.1)).map Prod.snd)
      ∧ ∃ ks : List (List Char), ks.Nodup
          ∧ (∀ k', k' ∈ ks ↔ (snipMatch k k' = true ∧ ∃ v, (k', v) ∈ ins))
          ∧ (buildTrie ins).find k false = ks.flatMap (fun k' => valuesFor ins k') :=
  ⟨find_snip_perm ins k hk, find_snip_build ins k hk⟩

/-- A witness of `trie_find_snip_spec`: three insertions, two of them under keys within
one mismatch of the searched key. -/
theorem trie_find_snip_spec_witness :
    2 ≤ ['A', 'C', 'G'].length
      ∧ ((buildTrie [(['A', 'C', 'G'], 1), (['T', 'C', 'G'], 2), (['A', 'C', 'T'], 3)]).find
            ['A', 'C', 'G'] false).Perm
          ((([(['A', 'C', 'G'], 1), (['T', 'C', 'G'], 2), (['A', 'C', 'T'], 3)] :
              List (List Char × Nat)).filter
            (fun e => snipMatch ['A', 'C', 'G'] e.1)).map Prod.snd) :=
  ⟨by decide,
    (trie_find_snip_spec [(['A', 'C', 'G'], 1), (['T', 'C', 'G'], 2), (['A', 'C', 'T'], 3)]
      ['A', 'C', 'G'] (by decide)).1⟩

/-! ## Matcher: arithmetic, extraction and comparison -/

@[simp] theorem toSizeT_natCast (n : Nat) : toSizeT (n : Int) = n := by
  simp [toSizeT]

theorem subSizeT_of_le (a b : Nat) (h : b ≤ a) : subSizeT a b = a - b := by
  simp [subSizeT, h]

/-- On the values that an `int` or a `size_t` can hold, `toSizeT` is the reduction
modulo `2 ^ 64`. -/
theorem toSizeT_eq_mod (x : Int) (h1 : -(2 ^ 64) ≤ x) (h2 : x < 2 ^ 64) :
    toSizeT x = (x % 2 ^ 64).toNat := by
  unfold toSizeT
  split <;> omega

/-- On operands that a `size_t` can hold, `subSizeT` is the difference modulo `2 ^ 64`. -/
theorem subSizeT_eq_mod (a b : Nat) (ha : a < 2 ^ 64) (hb : b < 2 ^ 64) :
    subSizeT a b = (a + 2 ^ 64 - b) % 2 ^ 64 := by
  unfold subSizeT
  split <;> omega

theorem extract_eq_window (g : Genome) (p n : Nat) (hn : 0 < n)
    (h : p + n ≤ g.m_sequence.length) :
    g.extract (p : Int) (n : Int) = some (window g.m_sequence p n) := by
  have h1 : ¬ ((p : Int) < 0) := by omega
  have h2 : ¬ ((n : Int) ≤ 0) := by omega
  have h3 : toSizeT ((p : Int) + (n : Int)) = p + n := by
    rw [← Nat.cast_add]; exact toSizeT_natCast _
  simp only [Genome.extract, toSizeT_natCast, h3, h1, h2, false_or, window]
  rw [if_neg]
  omega

theorem strAt_append (pre : List Char) (d : Char) (ds : List Char) :
    strAt (pre ++ d :: ds) pre.length = some d := by
  have h : (pre ++ d :: ds)[pre.length]? = some d := by
    rw [List.getElem?_append_right (le_refl _)]; simp
  simp only [strAt, h]
  rw [if_pos (by simp)]

theorem findDNAExact_eq (cs : List Char) :
    ∀ (pre ds : List Char), cs.length = ds.length →
      findDNAExact (pre ++ ds) cs pre.length = some (decide (cs = ds)) := by
  induction cs with
  | nil =>
    intro pre ds h
    cases ds with
    | nil => simp [findDNAExact]
    | cons d ds => simp at h
  | cons c cs ih =>
    intro pre ds h
    cases ds with
    | nil => simp at h
    | cons d ds =>
      have hl : cs.length = ds.length := by simpa using h
      have h2 := ih (pre ++ [d]) ds hl
      simp only [List.append_assoc, List.singleton_append, List.length_append,
        List.length_singleton] at h2
      simp only [findDNAExact, strAt_append]
      by_cases hcd : c = d
      · subst hcd
        simp [h2]
      · simp [hcd]

theorem findDNASNiP_eq (cs : List Char) :
    ∀ (pre ds : List Char) (am : Bool), cs.length = ds.length →
      findDNASNiP (pre ++ ds) cs pre.length am
        = some (decide (mismatches cs ds ≤ (if am then 0 else 1))) := by
  induction cs with
  | nil =>
    intro pre ds am h
    cases ds with
    | nil => simp [findDNASNiP, mismatches]
    | cons d ds => simp at h
  | cons c cs ih =>
    intro pre ds am h
    cases ds with
    | nil => simp at h
    | cons d ds =>
      have hl : cs.length = ds.length := by simpa using h
      have h2 := fun b => ih (pre ++ [d]) ds b hl
      simp only [List.append_assoc, List.singleton_append, List.length_append,
        List.length_singleton] at h2
      simp only [findDNASNiP, strAt_append, mismatches]
      by_cases hcd : c = d
      · subst hcd
        simp [h2]
      · cases am with
        | true => simp [hcd]
        | false =>
          simp only [hcd, ne_eq, not_false_eq_true, if_true, Bool.not_false, h2, if_false,
            Bool.false_eq_true]
          congr 1
          simp only [decide_eq_decide]
          omega

theorem findDNAHelper_eq (cmp1 cmp2 : List Char) (exactMatchOnly : Bool)
    (h : cmp1.length = cmp2.length) :
    findDNAHelper cmp1 cmp2 exactMatchOnly
      = some (if exactMatchOnly then decide (cmp1 = cmp2)
              else decide (mismatches cmp1 cmp2 ≤ 1)) := by
  have h1 := findDNAExact_eq cmp1 [] cmp2 h
  have h2 := findDNASNiP_eq cmp1 [] cmp2 false h
  simp only [List.nil_append, List.length_nil] at h1 h2
  cases exactMatchOnly <;> simp [findDNAHelper, h1, h2]

/-! ## Matcher: the state reached by registrations -/

namespace GenomeMatcherImpl

theorem addGenome_min (s : GenomeMatcherImpl) (g : Genome) :
    (s.addGenome g).m_minSearchLength = s.m_minSearchLength := rfl

theorem addGenome_genomes (s : GenomeMatcherImpl) (g : Genome) :
    (s.addGenome g).m_genomes = s.m_genomes ++ [g] := rfl

theorem addGenome_gMap (s : GenomeMatcherImpl) (g : Genome) :
    (s.addGenome g).gMap
      = gMapInsert s.gMap g.name (((s.m_genomes ++ [g]).length : Int) - 1) := rfl

theorem addGenome_trie (s : GenomeMatcherImpl) (g : Genome) :
    (s.addGenome g).m_genomeTrie
      = (indexEntries s.m_minSearchLength g).foldl (fun t e => t.insert e.1 e.2)
          s.m_genomeTrie := by
  unfold addGenome indexEntries
  rw [List.foldl_map]

theorem foldl_addGenome (gs : List Genome) :
    ∀ s : GenomeMatcherImpl,
      (gs.foldl addGenome s).m_minSearchLength = s.m_minSearchLength
        ∧ (gs.foldl addGenome s).m_genomes = s.m_genomes ++ gs
        ∧ (gs.foldl addGenome s).m_genomeTrie
            = (allEntries s.m_minSearchLength gs).foldl (fun t e => t.insert e.1 e.2)
                s.m_genomeTrie := by
  induction gs with
  | nil => intro s; simp [allEntries]
  | cons g gs ih =>
    intro s
    obtain ⟨h1, h2, h3⟩ := ih (s.addGenome g)
    rw [List.foldl_cons]
    refine ⟨h1.trans (addGenome_min s g), ?_, ?_⟩
    · rw [h2, addGenome_genomes]; simp
    · rw [h3, addGenome_min, addGenome_trie]
      simp only [allEntries, List.flatMap_cons, List.foldl_append]

theorem build_min (m : Int) (gs : List Genome) : (build m gs).m_minSearchLength = m :=
  (foldl_addGenome gs (new m)).1

theorem build_genomes (m : Int) (gs : List Genome) : (build m gs).m_genomes = gs := by
  have := (foldl_addGenome gs (new m)).2.1
  simpa [new] using this

theorem build_trie (m : Int) (gs : List Genome) :
    (build m gs).m_genomeTrie = buildTrie (allEntries m gs) :=
  (foldl_addGenome gs (new m)).2.2

end GenomeMatcherImpl

/-! ### The name lookup -/

theorem gMapAt_append (m : List (List Char × Int)) (k : List Char) (v : Int) (key : List Char) :
    gMapAt (m ++ [(k, v)]) key
      = match gMapAt m key with
        | some x => some x
        | none => if k = key then some v else none := by
  induction m with
  | nil => simp [gMapAt]
  | cons e m ih =>
    by_cases h : e.1 = key
    · simp [gMapAt, h]
    · simp [gMapAt, h, ih]

theorem gMapAt_any (m : List (List Char × Int)) (key : List Char) :
    m.any (fun e => decide (e.1 = key)) = (gMapAt m key).isSome := by
  induction m with
  | nil => rfl
  | cons e m ih =>
    by_cases h : e.1 = key
    · simp [gMapAt, h]
    · simp [gMapAt, h, ih]

theorem GMapOk_new (m : Int) : GMapOk (GenomeMatcherImpl.new m) := by
  constructor
  · intro name idx h; simp [GenomeMatcherImpl.new, gMapAt] at h
  · intro g hg; simp [GenomeMatcherImpl.new] at hg

theorem GMapOk_addGenome (s : GenomeMatcherImpl) (g : Genome) (h : GMapOk s) :
    GMapOk (s.addGenome g) := by
  obtain ⟨ha, hb⟩ := h
  have hold : ∀ name idx, gMapAt s.gMap name = some idx →
      0 ≤ idx ∧ ∃ g', (s.m_genomes ++ [g])[idx.toNat]? = some g' ∧ g'.name = name := by
    intro name idx hx
    obtain ⟨h0, g', hg', hn⟩ := ha name idx hx
    refine ⟨h0, g', ?_, hn⟩
    have hlt : idx.toNat < s.m_genomes.length := by
      by_contra hc
      rw [List.getElem?_eq_none (by omega)] at hg'
      cases hg'
    rw [List.getElem?_append_left hlt]
    exact hg'
  rw [GMapOk, GenomeMatcherImpl.addGenome_gMap, GenomeMatcherImpl.addGenome_genomes]
  unfold gMapInsert
  rw [gMapAt_any]
  cases hk : gMapAt s.gMap g.name with
  | some x =>
    simp only [Option.isSome_some, if_true]
    refine ⟨hold, ?_⟩
    intro g' hg'
    rcases List.mem_append.1 hg' with h1 | h1
    · exact hb g' h1
    · simp only [List.mem_singleton] at h1
      subst h1
      simp [hk]
  | none =>
    simp only [Option.isSome_none, Bool.false_eq_true, if_false]
    constructor
    · intro name idx hx
      rw [gMapAt_append] at hx
      cases hk2 : gMapAt s.gMap name with
      | some y =>
        rw [hk2] at hx
        simp only [Option.some.injEq] at hx
        subst hx
        exact hold name y hk2
      | none =>
        rw [hk2] at hx
        simp only at hx
        split at hx
        · rename_i hname
          simp only [Option.some.injEq] at hx
          subst hx
          refine ⟨by simp, g, ?_, hname⟩
          have : (((s.m_genomes ++ [g]).length : Int) - 1).toNat = s.m_genomes.length := by
            simp
          rw [this]
          simp
        · cases hx
    · intro g' hg'
      rw [gMapAt_append]
      rcases List.mem_append.1 hg' with h1 | h1
      · have := hb g' h1
        cases hk3 : gMapAt s.gMap g'.name with
        | some y => rfl
        | none => rw [hk3] at this; cases this
      · simp only [List.mem_singleton] at h1
        subst h1
        simp [hk]

theorem GMapOk_foldl (gs : List Genome) :
    ∀ s : GenomeMatcherImpl, GMapOk s → GMapOk (gs.foldl GenomeMatcherImpl.addGenome s) := by
  induction gs with
  | nil => intro s h; exact h
  | cons g gs ih => intro s h; exact ih _ (GMapOk_addGenome s g h)

theorem GMapOk_build (m : Int) (gs : List Genome) : GMapOk (GenomeMatcherImpl.build m gs) :=
  GMapOk_foldl gs _ (GMapOk_new m)

/-- With pairwise distinct names the lookup of a registered genome's name yields
that genome. -/
theorem genomeOf_build (m : Int) (gs : List Genome) (hnd : (gs.map Genome.name).Nodup)
    (g : Genome) (hg : g ∈ gs) :
    (GenomeMatcherImpl.build m gs).genomeOf g.name = some g := by
  obtain ⟨ha, hb⟩ := GMapOk_build m gs
  rw [GenomeMatcherImpl.build_genomes] at ha hb
  have h1 := hb g hg
  cases hk : gMapAt (GenomeMatcherImpl.build m gs).gMap g.name with
  | none => rw [hk] at h1; cases h1
  | some idx =>
    obtain ⟨h0, g', hg', hn⟩ := ha g.name idx hk
    have hmem : g' ∈ gs := List.getElem?_mem hg'
    have : g' = g := List.inj_on_of_nodup_map hnd hmem hg hn
    subst this
    simp only [GenomeMatcherImpl.genomeOf, hk, GenomeMatcherImpl.build_genomes]
    rw [if_neg (by omega)]
    exact hg'

/-! ## Matcher: the index entries and the candidates -/

theorem indexEntries_eq (mN : Nat) (hm : 1 ≤ mN) (g : Genome) :
    indexEntries (mN : Int) g
      = (List.range (g.m_sequence.length + 1 - mN)).map fun (i : Nat) =>
          (window g.m_sequence i mN, DNAMatch.mk g.name (i : Int) (mN : Int)) := by
  have hc : (g.length - (mN : Int) + 1).toNat = g.m_sequence.length + 1 - mN := by
    simp only [Genome.length]; omega
  unfold indexEntries
  rw [hc]
  refine List.map_congr_left (fun i hi => ?_)
  have hi' : i + mN ≤ g.m_sequence.length := by
    have := List.mem_range.1 hi; omega
  rw [extract_eq_window g i mN (by omega) hi']
  rfl

theorem mem_indexEntries (mN : Nat) (hm : 1 ≤ mN) (g : Genome) (e : List Char × DNAMatch) :
    e ∈ indexEntries (mN : Int) g ↔
      ∃ i : Nat, i + mN ≤ g.m_sequence.length
        ∧ e = (window g.m_sequence i mN, DNAMatch.mk g.name (i : Int) (mN : Int)) := by
  rw [indexEntries_eq mN hm, List.mem_map]
  constructor
  · rintro ⟨i, hi, rfl⟩
    exact ⟨i, by have := List.mem_range.1 hi; omega, rfl⟩
  · rintro ⟨i, hi, rfl⟩
    exact ⟨i, List.mem_range.2 (by omega), rfl⟩

theorem mem_allEntries (mN : Nat) (hm : 1 ≤ mN) (gs : List Genome) (e : List Char × DNAMatch) :
    e ∈ allEntries (mN : Int) gs ↔
      ∃ g ∈ gs, ∃ i : Nat, i + mN ≤ g.m_sequence.length
        ∧ e = (window g.m_sequence i mN, DNAMatch.mk g.name (i : Int) (mN : Int)) := by
  simp only [allEntries, List.mem_flatMap, mem_indexEntries mN hm]

theorem nodup_allEntries (mN : Nat) (hm : 1 ≤ mN) (gs : List Genome)
    (hnd : (gs.map Genome.name).Nodup) :
    ((allEntries (mN : Int) gs).map Prod.snd).Nodup := by
  simp only [allEntries, List.map_flatMap]
  rw [List.nodup_flatMap]
  constructor
  · intro g _
    rw [indexEntries_eq mN hm, List.map_map]
    refine (List.nodup_range _).map ?_
    intro a b hab
    simp only [Function.comp, DNAMatch.mk.injEq, Nat.cast_inj, true_and, and_true] at hab
    exact hab
  · have hp : List.Pairwise (fun a b : Genome => a.name ≠ b.name) gs := List.pairwise_map.1 hnd
    refine hp.imp ?_
    intro a b hab x hxa hxb
    obtain ⟨ea, hea, rfl⟩ := List.mem_map.1 hxa
    obtain ⟨eb, heb, hx⟩ := List.mem_map.1 hxb
    obtain ⟨i, _, rfl⟩ := (mem_indexEntries mN hm a ea).1 hea
    obtain ⟨j, _, rfl⟩ := (mem_indexEntries mN hm b eb).1 heb
    simp only [DNAMatch.mk.injEq] at hx
    exact hab hx.1.symm

theorem valuesFor_eq_filter (ins : List (List Char × V)) (k : List Char) :
    valuesFor ins k = (ins.filter (fun e => decide (e.1 = k))).map Prod.snd := by
  induction ins with
  | nil => rfl
  | cons e ins ih =>
    rw [valuesFor_cons, ih, List.filter_cons]
    by_cases h : e.1 = k <;> simp [h]

/-- The candidates that the trie yields for a key, as a multiset of index records. -/
theorem find_perm (ins : List (List Char × V)) (k : List Char) (exactMatchOnly : Bool)
    (h : exactMatchOnly = true ∨ 2 ≤ k.length) :
    ((buildTrie ins).find k exactMatchOnly).Perm
      ((ins.filter (fun e => keyMatch exactMatchOnly k e.1)).map Prod.snd) := by
  cases exactMatchOnly with
  | true =>
    rw [find_exact_build, valuesFor_eq_filter]
    simp only [keyMatch, if_true]
    exact List.Perm.refl _
  | false =>
    have hk : 2 ≤ k.length := by
      rcases h with h | h
      · cases h
      · exact h
    simpa [keyMatch] using find_snip_perm ins k hk

/-! ## Matcher: the two loops of `findGenomesWithThisDNA` when nothing can be extended -/

theorem window_length (seq : List Char) (p n : Nat) (h : p + n ≤ seq.length) :
    (window seq p n).length = n := by
  simp only [window, List.length_take, List.length_drop]
  omega

theorem filterCandidates_eq (s : GenomeMatcherImpl) (fragment : List Char) :
    ∀ cands : List DNAMatch,
      (∀ c ∈ cands, 0 ≤ c.position ∧
        ∃ g, s.genomeOf c.genomeName = some g ∧ fragment.length ≤ g.m_sequence.length) →
      s.filterCandidates fragment cands = some (cands.filter (fitsB s fragment.length)) := by
  intro cands
  induction cands with
  | nil => intro _; rfl
  | cons c cands ih =>
    intro h
    obtain ⟨hpos, g, hg, hlen⟩ := h c (List.mem_cons_self _ _)
    have ih' := ih (fun x hx => h x (List.mem_cons_of_mem _ hx))
    simp only [GenomeMatcherImpl.filterCandidates, hg, ih', List.filter_cons, fitsB]
    have h1 : toSizeT c.position = c.position.toNat := by simp [toSizeT, hpos]
    have h2 : toSizeT g.length = g.m_sequence.length := by
      simp [Genome.length]
    rw [h1, h2, subSizeT_of_le _ _ hlen]
    by_cases hf : c.position + (fragment.length : Int) ≤ g.length
    · have : ¬ c.position.toNat > g.m_sequence.length - fragment.length := by
        simp only [Genome.length] at hf; omega
      simp [hf, this]
    · have : c.position.toNat > g.m_sequence.length - fragment.length := by
        simp only [Genome.length] at hf; omega
      simp [hf, this]

theorem extendCandidate_eq (s : GenomeMatcherImpl) (fragment : List Char)
    (exactMatchOnly : Bool) (st : ExtState) (c : DNAMatch) (g : Genome) (p : Nat)
    (hn : 0 < fragment.length) (hg : s.genomeOf c.genomeName = some g)
    (hp : c.position = (p : Int)) (hfit : p + fragment.length ≤ g.m_sequence.length)
    (hmax : st.tempMax = (fragment.length : Int)) :
    ∃ tf, s.extendCandidate fragment (fragment.length : Int) exactMatchOnly st c
      = some ⟨tf, (fragment.length : Int),
          if keepB s fragment exactMatchOnly c then
            st.matchList ++ [DNAMatch.mk c.genomeName c.position (fragment.length : Int)]
          else st.matchList⟩ := by
  have hcount : ((fragment.length : Int) - (fragment.length : Int) + 1).toNat = 1 := by omega
  have hext : g.extract c.position (((0 : Nat) : Int) + (fragment.length : Int))
      = some (window g.m_sequence p fragment.length) := by
    rw [hp]
    simp only [Nat.cast_zero, zero_add]
    exact extract_eq_window g p _ hn hfit
  have htake : fragment.take (toSizeT (((0 : Nat) : Int) + (fragment.length : Int))) = fragment := by
    simp
  have hwl := window_length g.m_sequence p fragment.length hfit
  have hcmp := findDNAHelper_eq (window g.m_sequence p fragment.length) fragment exactMatchOnly hwl
  have hstep : s.extendStep fragment (fragment.length : Int) exactMatchOnly c
      (c.length, st.tempFrag, st.tempMax) 0
      = some (if matchedB exactMatchOnly (window g.m_sequence p fragment.length) fragment
          then ((fragment.length : Int), window g.m_sequence p fragment.length,
            (fragment.length : Int))
          else (c.length, window g.m_sequence p fragment.length, (fragment.length : Int))) := by
    simp only [GenomeMatcherImpl.extendStep, hg, hext, htake, Option.getD_some, hcmp]
    cases hb : matchedB exactMatchOnly (window g.m_sequence p fragment.length) fragment
    · simp only [matchedB] at hb
      simp [hb, hmax]
    · simp only [matchedB] at hb
      simp [hb, hmax, hwl]
  have hkeep : keepB s fragment exactMatchOnly c
      = (matchedB exactMatchOnly (window g.m_sequence p fragment.length) fragment
          || decide (c.length = (fragment.length : Int))) := by
    simp [keepB, hg, hp]
  have hr1 : List.range 1 = [0] := rfl
  refine ⟨window g.m_sequence p fragment.length, ?_⟩
  simp only [GenomeMatcherImpl.extendCandidate, hcount, hr1, loopM, hstep, hkeep]
  cases hb : matchedB exactMatchOnly (window g.m_sequence p fragment.length) fragment
  · by_cases hl : c.length = (fragment.length : Int)
    · simp [hl]
    · simp [hl]
  · simp

theorem extendLoop_eq (s : GenomeMatcherImpl) (fragment : List Char)
    (exactMatchOnly : Bool) (hn : 0 < fragment.length) :
    ∀ (cands : List DNAMatch) (st : ExtState),
      (∀ c ∈ cands, ∃ g, ∃ p : Nat, s.genomeOf c.genomeName = some g ∧ c.position = (p : Int)
        ∧ p + fragment.length ≤ g.m_sequence.length) →
      st.tempMax = (fragment.length : Int) →
      ∃ tf, loopM (s.extendCandidate fragment (fragment.length : Int) exactMatchOnly) st cands
        = some ⟨tf, (fragment.length : Int),
            st.matchList ++ (cands.filter (keepB s fragment exactMatchOnly)).map
              (fun c => DNAMatch.mk c.genomeName c.position (fragment.length : Int))⟩ := by
  intro cands
  induction cands with
  | nil =>
    intro st _ hmax
    refine ⟨st.tempFrag, ?_⟩
    cases st
    simp only [loopM, List.filter_nil, List.map_nil, List.append_nil] at *
    rw [hmax]
  | cons c cands ih =>
    intro st h hmax
    obtain ⟨g, p, hg, hp, hfit⟩ := h c (List.mem_cons_self _ _)
    obtain ⟨tf, hstep⟩ := extendCandidate_eq s fragment exactMatchOnly st c g p hn hg hp hfit hmax
    obtain ⟨tf', hrest⟩ := ih ⟨tf, (fragment.length : Int),
        if keepB s fragment exactMatchOnly c then
          st.matchList ++ [DNAMatch.mk c.genomeName c.position (fragment.length : Int)]
        else st.matchList⟩ (fun x hx => h x (List.mem_cons_of_mem _ hx)) rfl
    refine ⟨tf', ?_⟩
    simp only [loopM, hstep, hrest, List.filter_cons]
    cases hk : keepB s fragment exactMatchOnly c <;> simp

/-! ## Matcher: searches whose minimum length is the length of the fragment -/

theorem mismatches_comm (a : List Char) : ∀ b : List Char, mismatches a b = mismatches b a := by
  induction a with
  | nil => intro b; cases b <;> rfl
  | cons x a ih =>
    intro b
    cases b with
    | nil => rfl
    | cons y b =>
      simp only [mismatches, ih b]
      by_cases h : x = y
      · subst h; rfl
      · have h' : ¬ y = x := fun e => h e.symm
        simp [h, h']

theorem mismatches_take_le (m : Nat) :
    ∀ a b : List Char, mismatches (a.take m) (b.take m) ≤ mismatches a b := by
  induction m with
  | zero => intro a b; simp [mismatches]
  | succ m ih =>
    intro a b
    cases a with
    | nil => simp [mismatches]
    | cons x a =>
      cases b with
      | nil => simp [mismatches]
      | cons y b =>
        simp only [List.take_succ_cons, mismatches]
        have := ih a b
        omega

theorem head?_take_pos (m : Nat) (hm : 1 ≤ m) (a : List Char) : (a.take m).head? = a.head? := by
  cases a with
  | nil => simp
  | cons x a =>
    cases m with
    | zero => omega
    | succ m => rfl

theorem window_take (seq : List Char) (p m n : Nat) (h : m ≤ n) :
    (window seq p n).take m = window seq p m := by
  simp only [window, List.take_take, Nat.min_eq_left h]

theorem snipMatch_iff (k k' : List Char) :
    snipMatch k k' = true ↔ k'.length = k.length ∧ k'.head? = k.head? ∧ mismatches k k' ≤ 1 := by
  simp only [snipMatch, Bool.and_eq_true, decide_eq_true_eq, and_assoc]

theorem snipMatch_take (m : Nat) (hm : 1 ≤ m) (k k' : List Char) (h : snipMatch k k' = true) :
    snipMatch (k.take m) (k'.take m) = true := by
  rw [snipMatch_iff] at h ⊢
  refine ⟨by simp [h.1], ?_, le_trans (mismatches_take_le m k k') h.2.2⟩
  rw [head?_take_pos m hm, head?_take_pos m hm]
  exact h.2.1

/-- A candidate that is pushed occurs at its position, in the sense of the
specification. -/
theorem occursAt_of_keep (exactMatchOnly : Bool) (seq fragment : List Char) (i mN : Nat)
    (hm : 1 ≤ mN) (hn : mN ≤ fragment.length) (hfit : i + fragment.length ≤ seq.length)
    (hkey : keyMatch exactMatchOnly (fragment.take mN) (window seq i mN) = true)
    (hkeep : matchedB exactMatchOnly (window seq i fragment.length) fragment = true
      ∨ mN = fragment.length) :
    occursAt exactMatchOnly seq i fragment = true := by
  have hwl := window_length seq i fragment.length hfit
  cases exactMatchOnly with
  | true =>
    simp only [occursAt, if_true, decide_eq_true_eq]
    rcases hkeep with h | h
    · simpa [matchedB] using h
    · simp only [keyMatch, if_true, decide_eq_true_eq] at hkey
      rw [h, List.take_length] at hkey
      exact hkey
  | false =>
    simp only [occursAt, Bool.false_eq_true, if_false]
    simp only [keyMatch, Bool.false_eq_true, if_false] at hkey
    rcases hkeep with h | h
    · simp only [matchedB, Bool.false_eq_true, if_false, decide_eq_true_eq] at h
      rw [snipMatch_iff] at hkey ⊢
      refine ⟨hwl, ?_, by rw [mismatches_comm]; exact h⟩
      have h1 := hkey.2.1
      rw [← window_take seq i mN fragment.length hn, head?_take_pos mN hm,
        head?_take_pos mN hm] at h1
      exact h1
    · rw [h, List.take_length] at hkey
      exact hkey

/-- An occurrence in the sense of the specification is found in the index under the
searched key, and the comparison of the whole fragment accepts it. -/
theorem keep_of_occursAt (exactMatchOnly : Bool) (seq fragment : List Char) (p mN : Nat)
    (hm : 1 ≤ mN) (hn : mN ≤ fragment.length)
    (hocc : occursAt exactMatchOnly seq p fragment = true) :
    keyMatch exactMatchOnly (fragment.take mN) (window seq p mN) = true
      ∧ matchedB exactMatchOnly (window seq p fragment.length) fragment = true := by
  cases exactMatchOnly with
  | true =>
    simp only [occursAt, if_true, decide_eq_true_eq] at hocc
    simp only [keyMatch, matchedB, if_true, decide_eq_true_eq]
    refine ⟨?_, hocc⟩
    rw [← window_take seq p mN fragment.length hn, hocc]
  | false =>
    simp only [occursAt, Bool.false_eq_true, if_false] at hocc
    simp only [keyMatch, matchedB, Bool.false_eq_true, if_false, decide_eq_true_eq]
    refine ⟨?_, ?_⟩
    · rw [← window_take seq p mN fragment.length hn]
      exact snipMatch_take mN hm _ _ hocc
    · rw [mismatches_comm]
      exact ((snipMatch_iff _ _).1 hocc).2.2

/-- The candidates of a search on a matcher built by registrations: each is the index
record of a window of a registered genome under a key that the trie matches with the
searched key, and no record comes twice. -/
theorem candidates_spec (mN : Nat) (hm : 1 ≤ mN) (gs : List Genome)
    (hnd : (gs.map Genome.name).Nodup) (key : List Char) (exactMatchOnly : Bool)
    (hex : exactMatchOnly = true ∨ 2 ≤ key.length) :
    ((GenomeMatcherImpl.build (mN : Int) gs).m_genomeTrie.find key exactMatchOnly).Nodup
      ∧ ∀ c, c ∈ (GenomeMatcherImpl.build (mN : Int) gs).m_genomeTrie.find key exactMatchOnly ↔
          ∃ g ∈ gs, ∃ i : Nat, i + mN ≤ g.m_sequence.length
            ∧ c = DNAMatch.mk g.name (i : Int) (mN : Int)
            ∧ keyMatch exactMatchOnly key (window g.m_sequence i mN) = true := by
  rw [GenomeMatcherImpl.build_trie]
  have hperm := find_perm (allEntries (mN : Int) gs) key exactMatchOnly hex
  constructor
  · rw [hperm.nodup_iff]
    exact ((nodup_allEntries mN hm gs hnd).sublist
      ((List.filter_sublist _).map Prod.snd))
  · intro c
    rw [hperm.mem_iff, List.mem_map]
    constructor
    · rintro ⟨e, he, rfl⟩
      obtain ⟨he1, he2⟩ := List.mem_filter.1 he
      obtain ⟨g, hg, i, hi, rfl⟩ := (mem_allEntries mN hm gs e).1 he1
      exact ⟨g, hg, i, hi, rfl, he2⟩
    · rintro ⟨g, hg, i, hi, rfl, hk⟩
      refine ⟨(window g.m_sequence i mN, DNAMatch.mk g.name (i : Int) (mN : Int)), ?_, rfl⟩
      exact List.mem_filter.2 ⟨(mem_allEntries mN hm gs _).2 ⟨g, hg, i, hi, rfl⟩, hk⟩

/-- The result of `findGenomesWithThisDNA` on a matcher built by registrations of
genomes with pairwise distinct names, for a minimum length equal to the length of
the fragment, when every genome that has a window in the index is at least as long
as the fragment: one record of the fragment's length per occurrence. -/
theorem find_core (mN : Nat) (hm : 1 ≤ mN) (gs : List Genome)
    (hnd : (gs.map Genome.name).Nodup) (fragment : List Char) (hn : mN ≤ fragment.length)
    (exactMatchOnly : Bool) (hex : exactMatchOnly = true ∨ 2 ≤ mN)
    (hnw : ∀ g ∈ gs, mN ≤ g.m_sequence.length → fragment.length ≤ g.m_sequence.length)
    (matchList : List DNAMatch) :
    ∃ ms : List DNAMatch,
      (GenomeMatcherImpl.build (mN : Int) gs).findGenomesWithThisDNA fragment
          (fragment.length : Int) exactMatchOnly matchList
        = some (decide (ms.length > 0), ms)
      ∧ ms.Nodup
      ∧ ∀ r, r ∈ ms ↔ ∃ g ∈ gs, ∃ p : Nat,
          r = DNAMatch.mk g.name (p : Int) (fragment.length : Int)
            ∧ p + fragment.length ≤ g.m_sequence.length
            ∧ occursAt exactMatchOnly g.m_sequence p fragment = true := by
  have hkl : (fragment.take mN).length = mN := by simp [hn]
  obtain ⟨hcnd, hcmem⟩ := candidates_spec mN hm gs hnd (fragment.take mN) exactMatchOnly
    (by rw [hkl]; exact hex)
  generalize hs : GenomeMatcherImpl.build (mN : Int) gs = s at hcnd hcmem ⊢
  have hmin : s.m_minSearchLength = (mN : Int) := by rw [← hs]; exact GenomeMatcherImpl.build_min _ _
  have hgen : ∀ g ∈ gs, s.genomeOf g.name = some g := fun g hg => by
    rw [← hs]; exact genomeOf_build _ gs hnd g hg
  generalize hc : s.m_genomeTrie.find (fragment.take mN) exactMatchOnly = cands at hcnd hcmem
  have hnpos : 0 < fragment.length := by omega
  -- the erasing loop
  have hfilter : s.filterCandidates fragment cands
      = some (cands.filter (fitsB s fragment.length)) := by
    refine filterCandidates_eq s fragment cands (fun c hcm => ?_)
    obtain ⟨g, hg, i, hi, rfl, _⟩ := (hcmem c).1 hcm
    exact ⟨by simp, g, hgen g hg, hnw g hg (by omega)⟩
  -- the extension loop
  obtain ⟨tf, hloop⟩ := extendLoop_eq s fragment exactMatchOnly hnpos
    (cands.filter (fitsB s fragment.length)) ⟨[], (fragment.length : Int), []⟩
    (fun c hcm => by
      obtain ⟨hcm1, hcm2⟩ := List.mem_filter.1 hcm
      obtain ⟨g, hg, i, hi, rfl, _⟩ := (hcmem c).1 hcm1
      refine ⟨g, i, hgen g hg, rfl, ?_⟩
      simp only [fitsB, hgen g hg, decide_eq_true_eq, Genome.length] at hcm2
      omega)
    rfl
  refine ⟨((cands.filter (fitsB s fragment.length)).filter
      (keepB s fragment exactMatchOnly)).map
        (fun c => DNAMatch.mk c.genomeName c.position (fragment.length : Int)), ?_, ?_, ?_⟩
  · have hguard : ¬ (fragment.length < fragment.length
        ∨ (fragment.length : Int) < (mN : Int)) := by omega
    simp only [GenomeMatcherImpl.findGenomesWithThisDNA, hmin,
      toSizeT_natCast, hguard, if_false, hc, hfilter, hloop, List.nil_append]
  · refine List.Nodup.map_on ?_ ((hcnd.filter _).filter _)
    intro x hx y hy hxy
    obtain ⟨g, _, i, _, rfl, _⟩ := (hcmem x).1 (List.mem_filter.1 (List.mem_filter.1 hx).1).1
    obtain ⟨g', _, i', _, rfl, _⟩ := (hcmem y).1 (List.mem_filter.1 (List.mem_filter.1 hy).1).1
    simp only [DNAMatch.mk.injEq, and_true] at hxy ⊢
    exact hxy
  · intro r
    simp only [List.mem_map, List.mem_filter]
    constructor
    · rintro ⟨c, ⟨⟨hcm, hfit⟩, hkeep⟩, rfl⟩
      obtain ⟨g, hg, i, hi, rfl, hkey⟩ := (hcmem c).1 hcm
      have hfit' : i + fragment.length ≤ g.m_sequence.length := by
        simp only [fitsB, hgen g hg, decide_eq_true_eq, Genome.length] at hfit
        omega
      refine ⟨g, hg, i, rfl, hfit', ?_⟩
      refine occursAt_of_keep exactMatchOnly g.m_sequence fragment i mN hm hn hfit' hkey ?_
      simp only [keepB, hgen g hg, Int.toNat_ofNat, Bool.or_eq_true, decide_eq_true_eq,
        Nat.cast_inj] at hkeep
      exact hkeep
    · rintro ⟨g, hg, p, rfl, hfit, hocc⟩
      obtain ⟨hkey, hmatched⟩ :=
        keep_of_occursAt exactMatchOnly g.m_sequence fragment p mN hm hn hocc
      refine ⟨DNAMatch.mk g.name (p : Int) (mN : Int), ⟨⟨?_, ?_⟩, ?_⟩, rfl⟩
      · exact (hcmem _).2 ⟨g, hg, p, by omega, rfl, hkey⟩
      · simp only [fitsB, hgen g hg, decide_eq_true_eq, Genome.length]
        omega
      · simp only [keepB, hgen g hg, Int.toNat_ofNat, hmatched, Bool.true_or]

/-! ## The rounded percentages of the examples -/

/-- The percentage computed for the counter 1 and 1 whole window. -/
theorem percent_1_of_1 :
    Dbl.mul (Dbl.div (Dbl.mul (Dbl.ofInt 1) (Dbl.ofInt 1)) (Dbl.ofInt 1)) (Dbl.ofInt 100)
      = ⟨7036874417766400, -46⟩ := by
  set_option maxRecDepth 100000 in decide

/-- The percentage computed for the counter 2 and 1 whole window. -/
theorem percent_2_of_1 :
    Dbl.mul (Dbl.div (Dbl.mul (Dbl.ofInt 2) (Dbl.ofInt 1)) (Dbl.ofInt 1)) (Dbl.ofInt 100)
      = ⟨7036874417766400, -45⟩ := by
  set_option maxRecDepth 100000 in decide

/-- The percentage computed for the counter 1 and 2 whole windows. -/
theorem percent_1_of_2 :
    Dbl.mul (Dbl.div (Dbl.mul (Dbl.ofInt 1) (Dbl.ofInt 1)) (Dbl.ofInt 2)) (Dbl.ofInt 100)
      = ⟨7036874417766400, -47⟩ := by
  set_option maxRecDepth 100000 in decide

/-- The percentage computed for the counter 2 and 2 whole windows. -/
theorem percent_2_of_2 :
    Dbl.mul (Dbl.div (Dbl.mul (Dbl.ofInt 2) (Dbl.ofInt 1)) (Dbl.ofInt 2)) (Dbl.ofInt 100)
      = ⟨7036874417766400, -46⟩ := by
  set_option maxRecDepth 100000 in decide

/-- The percentage computed for the counter 4 and 2 whole windows. -/
theorem percent_4_of_2 :
    Dbl.mul (Dbl.div (Dbl.mul (Dbl.ofInt 4) (Dbl.ofInt 1)) (Dbl.ofInt 2)) (Dbl.ofInt 100)
      = ⟨7036874417766400, -45⟩ := by
  set_option maxRecDepth 100000 in decide

/-- The percentage computed for the counter 29 and 50 whole windows. -/
theorem percent_29_of_50 :
    Dbl.mul (Dbl.div (Dbl.mul (Dbl.ofInt 29) (Dbl.ofInt 1)) (Dbl.ofInt 50)) (Dbl.ofInt 100)
      = ⟨8162774324609023, -47⟩ := by
  set_option maxRecDepth 100000 in decide

/-! ## Matcher: `findRelatedGenomes` from its three loops -/

theorem findRelatedGenomes_of_loops (s : GenomeMatcherImpl) (query : Genome)
    (fragmentMatchLength : Int) (exactMatchOnly : Bool) (matchPercentThreshold : ℚ)
    (results : List GenomeMatch) (matchList : List DNAMatch) (counts : List Int)
    (results' : List GenomeMatch)
    (h1 : ¬ fragmentMatchLength < s.m_minSearchLength) (h2 : fragmentMatchLength ≠ 0)
    (hw : s.windowLoop query fragmentMatchLength exactMatchOnly
      (query.m_sequence.length + 1) 0 ([], []) = some matchList)
    (hc : s.countLoop (s.m_genomes.map fun _ => (0 : Int)) matchList = some counts)
    (hp : GenomeMatcherImpl.percentLoop (Int.tdiv query.length fragmentMatchLength) matchPercentThreshold
      (s.m_genomes.zip counts) results = some results') :
    s.findRelatedGenomes query fragmentMatchLength exactMatchOnly matchPercentThreshold results
      = some (decide (results'.length > 0), results') := by
  simp only [GenomeMatcherImpl.findRelatedGenomes, h1, h2, hw, hc, hp, if_false]

/-! ## The fragment search -/

/-- C3: the records returned by one call of `findGenomesWithThisDNA` need not carry the
same length, and the result depends on the order of the candidates. With minimum
search length 2 and the genome "ACAAACGT", the exact search for "ACGT" with minimum
length 2 returns the candidate at position 0 with length 2, pushed while the running
maximum was still 2, together with the candidate at position 4 with length 4; the
loop over the same two candidates taken in the other order keeps the record of
position 4 only. -/
theorem findGenomes_running_maximum :
    matcherRunning.findGenomesWithThisDNA "ACGT".toList 2 true []
        = some (true, [DNAMatch.mk "G1".toList 0 2, DNAMatch.mk "G1".toList 4 4])
      ∧ matcherRunning.m_genomeTrie.find "AC".toList true
        = [DNAMatch.mk "G1".toList 0 2, DNAMatch.mk "G1".toList 4 2]
      ∧ (loopM (matcherRunning.extendCandidate "ACGT".toList 2 true) ⟨[], 2, []⟩
          [DNAMatch.mk "G1".toList 4 2, DNAMatch.mk "G1".toList 0 2]).map ExtState.matchList
        = some [DNAMatch.mk "G1".toList 4 4] := by
  decide

/-- C4: on a matcher with minimum search length at least 2 whose registered genomes
have pairwise distinct names and are each at least as long as the fragment, a search
whose minimum length is the length of the fragment (itself at least the minimum search
length) returns, once each and with that length, exactly the records of the genomes
and positions at which the fragment occurs: equal bases in exact mode; equal first
base and at most one differing position in one-mismatch mode. It returns true exactly
when there is such a record. -/
theorem findGenomes_full_length_spec (mN : Nat) (hm : 2 ≤ mN) (gs : List Genome)
    (hnd : (gs.map Genome.name).Nodup) (fragment : List Char) (minimumLength : Int)
    (hmin : minimumLength = (fragment.length : Int)) (hn : mN ≤ fragment.length)
    (hlen : ∀ g ∈ gs, fragment.length ≤ g.m_sequence.length)
    (exactMatchOnly : Bool) (matchList : List DNAMatch) :
    ∃ (b : Bool) (ms : List DNAMatch),
      (GenomeMatcherImpl.build (mN : Int) gs).findGenomesWithThisDNA fragment minimumLength
          exactMatchOnly matchList = some (b, ms)
      ∧ ms.Nodup
      ∧ (∀ r, r ∈ ms ↔ ∃ g ∈ gs, ∃ p : Nat,
          r = DNAMatch.mk g.name (p : Int) (fragment.length : Int)
            ∧ p + fragment.length ≤ g.m_sequence.length
            ∧ occursAt exactMatchOnly g.m_sequence p fragment = true)
      ∧ (b = true ↔ ms ≠ []) := by
  subst hmin
  obtain ⟨ms, h1, h2, h3⟩ := find_core mN (by omega) gs hnd fragment hn exactMatchOnly
    (Or.inr hm) (fun g hg _ => hlen g hg) matchList
  refine ⟨_, ms, h1, h2, h3, ?_⟩
  cases ms <;> simp

/-- Scenarios A and B as instances of `findGenomes_full_length_spec`: on the matcher
with minimum search length 4 and the genome ("G1", "ACGTACGT"), the exact search for
"ACGT" and the one-mismatch search for "ACGA" both return positions 0 and 4 with
length 4. -/
theorem findGenomes_full_length_spec_witness :
    (2 ≤ 4 ∧ ([genomeG1].map Genome.name).Nodup ∧ 4 ≤ "ACGT".toList.length
        ∧ ∀ g ∈ [genomeG1], "ACGT".toList.length ≤ g.m_sequence.length)
      ∧ (∃ (b : Bool) (ms : List DNAMatch),
          (GenomeMatcherImpl.build ((4 : Nat) : Int) [genomeG1]).findGenomesWithThisDNA
              "ACGT".toList 4 true [] = some (b, ms)
          ∧ ms.Nodup
          ∧ (∀ r, r ∈ ms ↔ ∃ g ∈ [genomeG1], ∃ p : Nat,
              r = DNAMatch.mk g.name (p : Int) ("ACGT".toList.length : Int)
                ∧ p + "ACGT".toList.length ≤ g.m_sequence.length
                ∧ occursAt true g.m_sequence p "ACGT".toList = true)
          ∧ (b = true ↔ ms ≠ []))
      ∧ matcherAB.findGenomesWithThisDNA "ACGT".toList 4 true []
          = some (true, [DNAMatch.mk "G1".toList 0 4, DNAMatch.mk "G1".toList 4 4])
      ∧ matcherAB.findGenomesWithThisDNA "ACGA".toList 4 false []
          = some (true, [DNAMatch.mk "G1".toList 0 4, DNAMatch.mk "G1".toList 4 4]) :=
  ⟨⟨by decide, by decide, by decide, by decide⟩,
    findGenomes_full_length_spec 4 (by decide) [genomeG1] (by decide) "ACGT".toList 4 rfl
      (by decide) (by decide) true [],
    by decide, by decide⟩

theorem mismatches_self (a : List Char) : mismatches a a = 0 := by
  induction a with
  | nil => rfl
  | cons x a ih => simp [mismatches, ih]

/-- C7, as stated, fails: with minimum search length 4 and the genome "ACGTA", the
search for "ACGTT" with minimum length 4 returns the record of position 0 with length
4 in exact mode and with length 5 in one-mismatch mode, so the exact record is not
among the one-mismatch records; and with minimum search length 1 and the genome "A",
the exact search for "A" returns a record while the one-mismatch search returns none. -/
theorem findGenomes_exact_not_subset :
    (matcherExtend.findGenomesWithThisDNA "ACGTT".toList 4 true []
        = some (true, [DNAMatch.mk "G".toList 0 4])
      ∧ matcherExtend.findGenomesWithThisDNA "ACGTT".toList 4 false []
        = some (true, [DNAMatch.mk "G".toList 0 5])
      ∧ DNAMatch.mk "G".toList 0 4 ∉ [DNAMatch.mk "G".toList 0 5])
    ∧ (matcherOne.findGenomesWithThisDNA "A".toList 1 true []
        = some (true, [DNAMatch.mk "G".toList 0 1])
      ∧ matcherOne.findGenomesWithThisDNA "A".toList 1 false [] = some (false, [])) := by
  decide

/-- C8: self-match. On a matcher with positive minimum search length `m` whose
registered genomes have pairwise distinct names, for a registered genome and a
position `p` with `p + m` within the genome, the extraction of the window of length
`m` at `p` succeeds, and the exact search for that window with minimum length `m`
returns true with a record of that genome at position `p` whose length is at
least `m`. -/
theorem findGenomes_self_match (mN : Nat) (hm : 1 ≤ mN) (gs : List Genome)
    (hnd : (gs.map Genome.name).Nodup) (g : Genome) (hg : g ∈ gs) (p : Nat)
    (hp : p + mN ≤ g.m_sequence.length) (matchList : List DNAMatch) :
    ∃ (w : List Char) (ms : List DNAMatch) (L : Int),
      g.extract (p : Int) (GenomeMatcherImpl.build (mN : Int) gs).minimumSearchLength = some w
      ∧ (GenomeMatcherImpl.build (mN : Int) gs).findGenomesWithThisDNA w
          (GenomeMatcherImpl.build (mN : Int) gs).minimumSearchLength true matchList
          = some (true, ms)
      ∧ DNAMatch.mk g.name (p : Int) L ∈ ms
      ∧ (GenomeMatcherImpl.build (mN : Int) gs).minimumSearchLength ≤ L := by
  have hwl := window_length g.m_sequence p mN hp
  obtain ⟨ms, h1, _, h3⟩ := find_core mN hm gs hnd (window g.m_sequence p mN)
    (by rw [hwl]) true (Or.inl rfl) (fun g' _ h' => by rw [hwl]; exact h') matchList
  rw [hwl] at h1 h3
  have hmem : DNAMatch.mk g.name (p : Int) (mN : Int) ∈ ms := by
    refine (h3 _).2 ⟨g, hg, p, rfl, hp, ?_⟩
    simp [occursAt, hwl]
  have hb : decide (ms.length > 0) = true := by
    simp only [decide_eq_true_eq]
    exact List.length_pos_of_mem hmem
  rw [hb] at h1
  refine ⟨window g.m_sequence p mN, ms, (mN : Int), ?_, ?_, hmem, ?_⟩
  · rw [GenomeMatcherImpl.minimumSearchLength, GenomeMatcherImpl.build_min]
    exact extract_eq_window g p mN (by omega) hp
  · rw [GenomeMatcherImpl.minimumSearchLength, GenomeMatcherImpl.build_min]
    exact h1
  · rw [GenomeMatcherImpl.minimumSearchLength, GenomeMatcherImpl.build_min]

/-- An instance of `findGenomes_self_match`: the window at position 4 of the genome of
scenario A. -/
theorem findGenomes_self_match_witness :
    (1 ≤ 4 ∧ ([genomeG1].map Genome.name).Nodup ∧ genomeG1 ∈ [genomeG1]
        ∧ 4 + 4 ≤ genomeG1.m_sequence.length)
      ∧ ∃ (w : List Char) (ms : List DNAMatch) (L : Int),
          genomeG1.extract ((4 : Nat) : Int)
              (GenomeMatcherImpl.build ((4 : Nat) : Int) [genomeG1]).minimumSearchLength = some w
          ∧ (GenomeMatcherImpl.build ((4 : Nat) : Int) [genomeG1]).findGenomesWithThisDNA w
              (GenomeMatcherImpl.build ((4 : Nat) : Int) [genomeG1]).minimumSearchLength true []
              = some (true, ms)
          ∧ DNAMatch.mk genomeG1.name ((4 : Nat) : Int) L ∈ ms
          ∧ (GenomeMatcherImpl.build ((4 : Nat) : Int) [genomeG1]).minimumSearchLength ≤ L :=
  ⟨⟨by decide, by decide, by decide, by decide⟩,
    findGenomes_self_match 4 (by decide) [genomeG1] (by decide) genomeG1 (by decide) 4
      (by decide) []⟩

/-- C9: precondition rejection. In every matcher state, whatever its trie, genomes and
name lookup, `findGenomesWithThisDNA` returns false and leaves the output vector as it
was when the fragment is shorter than the minimum length or the minimum length is
below the minimum search length; and `findRelatedGenomes` returns false and leaves the
output vector as it was when the fragment match length is below the minimum search
length. -/
theorem precondition_rejection :
    (∀ (s : GenomeMatcherImpl) (fragment : List Char) (minimumLength : Int)
        (exactMatchOnly : Bool) (matchList : List DNAMatch),
        ((fragment.length : Int) < minimumLength ∨ minimumLength < s.minimumSearchLength) →
        s.findGenomesWithThisDNA fragment minimumLength exactMatchOnly matchList
          = some (false, matchList))
    ∧ (∀ (s : GenomeMatcherImpl) (query : Genome) (fragmentMatchLength : Int)
        (exactMatchOnly : Bool) (matchPercentThreshold : ℚ) (results : List GenomeMatch),
        fragmentMatchLength < s.minimumSearchLength →
        s.findRelatedGenomes query fragmentMatchLength exactMatchOnly matchPercentThreshold
          results = some (false, results)) := by
  constructor
  · intro s fragment minimumLength exactMatchOnly matchList h
    have hg : fragment.length < toSizeT minimumLength ∨ minimumLength < s.m_minSearchLength := by
      rcases h with h | h
      · left
        have h0 : 0 ≤ minimumLength := by omega
        simp only [toSizeT, h0, if_true]
        omega
      · exact Or.inr h
    simp only [GenomeMatcherImpl.findGenomesWithThisDNA, hg, if_true]
  · intro s query fragmentMatchLength exactMatchOnly matchPercentThreshold results h
    have hg : fragmentMatchLength < s.m_minSearchLength := h
    simp only [GenomeMatcherImpl.findRelatedGenomes, hg, if_true]

/-- An instance of `precondition_rejection` (scenario D): on the matcher of scenario A
a search with minimum length 3, below the minimum search length 4, and a relatedness
query with fragment match length 3 are rejected with the output left as it was. -/
theorem precondition_rejection_witness :
    (((("ACGT".toList.length : Nat) : Int) < 3 ∨ (3 : Int) < matcherAB.minimumSearchLength)
        ∧ matcherAB.findGenomesWithThisDNA "ACGT".toList 3 true [DNAMatch.mk "X".toList 7 9]
          = some (false, [DNAMatch.mk "X".toList 7 9]))
      ∧ ((3 : Int) < matcherAB.minimumSearchLength
        ∧ matcherAB.findRelatedGenomes genomeG1 3 false 50 [GenomeMatch.mk "X".toList 1]
          = some (false, [GenomeMatch.mk "X".toList 1])) :=
  ⟨⟨Or.inr (by decide),
      precondition_rejection.1 matcherAB "ACGT".toList 3 true [DNAMatch.mk "X".toList 7 9]
        (Or.inr (by decide))⟩,
    ⟨by decide,
      precondition_rejection.2 matcherAB genomeG1 3 false 50 [GenomeMatch.mk "X".toList 1]
        (by decide)⟩⟩

/-- C10: a tie that is not returned. With minimum search length 2 and the genomes
("D", "ACG"), ("E", "ACTTT") and ("C", "ACAAA"), the exact search for "ACGT" with
minimum length 2 returns the record of D at position 0 with length 3 only. The
candidate of D does not fit its genome (0 + 4 > 3); the candidates of E and of C at
position 0 fit theirs and match the fragment at length 2 and at no greater length, so
they tie at the greatest extension length of the candidates that fit, and neither
record is returned. Without the genome D the same search returns both. -/
theorem findGenomes_short_genome_hides_ties :
    matcherTies.findGenomesWithThisDNA "ACGT".toList 2 true []
        = some (true, [DNAMatch.mk "D".toList 0 3])
      ∧ ¬ ((0 : Int) + ("ACGT".toList.length : Int) ≤ (Genome.mk "D".toList "ACG".toList).length)
      ∧ (0 : Int) + ("ACGT".toList.length : Int) ≤ genomeE.length
      ∧ (0 : Int) + ("ACGT".toList.length : Int) ≤ genomeC.length
      ∧ (List.range 5).filter (fun L => decide (2 ≤ L) &&
            matchedB true (window genomeE.m_sequence 0 L) ("ACGT".toList.take L)) = [2]
      ∧ (List.range 5).filter (fun L => decide (2 ≤ L) &&
            matchedB true (window genomeC.m_sequence 0 L) ("ACGT".toList.take L)) = [2]
      ∧ DNAMatch.mk "E".toList 0 2 ∉ [DNAMatch.mk "D".toList 0 3]
      ∧ DNAMatch.mk "C".toList 0 2 ∉ [DNAMatch.mk "D".toList 0 3]
      ∧ (GenomeMatcherImpl.build 2 [genomeE, genomeC]).findGenomesWithThisDNA
            "ACGT".toList 2 true []
          = some (true, [DNAMatch.mk "E".toList 0 2, DNAMatch.mk "C".toList 0 2]) := by
  decide

/-! ## The relatedness query -/

/-- C5: the percentage counts match records, not windows. On the matcher of scenario
A the query "ACGT" has a single window of length 4, found at positions 0 and 4 of G1;
the percentage computed for G1 is 200. -/
theorem findRelated_counts_records :
    matcherAB.findGenomesWithThisDNA "ACGT".toList 4 true []
        = some (true, [DNAMatch.mk "G1".toList 0 4, DNAMatch.mk "G1".toList 4 4])
      ∧ matcherAB.findRelatedGenomes ⟨"Q".toList, "ACGT".toList⟩ 4 true 0 []
        = some (true, [GenomeMatch.mk "G1".toList 200]) :=
  ⟨by decide,
    findRelatedGenomes_of_loops matcherAB ⟨"Q".toList, "ACGT".toList⟩ 4 true 0 []
      [DNAMatch.mk "G1".toList 0 4, DNAMatch.mk "G1".toList 4 4] [2]
      [GenomeMatch.mk "G1".toList 200] (by decide) (by decide) (by decide) (by decide)
      (by
        show GenomeMatcherImpl.percentLoop 1 0 [(genomeG1, 2)] []
          = some [GenomeMatch.mk "G1".toList 200]
        norm_num [GenomeMatcherImpl.percentLoop, percent_2_of_1, Dbl.toRat, genomeG1,
          Genome.name])⟩

/-- C6: a trailing partial window adds hits. On the matcher with minimum search length
4 and the genome ("G1", "ACGTC"), the query "GGGGACGTA" of length 9 with fragment
match length 4 scores 100 for G1, while the query truncated to its first 8 bases,
"GGGGACGT", scores 50: the search for the failed ninth-base window is rejected before
`matches.clear()`, and the records of the window "ACGT" are appended a second time. -/
theorem findRelated_partial_window_counts :
    matcherTail.findRelatedGenomes ⟨"Q".toList, "GGGGACGTA".toList⟩ 4 true 0 []
        = some (true, [GenomeMatch.mk "G1".toList 100])
      ∧ matcherTail.findRelatedGenomes ⟨"Q".toList, "GGGGACGT".toList⟩ 4 true 0 []
        = some (true, [GenomeMatch.mk "G1".toList 50]) :=
  ⟨findRelatedGenomes_of_loops matcherTail ⟨"Q".toList, "GGGGACGTA".toList⟩ 4 true 0 []
      [DNAMatch.mk "G1".toList 0 4, DNAMatch.mk "G1".toList 0 4] [2]
      [GenomeMatch.mk "G1".toList 100] (by decide) (by decide) (by decide) (by decide)
      (by
        show GenomeMatcherImpl.percentLoop 2 0 [(⟨"G1".toList, "ACGTC".toList⟩, 2)] []
          = some [GenomeMatch.mk "G1".toList 100]
        norm_num [GenomeMatcherImpl.percentLoop, percent_2_of_2, Dbl.toRat, Genome.name]),
    findRelatedGenomes_of_loops matcherTail ⟨"Q".toList, "GGGGACGT".toList⟩ 4 true 0 []
      [DNAMatch.mk "G1".toList 0 4] [1]
      [GenomeMatch.mk "G1".toList 50] (by decide) (by decide) (by decide) (by decide)
      (by
        show GenomeMatcherImpl.percentLoop 2 0 [(⟨"G1".toList, "ACGTC".toList⟩, 1)] []
          = some [GenomeMatch.mk "G1".toList 50]
        norm_num [GenomeMatcherImpl.percentLoop, percent_1_of_2, Dbl.toRat, Genome.name])⟩

/-! ## Further claims on the relatedness query -/

/-- C11: a percentage above 100. On the matcher of scenario A the query "ACGTACGT"
has two windows of length 4, each found at positions 0 and 4 of G1: four match
records over two windows, and the record returned for G1 carries 200. -/
theorem findRelated_percent_above_100 :
    matcherAB.findRelatedGenomes ⟨"Q".toList, "ACGTACGT".toList⟩ 4 true 0 []
        = some (true, [GenomeMatch.mk "G1".toList 200])
      ∧ ¬ ((200 : ℚ) ≤ 100) :=
  ⟨findRelatedGenomes_of_loops matcherAB ⟨"Q".toList, "ACGTACGT".toList⟩ 4 true 0 []
      [DNAMatch.mk "G1".toList 0 4, DNAMatch.mk "G1".toList 4 4,
        DNAMatch.mk "G1".toList 0 4, DNAMatch.mk "G1".toList 4 4] [4]
      [GenomeMatch.mk "G1".toList 200] (by decide) (by decide) (by decide) (by decide)
      (by
        show GenomeMatcherImpl.percentLoop 2 0 [(genomeG1, 4)] []
          = some [GenomeMatch.mk "G1".toList 200]
        norm_num [GenomeMatcherImpl.percentLoop, percent_4_of_2, Dbl.toRat, genomeG1,
          Genome.name]),
    by norm_num⟩

/-- C14: a second call appends again. On the matcher with minimum search length 4 and
the genome ("G1", "ACGTC"), the query "ACGT" with fragment match length 4 and
threshold 0 leaves one record in an empty output vector; the same call on that
vector leaves two. -/
theorem findRelated_second_call_appends :
    matcherTail.findRelatedGenomes ⟨"Q".toList, "ACGT".toList⟩ 4 true 0 []
        = some (true, [GenomeMatch.mk "G1".toList 100])
      ∧ matcherTail.findRelatedGenomes ⟨"Q".toList, "ACGT".toList⟩ 4 true 0
          [GenomeMatch.mk "G1".toList 100]
        = some (true, [GenomeMatch.mk "G1".toList 100, GenomeMatch.mk "G1".toList 100]) :=
  ⟨findRelatedGenomes_of_loops matcherTail ⟨"Q".toList, "ACGT".toList⟩ 4 true 0 []
      [DNAMatch.mk "G1".toList 0 4] [1]
      [GenomeMatch.mk "G1".toList 100] (by decide) (by decide) (by decide) (by decide)
      (by
        show GenomeMatcherImpl.percentLoop 1 0 [(⟨"G1".toList, "ACGTC".toList⟩, 1)] []
          = some [GenomeMatch.mk "G1".toList 100]
        norm_num [GenomeMatcherImpl.percentLoop, percent_1_of_1, Dbl.toRat, Genome.name]),
    findRelatedGenomes_of_loops matcherTail ⟨"Q".toList, "ACGT".toList⟩ 4 true 0
      [GenomeMatch.mk "G1".toList 100]
      [DNAMatch.mk "G1".toList 0 4] [1]
      [GenomeMatch.mk "G1".toList 100, GenomeMatch.mk "G1".toList 100]
      (by decide) (by decide) (by decide) (by decide)
      (by
        show GenomeMatcherImpl.percentLoop 1 0 [(⟨"G1".toList, "ACGTC".toList⟩, 1)]
            [GenomeMatch.mk "G1".toList 100]
          = some [GenomeMatch.mk "G1".toList 100, GenomeMatch.mk "G1".toList 100]
        norm_num [GenomeMatcherImpl.percentLoop, percent_1_of_1, Dbl.toRat, Genome.name])⟩

/-! ## Further claims on the fragment search and the trie -/

/-- C17: a record that runs past its genome. With minimum search length 2 and the only
genome ("D", "AC"), the exact search for "ACG" with minimum length 2 returns the
record of D at position 0 with length 2, although position 0 plus the fragment
length 3 exceeds the genome length 2: `2 - 3` wraps around in `size_t`, so the
erasing loop keeps the candidate. -/
theorem findGenomes_keeps_short_genome :
    matcherWrap.findGenomesWithThisDNA "ACG".toList 2 true []
        = some (true, [DNAMatch.mk "D".toList 0 2])
      ∧ ¬ ((0 : Int) + ("ACG".toList.length : Int) ≤ (Genome.mk "D".toList "AC".toList).length)
      ∧ subSizeT 2 3 = 2 ^ 64 - 1 := by
  decide

/-- C18: the one-mismatch lookup of a one-character key returns nothing. After the
insertion of the value 7 under the key "A", the exact lookup of "A" returns that
value and the one-mismatch lookup of "A" returns the empty list. -/
theorem trie_find_snip_one_char :
    (buildTrie [("A".toList, (7 : Nat))]).find "A".toList true = [7]
      ∧ (buildTrie [("A".toList, (7 : Nat))]).find "A".toList false = [] := by
  decide

/-! ## Extraction -/

/-- C15: `extract(position, length)` fails exactly when `position < 0`, or
`position >= |s|`, or `length <= 0`, or `position + length > |s|`; when it succeeds
the fragment is the `length` bases of `s` from `position` on, of size `length`; when
it fails the fragment of the caller is unchanged. -/
theorem extract_spec (g : Genome) (position length : Int) (fragment : List Char) :
    ((g.extractInto position length fragment).1 = false ↔
        (position < 0 ∨ position ≥ (g.m_sequence.length : Int) ∨ length ≤ 0
          ∨ position + length > (g.m_sequence.length : Int)))
      ∧ ((g.extractInto position length fragment).1 = true →
          (g.extractInto position length fragment).2
              = (g.m_sequence.drop position.toNat).take length.toNat
            ∧ (((g.extractInto position length fragment).2.length : Nat) : Int) = length)
      ∧ ((g.extractInto position length fragment).1 = false →
          (g.extractInto position length fragment).2 = fragment) := by
  by_cases hc : position < 0 ∨ position ≥ (g.m_sequence.length : Int) ∨ length ≤ 0
      ∨ position + length > (g.m_sequence.length : Int)
  · have hm : position < 0 ∨ toSizeT position ≥ g.m_sequence.length ∨ length ≤ 0
        ∨ toSizeT (position + length) > g.m_sequence.length := by
      by_cases h1 : position < 0
      · exact Or.inl h1
      · by_cases h3 : length ≤ 0
        · exact Or.inr (Or.inr (Or.inl h3))
        · have e1 : toSizeT position = position.toNat := by
            simp [toSizeT, not_lt.1 h1]
          have e2 : toSizeT (position + length) = (position + length).toNat := by
            have : 0 ≤ position + length := by omega
            simp [toSizeT, this]
          rw [e1, e2]
          rcases hc with h | h | h | h
          · exact absurd h h1
          · right; left; omega
          · exact absurd h h3
          · right; right; right; omega
    have he : g.extract position length = none := by
      simp only [Genome.extract, hm, if_true]
    simp [Genome.extractInto, he, hc]
  · have h1 : ¬ position < 0 := fun h => hc (Or.inl h)
    have h2 : ¬ position ≥ (g.m_sequence.length : Int) := fun h => hc (Or.inr (Or.inl h))
    have h3 : ¬ length ≤ 0 := fun h => hc (Or.inr (Or.inr (Or.inl h)))
    have h4 : ¬ position + length > (g.m_sequence.length : Int) :=
      fun h => hc (Or.inr (Or.inr (Or.inr h)))
    have e1 : toSizeT position = position.toNat := by simp [toSizeT, not_lt.1 h1]
    have e0 : toSizeT length = length.toNat := by
      have : 0 ≤ length := by omega
      simp [toSizeT, this]
    have e2 : toSizeT (position + length) = (position + length).toNat := by
      have : 0 ≤ position + length := by omega
      simp [toSizeT, this]
    have hm : ¬ (position < 0 ∨ toSizeT position ≥ g.m_sequence.length ∨ length ≤ 0
        ∨ toSizeT (position + length) > g.m_sequence.length) := by
      rw [e1, e2]
      omega
    have he : g.extract position length
        = some ((g.m_sequence.drop position.toNat).take length.toNat) := by
      unfold Genome.extract
      rw [if_neg hm, e1, e0]
    simp only [Genome.extractInto, he, hc, iff_false, Bool.true_eq_false, not_false_eq_true,
      true_and, forall_const, List.length_take, List.length_drop, false_implies, and_true]
    omega

/-- An instance of `extract_spec`: on the genome of scenario A the extraction of 4
bases at position 4 succeeds with "ACGT", and the extraction of 4 bases at position
5 fails and leaves the fragment of the caller, "XX", as it was. -/
theorem extract_spec_witness :
    genomeG1.extractInto 4 4 "XX".toList = (true, "ACGT".toList)
      ∧ genomeG1.extractInto 5 4 "XX".toList = (false, "XX".toList)
      ∧ ((genomeG1.extractInto 5 4 "XX".toList).1 = false ↔
          ((5 : Int) < 0 ∨ (5 : Int) ≥ (genomeG1.m_sequence.length : Int) ∨ (4 : Int) ≤ 0
            ∨ (5 : Int) + 4 > (genomeG1.m_sequence.length : Int))) :=
  ⟨by decide, by decide, (extract_spec genomeG1 5 4 "XX".toList).1⟩

/-! ## Registration: the name lookup keeps the first genome of a name -/

theorem firstIndex_append (gs : List Genome) (g : Genome) (name : List Char) :
    firstIndex (gs ++ [g]) name
      = match firstIndex gs name with
        | some i => some i
        | none => if g.name = name then some gs.length else none := by
  induction gs with
  | nil => simp [firstIndex]
  | cons x gs ih =>
    by_cases hx : x.name = name
    · simp [firstIndex, hx]
    · have e : firstIndex (x :: gs ++ [g]) name
          = (firstIndex (gs ++ [g]) name).map (· + 1) := by
        show firstIndex (x :: (gs ++ [g])) name = _
        simp only [firstIndex, hx, if_false]
      have e' : firstIndex (x :: gs) name = (firstIndex gs name).map (· + 1) := by
        simp only [firstIndex, hx, if_false]
      rw [e, e', ih]
      cases firstIndex gs name with
      | some i => rfl
      | none => by_cases hg : g.name = name <;> simp [hg]

theorem GMapFirst_new (m : Int) : GMapFirst (GenomeMatcherImpl.new m) := by
  intro name
  simp [GenomeMatcherImpl.new, gMapAt, firstIndex]

theorem GMapFirst_addGenome (s : GenomeMatcherImpl) (g : Genome) (h : GMapFirst s) :
    GMapFirst (s.addGenome g) := by
  intro name
  rw [GenomeMatcherImpl.addGenome_gMap, GenomeMatcherImpl.addGenome_genomes, firstIndex_append]
  unfold gMapInsert
  rw [gMapAt_any]
  have hlen : (((s.m_genomes ++ [g]).length : Int) - 1) = (s.m_genomes.length : Int) := by
    simp
  cases hk : gMapAt s.gMap g.name with
  | some x =>
    simp only [Option.isSome_some, if_true]
    rw [h name]
    cases hf : firstIndex s.m_genomes name with
    | some i => rfl
    | none =>
      have hne : g.name ≠ name := by
        intro e
        rw [e, h name, hf] at hk
        cases hk
      simp [hne]
  | none =>
    simp only [Option.isSome_none, Bool.false_eq_true, if_false]
    rw [gMapAt_append, h name, hlen]
    cases hf : firstIndex s.m_genomes name with
    | some i => rfl
    | none => by_cases hg : g.name = name <;> simp [hg]

theorem GMapFirst_foldl (gs : List Genome) :
    ∀ s : GenomeMatcherImpl, GMapFirst s →
      GMapFirst (gs.foldl GenomeMatcherImpl.addGenome s) := by
  induction gs with
  | nil => intro s h; exact h
  | cons g gs ih => intro s h; exact ih _ (GMapFirst_addGenome s g h)

theorem GMapFirst_build (m : Int) (gs : List Genome) :
    GMapFirst (GenomeMatcherImpl.build m gs) :=
  GMapFirst_foldl gs _ (GMapFirst_new m)

theorem firstIndex_self (gs : List Genome) (g : Genome) :
    ∃ i, firstIndex (gs ++ [g]) g.name = some i ∧ i ≤ gs.length
      ∧ (g.name ∉ gs.map Genome.name → i = gs.length) := by
  rw [firstIndex_append]
  cases hf : firstIndex gs g.name with
  | none => exact ⟨gs.length, by simp, le_refl _, fun _ => rfl⟩
  | some i =>
    refine ⟨i, rfl, ?_, ?_⟩
    · have : ∀ (l : List Genome) (j : Nat), firstIndex l g.name = some j → j < l.length := by
        intro l
        induction l with
        | nil => intro j hj; simp [firstIndex] at hj
        | cons x l ih =>
          intro j hj
          by_cases hx : x.name = g.name
          · simp [firstIndex, hx] at hj; subst hj; simp
          · simp only [firstIndex, hx, if_false, Option.map_eq_some'] at hj
            obtain ⟨a, ha, rfl⟩ := hj
            have := ih a ha
            simp; omega
      exact Nat.le_of_lt (this gs i hf)
    · intro hn
      exfalso
      have : ∀ (l : List Genome) (j : Nat), firstIndex l g.name = some j →
          g.name ∈ l.map Genome.name := by
        intro l
        induction l with
        | nil => intro j hj; simp [firstIndex] at hj
        | cons x l ih =>
          intro j hj
          by_cases hx : x.name = g.name
          · simp [hx]
          · simp only [firstIndex, hx, if_false, Option.map_eq_some'] at hj
            obtain ⟨a, ha, _⟩ := hj
            exact List.mem_cons_of_mem _ (ih a ha)
      exact hn (this gs i hf)

theorem build_snoc (m : Int) (gs : List Genome) (g : Genome) :
    GenomeMatcherImpl.build m (gs ++ [g]) = (GenomeMatcherImpl.build m gs).addGenome g := by
  simp [GenomeMatcherImpl.build, List.foldl_append]

/-- C12, as stated, fails: after the registration of ("X", "ACGT") and then of
("X", "TTTTT") the lookup maps "X" to index 0, the older genome, not to index 1; the
exact search for "TTTT", which occurs in the newer genome only, has its candidate at
position 0 validated and extended against "ACGT". -/
theorem registration_keeps_older_index :
    matcherDup.m_genomes = [genomeX1, genomeX2]
      ∧ gMapAt matcherDup.gMap "X".toList = some 0
      ∧ matcherDup.genomeOf "X".toList = some genomeX1
      ∧ genomeX1 ≠ genomeX2
      ∧ matcherDup.findGenomesWithThisDNA "TTTT".toList 4 true []
          = some (true, [DNAMatch.mk "X".toList 0 4]) := by
  decide

/-- C12, amended: after `addGenome(g1)` followed by `addGenome(g2)` with the same
name, the lookup of the name of `g2` is what it was after `addGenome(g1)`: the list
index of the first registered genome of that name, which is the index of `g1` when
the name was not registered before; the lookup then yields `g1`, against whose
sequence the candidates carrying that name are validated and extended. -/
theorem registration_keeps_first_index (m : Int) (gs : List Genome) (g1 g2 : Genome)
    (h : g1.name = g2.name) :
    gMapAt (((GenomeMatcherImpl.build m gs).addGenome g1).addGenome g2).gMap g2.name
        = gMapAt ((GenomeMatcherImpl.build m gs).addGenome g1).gMap g2.name
      ∧ (∃ i : Nat,
          gMapAt (((GenomeMatcherImpl.build m gs).addGenome g1).addGenome g2).gMap g2.name
              = some (i : Int)
            ∧ firstIndex (gs ++ [g1, g2]) g2.name = some i ∧ i ≤ gs.length)
      ∧ (g2.name ∉ gs.map Genome.name →
          gMapAt (((GenomeMatcherImpl.build m gs).addGenome g1).addGenome g2).gMap g2.name
              = some (gs.length : Int)
            ∧ (((GenomeMatcherImpl.build m gs).addGenome g1).addGenome g2).genomeOf g2.name
              = some g1) := by
  rw [← h]
  have e1 : (GenomeMatcherImpl.build m gs).addGenome g1 = GenomeMatcherImpl.build m (gs ++ [g1]) :=
    (build_snoc m gs g1).symm
  have e2 : ((GenomeMatcherImpl.build m gs).addGenome g1).addGenome g2
      = GenomeMatcherImpl.build m (gs ++ [g1] ++ [g2]) := by
    rw [e1]
    exact (build_snoc m (gs ++ [g1]) g2).symm
  obtain ⟨i, hi, hile, hifresh⟩ := firstIndex_self gs g1
  have hfi2 : firstIndex (gs ++ [g1] ++ [g2]) g1.name = some i := by
    rw [firstIndex_append, hi]
  have hm1 := GMapFirst_build m (gs ++ [g1]) g1.name
  have hm2 := GMapFirst_build m (gs ++ [g1] ++ [g2]) g1.name
  rw [GenomeMatcherImpl.build_genomes] at hm1 hm2
  rw [hi] at hm1
  rw [hfi2] at hm2
  rw [e2, e1, hm1, hm2]
  refine ⟨rfl, ⟨i, rfl, by simpa using hfi2, hile⟩, ?_⟩
  intro hn
  have hil := hifresh hn
  subst hil
  refine ⟨rfl, ?_⟩
  simp only [GenomeMatcherImpl.genomeOf, hm2, GenomeMatcherImpl.build_genomes, Option.map_some']
  rw [if_neg (by omega), Int.toNat_ofNat, List.append_assoc,
    List.getElem?_append_right (le_refl _)]
  simp

/-- An instance of `registration_keeps_first_index`: the two genomes named "X"
registered in a new matcher. -/
theorem registration_keeps_first_index_witness :
    genomeX1.name = genomeX2.name
      ∧ (genomeX2.name ∉ ([] : List Genome).map Genome.name →
          gMapAt (((GenomeMatcherImpl.build 4 []).addGenome genomeX1).addGenome genomeX2).gMap
              genomeX2.name = some ((([] : List Genome).length : Nat) : Int)
            ∧ (((GenomeMatcherImpl.build 4 []).addGenome genomeX1).addGenome genomeX2).genomeOf
              genomeX2.name = some genomeX1) :=
  ⟨by decide, (registration_keeps_first_index 4 [] genomeX1 genomeX2 (by decide)).2.2⟩

/-! ## Registration: the index invariant -/

theorem expectedRecords_append (m : Int) (gs : List Genome) (g : Genome) (k : List Char) :
    expectedRecords m (gs ++ [g]) k
      = expectedRecords m gs k
        ++ ((List.range (g.length - m + 1).toNat).filter
              (fun (i : Nat) => decide (g.extract (i : Int) m = some k))).map
            (fun (i : Nat) => DNAMatch.mk g.name (i : Int) m) := by
  simp [expectedRecords]

theorem valuesFor_indexEntries (mN : Nat) (hm : 1 ≤ mN) (g : Genome) (k : List Char) :
    valuesFor (indexEntries (mN : Int) g) k
      = ((List.range (g.length - (mN : Int) + 1).toNat).filter
            (fun (i : Nat) => decide (g.extract (i : Int) (mN : Int) = some k))).map
          (fun (i : Nat) => DNAMatch.mk g.name (i : Int) (mN : Int)) := by
  rw [valuesFor_eq_filter]
  unfold indexEntries
  rw [List.filter_map, List.map_map]
  have hfil : List.filter
      ((fun e : List Char × DNAMatch => decide (e.1 = k)) ∘ fun (i : Nat) =>
        ((g.extract (i : Int) (mN : Int)).getD [], DNAMatch.mk g.name (i : Int) (mN : Int)))
      (List.range (g.length - (mN : Int) + 1).toNat)
      = List.filter (fun (i : Nat) => decide (g.extract (i : Int) (mN : Int) = some k))
          (List.range (g.length - (mN : Int) + 1).toNat) := by
    refine List.filter_congr (fun i hi => ?_)
    have hi' : i + mN ≤ g.m_sequence.length := by
      have := List.mem_range.1 hi
      simp only [Genome.length] at this
      omega
    simp only [Function.comp, extract_eq_window g i mN (by omega) hi', Option.getD_some,
      Option.some.injEq]
  rw [hfil]
  rfl

/-- C19: the index invariant. For a positive minimum search length `m`: the empty
matcher satisfies the invariant; `addGenome` preserves it, appends the genome to the
list of genomes, and leaves the trie as it was when the genome is shorter than `m`;
hence every matcher reached by `addGenome` calls satisfies it: the exact lookup of a
key `k` of length `m` is the list of the records `{g.name(), i, m}` for the
registered genomes `g`, in registration order, and the positions `i` from 0 to
`g.length() - m`, in increasing order, with `g.extract(i, m) = k`. -/
theorem index_invariant (mN : Nat) (hm : 1 ≤ mN) :
    IndexInv (GenomeMatcherImpl.new (mN : Int))
      ∧ (∀ (s : GenomeMatcherImpl) (g : Genome), s.m_minSearchLength = (mN : Int) →
          IndexInv s →
          IndexInv (s.addGenome g)
            ∧ (s.addGenome g).m_genomes = s.m_genomes ++ [g]
            ∧ (g.length < (mN : Int) → (s.addGenome g).m_genomeTrie = s.m_genomeTrie))
      ∧ ∀ gs : List Genome, IndexInv (GenomeMatcherImpl.build (mN : Int) gs) := by
  have hnew : IndexInv (GenomeMatcherImpl.new (mN : Int)) := by
    intro k _
    have := find_exact_build ([] : List (List Char × DNAMatch)) k
    simpa [GenomeMatcherImpl.new, buildTrie, expectedRecords, valuesFor] using this
  have hstep : ∀ (s : GenomeMatcherImpl) (g : Genome), s.m_minSearchLength = (mN : Int) →
      IndexInv s → IndexInv (s.addGenome g) := by
    intro s g hs hinv k hk
    rw [GenomeMatcherImpl.addGenome_min] at hk ⊢
    rw [GenomeMatcherImpl.addGenome_trie, GenomeMatcherImpl.addGenome_genomes,
      find_exact_foldl, hinv k hk, expectedRecords_append, hs,
      valuesFor_indexEntries mN hm]
  refine ⟨hnew, ?_, ?_⟩
  · intro s g hs hinv
    refine ⟨hstep s g hs hinv, rfl, ?_⟩
    intro hlt
    rw [GenomeMatcherImpl.addGenome_trie, hs]
    have : (g.length - (mN : Int) + 1).toNat = 0 := by omega
    simp [indexEntries, this]
  · intro gs
    induction gs using List.reverseRecOn with
    | nil => exact hnew
    | append_singleton gs g ih =>
      rw [build_snoc]
      exact hstep _ g (GenomeMatcherImpl.build_min _ _) ih

/-- An instance of `index_invariant`: on the matcher of scenario A the exact lookup of
"ACGT" holds the records of positions 0 and 4, in that order. -/
theorem index_invariant_witness :
    1 ≤ 4
      ∧ IndexInv (GenomeMatcherImpl.build ((4 : Nat) : Int) [genomeG1])
      ∧ expectedRecords 4 [genomeG1] "ACGT".toList
          = [DNAMatch.mk "G1".toList 0 4, DNAMatch.mk "G1".toList 4 4] :=
  ⟨by decide, (index_invariant 4 (by decide)).2.2 [genomeG1], by decide⟩

/-! ## The extension loop in general -/

theorem loopM_append {σ α : Type} (f : σ → α → Option σ) (l1 l2 : List α) :
    ∀ st : σ, loopM f st (l1 ++ l2)
      = match loopM f st l1 with
        | none => none
        | some st' => loopM f st' l2 := by
  induction l1 with
  | nil => intro st; rfl
  | cons a l1 ih =>
    intro st
    simp only [List.cons_append, loopM]
    cases f st a with
    | none => rfl
    | some st' => exact ih st'

theorem bestUpTo_spec (matched : Nat → Bool) (minN : Nat) (len0 : Int) (k : Nat) :
    (bestUpTo matched minN len0 k = len0 ∧ ∀ j, j < k → matched (j + minN) = false)
      ∨ ∃ i, i < k ∧ bestUpTo matched minN len0 k = ((i + minN : Nat) : Int)
          ∧ matched (i + minN) = true ∧ ∀ j, i < j → j < k → matched (j + minN) = false := by
  induction k with
  | zero => exact Or.inl ⟨rfl, fun j hj => absurd hj (Nat.not_lt_zero j)⟩
  | succ k ih =>
    by_cases hk : matched (k + minN) = true
    · right
      refine ⟨k, Nat.lt_succ_self k, by simp [bestUpTo, hk], hk, ?_⟩
      intro j h1 h2
      omega
    · have hk' : matched (k + minN) = false := by simpa using hk
      have hb : bestUpTo matched minN len0 (k + 1) = bestUpTo matched minN len0 k := by
        simp [bestUpTo, hk']
      rcases ih with ⟨h1, h2⟩ | ⟨i, hi, h1, h2, h3⟩
      · left
        refine ⟨hb.trans h1, ?_⟩
        intro j hj
        rcases Nat.lt_succ_iff_lt_or_eq.1 hj with h | h
        · exact h2 j h
        · rw [h]; exact hk'
      · right
        refine ⟨i, Nat.lt_succ_of_lt hi, hb.trans h1, h2, ?_⟩
        intro j hj1 hj2
        rcases Nat.lt_succ_iff_lt_or_eq.1 hj2 with h | h
        · exact h3 j hj1 h
        · rw [h]; exact hk'

/-- One turn of the inner loop for a candidate whose genome holds the whole fragment
from the candidate's position on. -/
theorem extendStep_fit (s : GenomeMatcherImpl) (fragment : List Char) (minN : Nat)
    (exactMatchOnly : Bool) (c : DNAMatch) (g : Genome) (p : Nat) (hmin : 1 ≤ minN)
    (hg : s.genomeOf c.genomeName = some g) (hp : c.position = (p : Int))
    (hfit : p + fragment.length ≤ g.m_sequence.length)
    (st : Int × List Char × Int) (i : Nat) (hi : i + minN ≤ fragment.length) :
    s.extendStep fragment (minN : Int) exactMatchOnly c st i
      = some (if matchedB exactMatchOnly (window g.m_sequence p (i + minN))
                (fragment.take (i + minN)) then
            (((i + minN : Nat) : Int), window g.m_sequence p (i + minN),
              if toSizeT st.2.2 < i + minN then ((i + minN : Nat) : Int) else st.2.2)
          else (st.1, window g.m_sequence p (i + minN), st.2.2)) := by
  have hcast : ((i : Nat) : Int) + (minN : Int) = ((i + minN : Nat) : Int) := by
    rw [Nat.cast_add]
  have hext : g.extract c.position (((i : Nat) : Int) + (minN : Int))
      = some (window g.m_sequence p (i + minN)) := by
    rw [hp, hcast]
    exact extract_eq_window g p _ (by omega) (by omega)
  have hwl : (window g.m_sequence p (i + minN)).length = i + minN :=
    window_length _ _ _ (by omega)
  have htl : (fragment.take (i + minN)).length = i + minN := by
    simp only [List.length_take]; omega
  have hcmp := findDNAHelper_eq (window g.m_sequence p (i + minN)) (fragment.take (i + minN))
    exactMatchOnly (by rw [hwl, htl])
  have htake : fragment.take (toSizeT (((i : Nat) : Int) + (minN : Int)))
      = fragment.take (i + minN) := by
    rw [hcast, toSizeT_natCast]
  simp only [GenomeMatcherImpl.extendStep, hg, hext, htake, Option.getD_some, hcmp]
  cases hb : matchedB exactMatchOnly (window g.m_sequence p (i + minN))
      (fragment.take (i + minN))
  · simp only [matchedB] at hb
    simp [hb]
  · simp only [matchedB] at hb
    simp [hb, hwl]

/-- The inner loop for such a candidate: it always has a result, and the length it
leaves in the candidate is `bestUpTo`. -/
theorem innerLoop_fit (s : GenomeMatcherImpl) (fragment : List Char) (minN : Nat)
    (exactMatchOnly : Bool) (c : DNAMatch) (g : Genome) (p : Nat) (hmin : 1 ≤ minN)
    (hg : s.genomeOf c.genomeName = some g) (hp : c.position = (p : Int))
    (hfit : p + fragment.length ≤ g.m_sequence.length) (st : Int × List Char × Int) :
    ∀ k : Nat, k + minN ≤ fragment.length + 1 →
      ∃ tf tm, loopM (s.extendStep fragment (minN : Int) exactMatchOnly c) st (List.range k)
        = some (bestUpTo (fun L => matchedB exactMatchOnly (window g.m_sequence p L)
            (fragment.take L)) minN st.1 k, tf, tm) := by
  intro k
  induction k with
  | zero => intro _; exact ⟨st.2.1, st.2.2, rfl⟩
  | succ k ih =>
    intro hk
    obtain ⟨tf, tm, h⟩ := ih (by omega)
    rw [List.range_succ, loopM_append, h]
    simp only [loopM]
    rw [extendStep_fit s fragment minN exactMatchOnly c g p hmin hg hp hfit _ k (by omega)]
    cases hb : matchedB exactMatchOnly (window g.m_sequence p (k + minN))
        (fragment.take (k + minN))
    · exact ⟨window g.m_sequence p (k + minN), tm, by simp [bestUpTo, hb]⟩
    · exact ⟨window g.m_sequence p (k + minN),
        if toSizeT tm < k + minN then ((k + minN : Nat) : Int) else tm,
        by simp [bestUpTo, hb]⟩

theorem toSizeT_of_nonneg (x : Int) (h : 0 ≤ x) : ((toSizeT x : Nat) : Int) = x := by
  simp [toSizeT, h]

/-- The running maximum never decreases in a turn of the inner loop. -/
theorem extendStep_tempMax (s : GenomeMatcherImpl) (fragment : List Char) (minimumLength : Int)
    (exactMatchOnly : Bool) (c : DNAMatch) (st st' : Int × List Char × Int) (i : Nat)
    (h : s.extendStep fragment minimumLength exactMatchOnly c st i = some st')
    (h0 : 0 ≤ st.2.2) : st.2.2 ≤ st'.2.2 := by
  unfold GenomeMatcherImpl.extendStep at h
  cases hg : s.genomeOf c.genomeName with
  | none => simp [hg] at h
  | some g =>
    simp only [hg] at h
    cases hc : findDNAHelper ((g.extract c.position (↑i + minimumLength)).getD st.2.1)
        (List.take (toSizeT (↑i + minimumLength)) fragment) exactMatchOnly with
    | none => simp [hc] at h
    | some b =>
      cases b with
      | false =>
        simp only [hc, Option.some.injEq] at h
        rw [← h]
      | true =>
        simp only [hc, Option.some.injEq] at h
        rw [← h]
        simp only
        split
        · rename_i hlt
          have := toSizeT_of_nonneg _ h0
          omega
        · exact le_refl _

theorem innerLoop_tempMax (s : GenomeMatcherImpl) (fragment : List Char) (minimumLength : Int)
    (exactMatchOnly : Bool) (c : DNAMatch) (l : List Nat) :
    ∀ (st st' : Int × List Char × Int),
      loopM (s.extendStep fragment minimumLength exactMatchOnly c) st l = some st' →
      0 ≤ st.2.2 → st.2.2 ≤ st'.2.2 := by
  induction l with
  | nil =>
    intro st st' h _
    simp only [loopM, Option.some.injEq] at h
    rw [h]
  | cons i l ih =>
    intro st st' h h0
    simp only [loopM] at h
    cases hs : s.extendStep fragment minimumLength exactMatchOnly c st i with
    | none => simp [hs] at h
    | some st1 =>
      simp only [hs] at h
      have h1 := extendStep_tempMax s fragment minimumLength exactMatchOnly c st st1 i hs h0
      have h2 := ih st1 st' h (le_trans h0 h1)
      exact le_trans h1 h2

/-- What a turn of the loop over the candidates does to the running maximum and to the
vector of matches. -/
theorem extendCandidate_mem (s : GenomeMatcherImpl) (fragment : List Char)
    (minimumLength : Int) (exactMatchOnly : Bool) (st st' : ExtState) (c : DNAMatch)
    (h : s.extendCandidate fragment minimumLength exactMatchOnly st c = some st')
    (h0 : 0 ≤ st.tempMax) :
    st.tempMax ≤ st'.tempMax
      ∧ ∀ r ∈ st'.matchList, r ∈ st.matchList ∨
          ∃ (len : Int) (tf : List Char),
            loopM (s.extendStep fragment minimumLength exactMatchOnly c)
                (c.length, st.tempFrag, st.tempMax)
                (List.range ((fragment.length : Int) - minimumLength + 1).toNat)
              = some (len, tf, len)
            ∧ st.tempMax ≤ len
            ∧ r = DNAMatch.mk c.genomeName c.position len := by
  unfold GenomeMatcherImpl.extendCandidate at h
  cases hl : loopM (s.extendStep fragment minimumLength exactMatchOnly c)
      (c.length, st.tempFrag, st.tempMax)
      (List.range ((fragment.length : Int) - minimumLength + 1).toNat) with
  | none => simp [hl] at h
  | some res =>
    obtain ⟨len, tf, tm⟩ := res
    have hmono := innerLoop_tempMax s fragment minimumLength exactMatchOnly c _ _ _ hl h0
    simp only [hl, Option.some.injEq] at h
    subst h
    refine ⟨hmono, ?_⟩
    intro r hr
    by_cases he : len = tm
    · subst he
      simp only [if_true, List.mem_append, List.mem_singleton] at hr
      rcases hr with hr | hr
      · exact Or.inl hr
      · exact Or.inr ⟨len, tf, rfl, hmono, hr⟩
    · simp only [he, if_false] at hr
      exact Or.inl hr

theorem extendLoop_mem (s : GenomeMatcherImpl) (fragment : List Char)
    (minimumLength : Int) (exactMatchOnly : Bool) :
    ∀ (cands : List DNAMatch) (st st' : ExtState),
      loopM (s.extendCandidate fragment minimumLength exactMatchOnly) st cands = some st' →
      0 ≤ st.tempMax →
      st.tempMax ≤ st'.tempMax
        ∧ ∀ r ∈ st'.matchList, r ∈ st.matchList ∨
            ∃ c ∈ cands, ∃ (tf0 : List Char) (tm0 len : Int) (tf : List Char),
              loopM (s.extendStep fragment minimumLength exactMatchOnly c)
                  (c.length, tf0, tm0)
                  (List.range ((fragment.length : Int) - minimumLength + 1).toNat)
                = some (len, tf, len)
              ∧ st.tempMax ≤ len
              ∧ r = DNAMatch.mk c.genomeName c.position len := by
  intro cands
  induction cands with
  | nil =>
    intro st st' h _
    simp only [loopM, Option.some.injEq] at h
    subst h
    exact ⟨le_refl _, fun r hr => Or.inl hr⟩
  | cons c cands ih =>
    intro st st' h h0
    simp only [loopM] at h
    cases hc : s.extendCandidate fragment minimumLength exactMatchOnly st c with
    | none => simp [hc] at h
    | some st1 =>
      simp only [hc] at h
      obtain ⟨hm1, hr1⟩ := extendCandidate_mem s fragment minimumLength exactMatchOnly st st1 c hc h0
      obtain ⟨hm2, hr2⟩ := ih st1 st' h (le_trans h0 hm1)
      refine ⟨le_trans hm1 hm2, ?_⟩
      intro r hr
      rcases hr2 r hr with h2 | ⟨c', hc', tf0, tm0, len, tf, hl, hle, hrr⟩
      · rcases hr1 r h2 with h3 | ⟨len, tf, hl, hle, hrr⟩
        · exact Or.inl h3
        · exact Or.inr ⟨c, List.mem_cons_self _ _, st.tempFrag, st.tempMax, len, tf, hl, hle, hrr⟩
      · exact Or.inr ⟨c', List.mem_cons_of_mem _ hc', tf0, tm0, len, tf, hl,
          le_trans hm1 hle, hrr⟩

theorem filterCandidates_subset (s : GenomeMatcherImpl) (fragment : List Char) :
    ∀ (cands l : List DNAMatch), s.filterCandidates fragment cands = some l →
      ∀ c ∈ l, c ∈ cands := by
  intro cands
  induction cands with
  | nil =>
    intro l h c hc
    simp only [GenomeMatcherImpl.filterCandidates, Option.some.injEq] at h
    subst h
    cases hc
  | cons x cands ih =>
    intro l h c hc
    unfold GenomeMatcherImpl.filterCandidates at h
    cases hg : s.genomeOf x.genomeName with
    | none => simp [hg] at h
    | some g =>
      simp only [hg] at h
      cases hf : s.filterCandidates fragment cands with
      | none => simp [hf] at h
      | some rest =>
        simp only [hf] at h
        split at h
        · simp only [Option.some.injEq] at h
          subst h
          exact List.mem_cons_of_mem _ (ih rest hf c hc)
        · simp only [Option.some.injEq] at h
          subst h
          rcases List.mem_cons.1 hc with e | e
          · exact e ▸ List.mem_cons_self _ _
          · exact List.mem_cons_of_mem _ (ih rest hf c e)

/-! ## The candidates of any search -/

theorem find_snip_short (t : Trie V) (k : List Char) (h : k.length ≤ 1) :
    t.find k false = [] := by
  cases k with
  | nil => simp [Trie.find, findSNiPHelper]
  | cons c rest =>
    have hr : rest = [] := by
      cases rest with
      | nil => rfl
      | cons d r => simp at h
    subst hr
    simp only [Trie.find, Bool.false_eq_true, if_false, findSNiPHelper, if_true]
    exact flatMap_eq_nil_of _ _ (fun ch _ => by split <;> rfl)

theorem mem_find_build (ins : List (List Char × V)) (k : List Char) (exactMatchOnly : Bool)
    (c : V) (h : c ∈ (buildTrie ins).find k exactMatchOnly) :
    ∃ e ∈ ins, e.2 = c ∧ keyMatch exactMatchOnly k e.1 = true := by
  cases exactMatchOnly with
  | true =>
    rw [find_exact_build, valuesFor_eq_filter, List.mem_map] at h
    obtain ⟨e, he, rfl⟩ := h
    obtain ⟨he1, he2⟩ := List.mem_filter.1 he
    exact ⟨e, he1, rfl, by simpa [keyMatch] using he2⟩
  | false =>
    by_cases hk : 2 ≤ k.length
    · rw [(find_snip_perm ins k hk).mem_iff, List.mem_map] at h
      obtain ⟨e, he, rfl⟩ := h
      obtain ⟨he1, he2⟩ := List.mem_filter.1 he
      exact ⟨e, he1, rfl, by simpa [keyMatch] using he2⟩
    · rw [find_snip_short _ k (by omega)] at h
      cases h

/-- Every candidate of a search on a matcher built by registrations is the index
record of a window of a registered genome whose key the trie matches with the
searched key. -/
theorem candidates_mem (mN : Nat) (hm : 1 ≤ mN) (gs : List Genome) (key : List Char)
    (exactMatchOnly : Bool) (c : DNAMatch)
    (h : c ∈ (GenomeMatcherImpl.build (mN : Int) gs).m_genomeTrie.find key exactMatchOnly) :
    ∃ g ∈ gs, ∃ i : Nat, i + mN ≤ g.m_sequence.length
      ∧ c = DNAMatch.mk g.name (i : Int) (mN : Int)
      ∧ keyMatch exactMatchOnly key (window g.m_sequence i mN) = true := by
  rw [GenomeMatcherImpl.build_trie] at h
  obtain ⟨e, he, rfl, hk⟩ := mem_find_build _ key exactMatchOnly c h
  obtain ⟨g, hg, i, hi, rfl⟩ := (mem_allEntries mN hm gs e).1 he
  exact ⟨g, hg, i, hi, rfl, hk⟩

/-- The records returned by a search that meets its preconditions: each comes from a
candidate, the index record of a window of a registered genome under a key matched by
the searched key, and carries the length that the inner loop left in that candidate,
which is then the running maximum and at least the minimum length. -/
theorem findGenomes_records (mN : Nat) (hm : 1 ≤ mN) (gs : List Genome)
    (fragment : List Char) (minimumLength : Int) (exactMatchOnly : Bool)
    (matchList : List DNAMatch) (b : Bool) (ms : List DNAMatch)
    (hpre1 : (mN : Int) ≤ minimumLength) (hpre2 : minimumLength ≤ (fragment.length : Int))
    (h : (GenomeMatcherImpl.build (mN : Int) gs).findGenomesWithThisDNA fragment minimumLength
      exactMatchOnly matchList = some (b, ms)) :
    b = decide (ms.length > 0)
      ∧ ∀ r ∈ ms, ∃ g ∈ gs, ∃ i : Nat, i + mN ≤ g.m_sequence.length
          ∧ r.genomeName = g.name ∧ r.position = (i : Int)
          ∧ keyMatch exactMatchOnly (fragment.take mN) (window g.m_sequence i mN) = true
          ∧ minimumLength ≤ r.length
          ∧ ∃ (tf0 : List Char) (tm0 : Int) (tf : List Char),
              loopM ((GenomeMatcherImpl.build (mN : Int) gs).extendStep fragment minimumLength
                  exactMatchOnly (DNAMatch.mk g.name (i : Int) (mN : Int)))
                  ((mN : Int), tf0, tm0)
                  (List.range ((fragment.length : Int) - minimumLength + 1).toNat)
                = some (r.length, tf, r.length) := by
  have hguard : ¬ (fragment.length < toSizeT minimumLength
      ∨ minimumLength < (GenomeMatcherImpl.build (mN : Int) gs).m_minSearchLength) := by
    rw [GenomeMatcherImpl.build_min]
    have h0 : 0 ≤ minimumLength := by omega
    simp only [toSizeT, h0, if_true]
    omega
  unfold GenomeMatcherImpl.findGenomesWithThisDNA at h
  rw [if_neg hguard, GenomeMatcherImpl.build_min, toSizeT_natCast] at h
  cases hf : (GenomeMatcherImpl.build (mN : Int) gs).filterCandidates fragment
      ((GenomeMatcherImpl.build (mN : Int) gs).m_genomeTrie.find (fragment.take mN)
        exactMatchOnly) with
  | none => simp [hf] at h
  | some cands =>
    simp only [hf] at h
    cases hl : loopM ((GenomeMatcherImpl.build (mN : Int) gs).extendCandidate fragment
        minimumLength exactMatchOnly) ⟨[], minimumLength, []⟩ cands with
    | none => simp [hl] at h
    | some st =>
      simp only [hl, Option.some.injEq, Prod.mk.injEq] at h
      obtain ⟨hb, hms⟩ := h
      subst hms
      refine ⟨hb.symm, ?_⟩
      intro r hr
      obtain ⟨_, hmem⟩ := extendLoop_mem _ fragment minimumLength exactMatchOnly cands _ st hl
        (by show (0 : Int) ≤ minimumLength; omega)
      rcases hmem r hr with h1 | ⟨c, hc, tf0, tm0, len, tf, hloop, hle, hrr⟩
      · cases h1
      · have hc' := filterCandidates_subset _ fragment _ cands hf c hc
        obtain ⟨g, hg, i, hi, hci, hk⟩ := candidates_mem mN hm gs _ exactMatchOnly c hc'
        subst hci
        subst hrr
        exact ⟨g, hg, i, hi, rfl, rfl, hk, hle, tf0, tm0, tf, hloop⟩

/-- The comparison of the seed window accepts a candidate that the trie yields. -/
theorem matched_of_keyMatch (exactMatchOnly : Bool) (seq fragment : List Char) (i mN : Nat)
    (hkey : keyMatch exactMatchOnly (fragment.take mN) (window seq i mN) = true) :
    matchedB exactMatchOnly (window seq i mN) (fragment.take mN) = true := by
  cases exactMatchOnly with
  | true => simpa [keyMatch, matchedB] using hkey
  | false =>
    simp only [keyMatch, Bool.false_eq_true, if_false] at hkey
    simp only [matchedB, Bool.false_eq_true, if_false, decide_eq_true_eq]
    rw [mismatches_comm]
    exact ((snipMatch_iff _ _).1 hkey).2.2

/-- C16: on a matcher with positive minimum search length whose registered genomes
have pairwise distinct names, for a call that meets its preconditions, every returned
record whose span fits its genome (position plus fragment length within the genome of
that name) carries a length `L` between the minimum length and the fragment length
such that the genome's bases at `[p, p + L)` match the first `L` characters of the
fragment under the mode of the call (equal in exact mode, at most one differing
position in one-mismatch mode), and no greater length up to the fragment length
matches. -/
theorem findGenomes_record_is_longest (mN : Nat) (hm : 1 ≤ mN) (gs : List Genome)
    (hnd : (gs.map Genome.name).Nodup) (fragment : List Char) (minimumLength : Int)
    (exactMatchOnly : Bool) (matchList : List DNAMatch) (b : Bool) (ms : List DNAMatch)
    (hpre1 : (mN : Int) ≤ minimumLength) (hpre2 : minimumLength ≤ (fragment.length : Int))
    (h : (GenomeMatcherImpl.build (mN : Int) gs).findGenomesWithThisDNA fragment minimumLength
      exactMatchOnly matchList = some (b, ms))
    (r : DNAMatch) (hr : r ∈ ms) (g : Genome) (hg : g ∈ gs) (hname : g.name = r.genomeName)
    (hfit : r.position + (fragment.length : Int) ≤ g.length) :
    ∃ p L : Nat, r.position = (p : Int) ∧ r.length = (L : Int)
      ∧ minimumLength ≤ (L : Int) ∧ L ≤ fragment.length
      ∧ matchedB exactMatchOnly (window g.m_sequence p L) (fragment.take L) = true
      ∧ ∀ L' : Nat, L < L' → L' ≤ fragment.length →
          matchedB exactMatchOnly (window g.m_sequence p L') (fragment.take L') = false := by
  obtain ⟨_, hrec⟩ := findGenomes_records mN hm gs fragment minimumLength exactMatchOnly
    matchList b ms hpre1 hpre2 h
  obtain ⟨g', hg', i, hi, hn', hpos, hkey, hle, tf0, tm0, tf, hloop⟩ := hrec r hr
  have hgg : g' = g := List.inj_on_of_nodup_map hnd hg' hg (by rw [← hn', hname])
  subst hgg
  obtain ⟨minN, hminN⟩ : ∃ minN : Nat, minimumLength = (minN : Int) :=
    ⟨minimumLength.toNat, by omega⟩
  subst hminN
  have hmin1 : 1 ≤ minN := by omega
  have hfit' : i + fragment.length ≤ g'.m_sequence.length := by
    rw [hpos] at hfit
    simp only [Genome.length] at hfit
    omega
  have hK : ((fragment.length : Int) - (minN : Int) + 1).toNat = fragment.length - minN + 1 := by
    omega
  rw [hK] at hloop
  obtain ⟨tf', tm', hfitloop⟩ := innerLoop_fit (GenomeMatcherImpl.build (mN : Int) gs) fragment
    minN exactMatchOnly (DNAMatch.mk g'.name (i : Int) (mN : Int)) g' i hmin1
    (genomeOf_build _ gs hnd g' hg') rfl hfit' ((mN : Int), tf0, tm0)
    (fragment.length - minN + 1) (by omega)
  rw [hfitloop] at hloop
  simp only [Option.some.injEq, Prod.mk.injEq] at hloop
  have hlen := hloop.1
  rcases bestUpTo_spec (fun L => matchedB exactMatchOnly (window g'.m_sequence i L)
      (fragment.take L)) minN (mN : Int) (fragment.length - minN + 1)
    with ⟨hb1, hb2⟩ | ⟨j, hj, hb1, hb2, hb3⟩
  · -- no comparison succeeded: impossible, the seed comparison succeeds
    exfalso
    rw [hb1] at hlen
    have hmm : minN = mN := by omega
    have h0 := hb2 0 (by omega)
    simp only [Nat.zero_add, hmm] at h0
    rw [matched_of_keyMatch exactMatchOnly g'.m_sequence fragment i mN hkey] at h0
    cases h0
  · rw [hb1] at hlen
    refine ⟨i, j + minN, hpos, hlen.symm, by omega, by omega, hb2, ?_⟩
    intro L' h1 h2
    have := hb3 (L' - minN) (by omega) (by omega)
    have e : L' - minN + minN = L' := by omega
    rw [e] at this
    exact this

/-- An instance of `findGenomes_record_is_longest`: with minimum search length 4 and
the genome "ACGTA", the one-mismatch search for "ACGTT" with minimum length 4 returns
the record of position 0 with length 5. -/
theorem findGenomes_record_is_longest_witness :
    (1 ≤ 4 ∧ ([Genome.mk "G".toList "ACGTA".toList].map Genome.name).Nodup
        ∧ (((4 : Nat) : Int) ≤ 4) ∧ ((4 : Int) ≤ ("ACGTT".toList.length : Int))
        ∧ (GenomeMatcherImpl.build ((4 : Nat) : Int)
              [Genome.mk "G".toList "ACGTA".toList]).findGenomesWithThisDNA
            "ACGTT".toList 4 false [] = some (true, [DNAMatch.mk "G".toList 0 5]))
      ∧ ∃ p L : Nat, (DNAMatch.mk "G".toList 0 5).position = (p : Int)
          ∧ (DNAMatch.mk "G".toList 0 5).length = (L : Int)
          ∧ (4 : Int) ≤ (L : Int) ∧ L ≤ "ACGTT".toList.length
          ∧ matchedB false (window (Genome.mk "G".toList "ACGTA".toList).m_sequence p L)
              ("ACGTT".toList.take L) = true
          ∧ ∀ L' : Nat, L < L' → L' ≤ "ACGTT".toList.length →
              matchedB false (window (Genome.mk "G".toList "ACGTA".toList).m_sequence p L')
                ("ACGTT".toList.take L') = false :=
  ⟨⟨by decide, by decide, by decide, by decide, by decide⟩,
    findGenomes_record_is_longest 4 (by decide) [Genome.mk "G".toList "ACGTA".toList]
      (by decide) "ACGTT".toList 4 false [] true [DNAMatch.mk "G".toList 0 5]
      (by decide) (by decide) (by decide) (DNAMatch.mk "G".toList 0 5) (by decide)
      (Genome.mk "G".toList "ACGTA".toList) (by decide) (by decide) (by decide)⟩

/-! ## The relatedness query in general -/

/-- The records that a search leaves in the vector are those it found, which carry the
names of registered genomes, or, when the search is rejected, those the vector held. -/
theorem findGenomes_names (mN : Nat) (hm : 1 ≤ mN) (gs : List Genome)
    (fragment : List Char) (minimumLength : Int) (exactMatchOnly : Bool)
    (matchList : List DNAMatch) (b : Bool) (ms : List DNAMatch)
    (h : (GenomeMatcherImpl.build (mN : Int) gs).findGenomesWithThisDNA fragment minimumLength
      exactMatchOnly matchList = some (b, ms)) :
    ∀ r ∈ ms, r ∈ matchList ∨ ∃ g ∈ gs, r.genomeName = g.name := by
  by_cases hguard : fragment.length < toSizeT minimumLength
      ∨ minimumLength < (GenomeMatcherImpl.build (mN : Int) gs).m_minSearchLength
  · unfold GenomeMatcherImpl.findGenomesWithThisDNA at h
    rw [if_pos hguard] at h
    simp only [Option.some.injEq, Prod.mk.injEq] at h
    intro r hr
    rw [← h.2] at hr
    exact Or.inl hr
  · have hg1 : ¬ minimumLength < (mN : Int) := by
      intro hlt
      exact hguard (Or.inr (by rw [GenomeMatcherImpl.build_min]; exact hlt))
    have hg2 : ¬ fragment.length < toSizeT minimumLength := fun hlt => hguard (Or.inl hlt)
    have h0 : 0 ≤ minimumLength := by omega
    have hts := toSizeT_of_nonneg minimumLength h0
    obtain ⟨_, hrec⟩ := findGenomes_records mN hm gs fragment minimumLength exactMatchOnly
      matchList b ms (by omega) (by omega) h
    intro r hr
    obtain ⟨g, hg, _, _, hn, _⟩ := hrec r hr
    exact Or.inr ⟨g, hg, hn⟩

/-- The loop over the windows reaches its exit within `query.length() + 1` turns when
the fragment match length is positive and the searches it makes have results; the
records it gathers carry the names of registered genomes. -/
theorem windowLoop_defined (mN : Nat) (hm : 1 ≤ mN) (gs : List Genome) (query : Genome)
    (fragmentMatchLength : Int) (hfl : 1 ≤ fragmentMatchLength) (exactMatchOnly : Bool)
    (hdef : ∀ i : Int, 0 ≤ i → i * fragmentMatchLength < query.length →
      ∀ ml : List DNAMatch,
        (GenomeMatcherImpl.build (mN : Int) gs).findGenomesWithThisDNA
          ((query.extract (i * fragmentMatchLength) fragmentMatchLength).getD [])
          fragmentMatchLength exactMatchOnly ml ≠ none) :
    ∀ (fuel : Nat) (i : Int) (st : List DNAMatch × List DNAMatch),
      0 ≤ i → 1 ≤ fuel → query.length + 1 ≤ i + (fuel : Int) →
      (∀ r ∈ st.1, ∃ g ∈ gs, r.genomeName = g.name) →
      (∀ r ∈ st.2, ∃ g ∈ gs, r.genomeName = g.name) →
      ∃ ml, (GenomeMatcherImpl.build (mN : Int) gs).windowLoop query fragmentMatchLength
          exactMatchOnly fuel i st = some ml
        ∧ ∀ r ∈ ml, ∃ g ∈ gs, r.genomeName = g.name := by
  intro fuel
  induction fuel with
  | zero =>
    intro i st _ h1 _ _ _
    exact absurd h1 (by decide)
  | succ fuel ih =>
    intro i st hi _ hf h1 h2
    unfold GenomeMatcherImpl.windowLoop
    by_cases hc : i * fragmentMatchLength < query.length
    · rw [if_pos hc]
      cases hs : (GenomeMatcherImpl.build (mN : Int) gs).findGenomesWithThisDNA
          ((query.extract (i * fragmentMatchLength) fragmentMatchLength).getD [])
          fragmentMatchLength exactMatchOnly st.1 with
      | none => exact absurd hs (hdef i hi hc st.1)
      | some r =>
        simp only
        have hnames := findGenomes_names mN hm gs _ fragmentMatchLength exactMatchOnly st.1
          r.1 r.2 hs
        have hr2 : ∀ x ∈ r.2, ∃ g ∈ gs, x.genomeName = g.name := by
          intro x hx
          rcases hnames x hx with h | h
          · exact h1 x h
          · exact h
        have hile : i ≤ i * fragmentMatchLength := by nlinarith
        have hilt : i < query.length := lt_of_le_of_lt hile hc
        refine ih (i + 1) (r.2, st.2 ++ r.2) (by omega) ?_ ?_ hr2 ?_
        · push_cast at hf
          omega
        · push_cast at hf ⊢
          omega
        · intro x hx
          rcases List.mem_append.1 hx with h | h
          · exact h2 x h
          · exact hr2 x h
    · rw [if_neg hc]
      exact ⟨st.2, rfl, h2⟩

theorem bumpCounter_defined :
    ∀ (counts : List Int) (idx : Nat), idx < counts.length →
      ∃ counts', bumpCounter counts idx = some counts' ∧ counts'.length = counts.length := by
  intro counts
  induction counts with
  | nil => intro idx h; simp at h
  | cons c cs ih =>
    intro idx h
    cases idx with
    | zero => exact ⟨(c + 1) :: cs, rfl, rfl⟩
    | succ idx =>
      obtain ⟨cs', h1, h2⟩ := ih idx (by simpa using h)
      exact ⟨c :: cs', by simp [bumpCounter, h1], by simp [h2]⟩

/-- The counting loop has a result when the records carry registered names. -/
theorem countLoop_defined (m : Int) (gs : List Genome) :
    ∀ (ml : List DNAMatch) (counts : List Int),
      (∀ r ∈ ml, ∃ g ∈ gs, r.genomeName = g.name) → counts.length = gs.length →
      ∃ counts', (GenomeMatcherImpl.build m gs).countLoop counts ml = some counts'
        ∧ counts'.length = gs.length := by
  obtain ⟨ha, hb⟩ := GMapOk_build m gs
  rw [GenomeMatcherImpl.build_genomes] at ha hb
  intro ml
  induction ml with
  | nil => intro counts _ hl; exact ⟨counts, rfl, hl⟩
  | cons r ml ih =>
    intro counts hn hl
    obtain ⟨g, hg, hname⟩ := hn r (List.mem_cons_self _ _)
    have hsome := hb g hg
    rw [← hname] at hsome
    cases hk : gMapAt (GenomeMatcherImpl.build m gs).gMap r.genomeName with
    | none => rw [hk] at hsome; cases hsome
    | some idx =>
      obtain ⟨h0, g', hg', _⟩ := ha r.genomeName idx hk
      have hlt : idx.toNat < counts.length := by
        rw [hl]
        by_contra hc
        rw [List.getElem?_eq_none (by omega)] at hg'
        cases hg'
      obtain ⟨counts1, hb1, hl1⟩ := bumpCounter_defined counts idx.toNat hlt
      obtain ⟨counts', hc', hl'⟩ := ih counts1
        (fun x hx => hn x (List.mem_cons_of_mem _ hx)) (hl1.trans hl)
      refine ⟨counts', ?_, hl'⟩
      simp only [GenomeMatcherImpl.countLoop, hk, hb1, hc']
      rw [if_neg (by omega)]

/-- A query shorter than the fragment match length yields no match record. -/
theorem windowLoop_short (s : GenomeMatcherImpl) (query : Genome) (fragmentMatchLength : Int)
    (exactMatchOnly : Bool) (hfl : 1 ≤ fragmentMatchLength)
    (hshort : query.length < fragmentMatchLength) :
    s.windowLoop query fragmentMatchLength exactMatchOnly (query.m_sequence.length + 1) 0
      ([], []) = some [] := by
  unfold GenomeMatcherImpl.windowLoop
  by_cases hc : (0 : Int) * fragmentMatchLength < query.length
  · rw [if_pos hc]
    have hpos : 0 < query.m_sequence.length := by
      simp only [Genome.length, zero_mul] at hc
      omega
    have hts : toSizeT fragmentMatchLength = fragmentMatchLength.toNat := by
      simp [toSizeT, le_trans (by decide : (0 : Int) ≤ 1) hfl]
    have hext : query.extract (0 * fragmentMatchLength) fragmentMatchLength = none := by
      unfold Genome.extract
      rw [if_pos]
      right; right; right
      simp only [zero_mul, zero_add, hts]
      simp only [Genome.length] at hshort
      omega
    have hfind : s.findGenomesWithThisDNA [] fragmentMatchLength exactMatchOnly []
        = some (false, []) := by
      unfold GenomeMatcherImpl.findGenomesWithThisDNA
      rw [if_pos]
      left
      rw [hts]
      simp only [List.length_nil]
      omega
    simp only [hext, Option.getD_none, hfind, List.append_nil]
    obtain ⟨k, hk⟩ : ∃ k, query.m_sequence.length = k + 1 := ⟨query.m_sequence.length - 1, by omega⟩
    rw [hk]
    unfold GenomeMatcherImpl.windowLoop
    rw [if_neg]
    simp only [zero_add, one_mul]
    omega
  · rw [if_neg hc]

theorem thresholdRecords_cons (S : Int) (matchPercentThreshold : ℚ) (g : Genome) (n : Int)
    (l : List (Genome × Int)) :
    thresholdRecords S matchPercentThreshold ((g, n) :: l)
      = (match computedPercent S n with
          | some p =>
              if p ≥ matchPercentThreshold then [GenomeMatch.mk g.name p] else []
          | none => []) ++ thresholdRecords S matchPercentThreshold l := by
  unfold thresholdRecords
  cases hc : computedPercent S n with
  | none => simp [List.filterMap_cons, hc]
  | some p =>
    by_cases hp : p ≥ matchPercentThreshold
    · simp [List.filterMap_cons, hc, hp]
    · simp [List.filterMap_cons, hc, hp]

theorem percentLoop_eq (S : Int) (matchPercentThreshold : ℚ) :
    ∀ (l : List (Genome × Int)) (results : List GenomeMatch),
      (S ≠ 0 ∨ ∀ e ∈ l, e.2 = 0) →
      GenomeMatcherImpl.percentLoop S matchPercentThreshold l results
        = some (results ++ thresholdRecords S matchPercentThreshold l) := by
  intro l
  induction l with
  | nil => intro results _; simp [GenomeMatcherImpl.percentLoop, thresholdRecords]
  | cons e l ih =>
    intro results h
    obtain ⟨g, n⟩ := e
    have h' : S ≠ 0 ∨ ∀ e ∈ l, e.2 = 0 := by
      rcases h with h | h
      · exact Or.inl h
      · exact Or.inr (fun x hx => h x (List.mem_cons_of_mem _ hx))
    rw [thresholdRecords_cons]
    by_cases hS : S = 0
    · have hn : n = 0 := by
        rcases h with h | h
        · exact absurd hS h
        · exact h (g, n) (List.mem_cons_self _ _)
      have hcp : computedPercent S n = none := by simp [computedPercent, hS]
      rw [hcp]
      simp only [GenomeMatcherImpl.percentLoop, hS, hn, if_true, List.nil_append]
      rw [← hS]
      exact ih results h'
    · have hcp : computedPercent S n
          = some (Dbl.mul (Dbl.div (Dbl.mul (Dbl.ofInt n) (Dbl.ofInt 1)) (Dbl.ofInt S))
              (Dbl.ofInt 100)).toRat := by
        simp [computedPercent, hS]
      rw [hcp]
      simp only [GenomeMatcherImpl.percentLoop, hS, if_false]
      by_cases ht : (Dbl.mul (Dbl.div (Dbl.mul (Dbl.ofInt n) (Dbl.ofInt 1)) (Dbl.ofInt S))
          (Dbl.ofInt 100)).toRat ≥ matchPercentThreshold
      · simp only [ht, if_true]
        rw [ih _ h', List.append_assoc]
      · simp only [ht, if_false, List.nil_append]
        exact ih _ h'

theorem countLoop_nil (s : GenomeMatcherImpl) (counts : List Int) :
    s.countLoop counts [] = some counts := rfl

theorem zip_zeros_snd (gs : List Genome) :
    ∀ e ∈ gs.zip (gs.map fun _ => (0 : Int)), e.2 = 0 := by
  induction gs with
  | nil => intro e he; cases he
  | cons g gs ih =>
    intro e he
    rcases List.mem_cons.1 he with h | h
    · rw [h]
    · exact ih e h

/-! ### Searches for a fragment of exactly the minimum length always have a result -/

theorem extract_some_length (g : Genome) (position length : Int) (f : List Char)
    (h : g.extract position length = some f) : ((f.length : Nat) : Int) = length := by
  unfold Genome.extract at h
  split at h
  · cases h
  · rename_i hc
    simp only [not_or, not_lt, not_le] at hc
    obtain ⟨h1, h2, h3, h4⟩ := hc
    simp only [Option.some.injEq] at h
    subst h
    have e1 : toSizeT position = position.toNat := by simp [toSizeT, h1]
    have e0 : toSizeT length = length.toNat := by
      have : 0 ≤ length := by omega
      simp [toSizeT, this]
    have e2 : toSizeT (position + length) = (position + length).toNat := by
      have : 0 ≤ position + length := by omega
      simp [toSizeT, this]
    rw [e1] at h2
    rw [e2] at h4
    simp only [e1, e0, List.length_take, List.length_drop]
    omega

theorem findDNAExact_defined (cs : List Char) :
    ∀ (pre ds : List Char), cs.length ≤ ds.length →
      findDNAExact (pre ++ ds) cs pre.length ≠ none := by
  induction cs with
  | nil => intro pre ds _; simp [findDNAExact]
  | cons c cs ih =>
    intro pre ds h
    cases ds with
    | nil => simp at h
    | cons d ds =>
      have hl : cs.length ≤ ds.length := by simpa using h
      have h2 := ih (pre ++ [d]) ds hl
      simp only [List.append_assoc, List.singleton_append, List.length_append,
        List.length_singleton] at h2
      simp only [findDNAExact, strAt_append]
      split
      · exact Option.some_ne_none _
      · exact h2

theorem findDNASNiP_defined (cs : List Char) :
    ∀ (pre ds : List Char) (am : Bool), cs.length ≤ ds.length →
      findDNASNiP (pre ++ ds) cs pre.length am ≠ none := by
  induction cs with
  | nil => intro pre ds am _; simp [findDNASNiP]
  | cons c cs ih =>
    intro pre ds am h
    cases ds with
    | nil => simp at h
    | cons d ds =>
      have hl : cs.length ≤ ds.length := by simpa using h
      have h2 := fun b => ih (pre ++ [d]) ds b hl
      simp only [List.append_assoc, List.singleton_append, List.length_append,
        List.length_singleton] at h2
      simp only [findDNASNiP, strAt_append]
      split
      · split
        · exact h2 true
        · exact Option.some_ne_none _
      · exact h2 am

/-- The comparison reads inside `cmp2` when `cmp1` is not the longer string. -/
theorem findDNAHelper_defined (cmp1 cmp2 : List Char) (exactMatchOnly : Bool)
    (h : cmp1.length ≤ cmp2.length) : findDNAHelper cmp1 cmp2 exactMatchOnly ≠ none := by
  have h1 := findDNAExact_defined cmp1 [] cmp2 h
  have h2 := findDNASNiP_defined cmp1 [] cmp2 false h
  simp only [List.nil_append, List.length_nil] at h1 h2
  cases exactMatchOnly
  · simpa [findDNAHelper] using h2
  · simpa [findDNAHelper] using h1

theorem filterCandidates_defined (s : GenomeMatcherImpl) (fragment : List Char) :
    ∀ cands : List DNAMatch, (∀ c ∈ cands, s.genomeOf c.genomeName ≠ none) →
      ∃ l, s.filterCandidates fragment cands = some l := by
  intro cands
  induction cands with
  | nil => intro _; exact ⟨[], rfl⟩
  | cons c cands ih =>
    intro h
    obtain ⟨l, hl⟩ := ih (fun x hx => h x (List.mem_cons_of_mem _ hx))
    cases hg : s.genomeOf c.genomeName with
    | none => exact absurd hg (h c (List.mem_cons_self _ _))
    | some g =>
      simp only [GenomeMatcherImpl.filterCandidates, hg, hl]
      split
      · exact ⟨_, rfl⟩
      · exact ⟨_, rfl⟩

/-- The single turn of the inner loop, for a minimum length equal to the length of the
fragment: `tempFrag` never exceeds the fragment, so the comparison has a result. -/
theorem extendStep_defined (s : GenomeMatcherImpl) (fragment : List Char)
    (exactMatchOnly : Bool) (c : DNAMatch) (st : Int × List Char × Int)
    (hg : s.genomeOf c.genomeName ≠ none) (htf : st.2.1.length ≤ fragment.length) :
    ∃ r, s.extendStep fragment (fragment.length : Int) exactMatchOnly c st 0 = some r
      ∧ r.2.1.length ≤ fragment.length := by
  cases hgo : s.genomeOf c.genomeName with
  | none => exact absurd hgo hg
  | some g =>
    have htake : fragment.take (toSizeT (((0 : Nat) : Int) + (fragment.length : Int)))
        = fragment := by simp
    have hlen : ((g.extract c.position (((0 : Nat) : Int) + (fragment.length : Int))).getD
        st.2.1).length ≤ fragment.length := by
      cases he : g.extract c.position (((0 : Nat) : Int) + (fragment.length : Int)) with
      | none => simpa using htf
      | some f =>
        have := extract_some_length g _ _ f he
        simp only [Option.getD_some]
        omega
    cases hc : findDNAHelper
        ((g.extract c.position (((0 : Nat) : Int) + (fragment.length : Int))).getD st.2.1)
        fragment exactMatchOnly with
    | none => exact absurd hc (findDNAHelper_defined _ _ _ hlen)
    | some b =>
      cases b with
      | false =>
        refine ⟨(st.1, (g.extract c.position (((0 : Nat) : Int)
          + (fragment.length : Int))).getD st.2.1, st.2.2), ?_, hlen⟩
        simp only [GenomeMatcherImpl.extendStep, hgo, htake, hc]
      | true =>
        refine ⟨((((g.extract c.position (((0 : Nat) : Int)
            + (fragment.length : Int))).getD st.2.1).length : Int),
          (g.extract c.position (((0 : Nat) : Int) + (fragment.length : Int))).getD st.2.1,
          if toSizeT st.2.2 < ((g.extract c.position (((0 : Nat) : Int)
            + (fragment.length : Int))).getD st.2.1).length
          then (((g.extract c.position (((0 : Nat) : Int)
            + (fragment.length : Int))).getD st.2.1).length : Int) else st.2.2), ?_, hlen⟩
        simp only [GenomeMatcherImpl.extendStep, hgo, htake, hc]

theorem extendCandidate_defined (s : GenomeMatcherImpl) (fragment : List Char)
    (exactMatchOnly : Bool) (st : ExtState) (c : DNAMatch)
    (hg : s.genomeOf c.genomeName ≠ none) (htf : st.tempFrag.length ≤ fragment.length) :
    ∃ st', s.extendCandidate fragment (fragment.length : Int) exactMatchOnly st c = some st'
      ∧ st'.tempFrag.length ≤ fragment.length := by
  have hcount : ((fragment.length : Int) - (fragment.length : Int) + 1).toNat = 1 := by omega
  have hr1 : List.range 1 = [0] := rfl
  obtain ⟨⟨len, tf, tm⟩, hr, hrl⟩ := extendStep_defined s fragment exactMatchOnly c
    (c.length, st.tempFrag, st.tempMax) hg htf
  refine ⟨⟨tf, tm, if len = tm then st.matchList ++ [DNAMatch.mk c.genomeName c.position len]
    else st.matchList⟩, ?_, hrl⟩
  simp only [GenomeMatcherImpl.extendCandidate, hcount, hr1, loopM, hr]

theorem extendLoop_defined (s : GenomeMatcherImpl) (fragment : List Char)
    (exactMatchOnly : Bool) :
    ∀ (cands : List DNAMatch) (st : ExtState),
      (∀ c ∈ cands, s.genomeOf c.genomeName ≠ none) →
      st.tempFrag.length ≤ fragment.length →
      ∃ st', loopM (s.extendCandidate fragment (fragment.length : Int) exactMatchOnly) st cands
        = some st' := by
  intro cands
  induction cands with
  | nil => intro st _ _; exact ⟨st, rfl⟩
  | cons c cands ih =>
    intro st h htf
    obtain ⟨st1, h1, h2⟩ := extendCandidate_defined s fragment exactMatchOnly st c
      (h c (List.mem_cons_self _ _)) htf
    obtain ⟨st', h3⟩ := ih st1 (fun x hx => h x (List.mem_cons_of_mem _ hx)) h2
    exact ⟨st', by simp only [loopM, h1, h3]⟩

/-- The name lookup of a registered name has a result, whether names repeat or not. -/
theorem genomeOf_defined (m : Int) (gs : List Genome) (g : Genome) (hg : g ∈ gs) :
    (GenomeMatcherImpl.build m gs).genomeOf g.name ≠ none := by
  obtain ⟨ha, hb⟩ := GMapOk_build m gs
  have hsome := hb g (by rw [GenomeMatcherImpl.build_genomes]; exact hg)
  cases hk : gMapAt (GenomeMatcherImpl.build m gs).gMap g.name with
  | none => rw [hk] at hsome; cases hsome
  | some idx =>
    obtain ⟨h0, g', hg', _⟩ := ha g.name idx hk
    simp only [GenomeMatcherImpl.genomeOf, hk]
    rw [if_neg (by omega), hg']
    exact Option.some_ne_none _

/-- On a matcher with positive minimum search length built by registrations, a search
whose minimum length is the length of the fragment has a result. -/
theorem findGenomes_defined_full (mN : Nat) (hm : 1 ≤ mN) (gs : List Genome)
    (fragment : List Char) (exactMatchOnly : Bool) (matchList : List DNAMatch) :
    (GenomeMatcherImpl.build (mN : Int) gs).findGenomesWithThisDNA fragment
      (fragment.length : Int) exactMatchOnly matchList ≠ none := by
  unfold GenomeMatcherImpl.findGenomesWithThisDNA
  split
  · exact Option.some_ne_none _
  · have hnames : ∀ c ∈ (GenomeMatcherImpl.build (mN : Int) gs).m_genomeTrie.find
        (fragment.take (toSizeT (GenomeMatcherImpl.build (mN : Int) gs).m_minSearchLength))
        exactMatchOnly,
        (GenomeMatcherImpl.build (mN : Int) gs).genomeOf c.genomeName ≠ none := by
      intro c hc
      obtain ⟨g, hg, i, _, rfl, _⟩ := candidates_mem mN hm gs _ exactMatchOnly c hc
      exact genomeOf_defined _ gs g hg
    obtain ⟨l, hl⟩ := filterCandidates_defined _ fragment _ hnames
    have hsub := filterCandidates_subset _ fragment _ l hl
    obtain ⟨st', hst⟩ := extendLoop_defined (GenomeMatcherImpl.build (mN : Int) gs) fragment
      exactMatchOnly l ⟨[], (fragment.length : Int), []⟩
      (fun c hc => hnames c (hsub c hc)) (by simp)
    simp only [hl, hst]
    exact Option.some_ne_none _

/-- The searches that `findRelatedGenomes` makes have results. -/
theorem windowSearch_defined (mN : Nat) (hm : 1 ≤ mN) (gs : List Genome) (query : Genome)
    (fragmentMatchLength : Int) (hfl : 1 ≤ fragmentMatchLength) (exactMatchOnly : Bool)
    (position : Int) (ml : List DNAMatch) :
    (GenomeMatcherImpl.build (mN : Int) gs).findGenomesWithThisDNA
      ((query.extract position fragmentMatchLength).getD [])
      fragmentMatchLength exactMatchOnly ml ≠ none := by
  cases he : query.extract position fragmentMatchLength with
  | none =>
    simp only [Option.getD_none]
    unfold GenomeMatcherImpl.findGenomesWithThisDNA
    rw [if_pos]
    · exact Option.some_ne_none _
    · left
      have h0 : 0 ≤ fragmentMatchLength := by omega
      simp only [toSizeT, h0, if_true, List.length_nil]
      omega
  | some f =>
    simp only [Option.getD_some]
    have hlen := extract_some_length query _ _ f he
    rw [← hlen]
    exact findGenomes_defined_full mN hm gs f exactMatchOnly ml

/-- C13: on a matcher with positive minimum search length, for a call of
`findRelatedGenomes` with an empty output vector and a fragment match length at least
the minimum search length: the window loop and the counting loop have results, one
counter per registered genome, and the call returns the records, in registration
order, of the genomes whose computed percentage reaches the threshold, each with the
name of the genome and that percentage, and no other record; it returns true exactly
when there is such a record. -/
theorem findRelated_threshold_spec (mN : Nat) (hm : 1 ≤ mN) (gs : List Genome)
    (query : Genome) (fragmentMatchLength : Int) (hfl : (mN : Int) ≤ fragmentMatchLength)
    (exactMatchOnly : Bool) (matchPercentThreshold : ℚ) :
    ∃ (matchList : List DNAMatch) (counts : List Int),
      (GenomeMatcherImpl.build (mN : Int) gs).windowLoop query fragmentMatchLength
          exactMatchOnly (query.m_sequence.length + 1) 0 ([], []) = some matchList
      ∧ (GenomeMatcherImpl.build (mN : Int) gs).countLoop (gs.map fun _ => (0 : Int)) matchList
          = some counts
      ∧ counts.length = gs.length
      ∧ (GenomeMatcherImpl.build (mN : Int) gs).findRelatedGenomes query fragmentMatchLength
          exactMatchOnly matchPercentThreshold []
        = some
            (decide ((thresholdRecords (Int.tdiv query.length fragmentMatchLength)
                matchPercentThreshold (gs.zip counts)).length > 0),
              thresholdRecords (Int.tdiv query.length fragmentMatchLength)
                matchPercentThreshold (gs.zip counts)) := by
  have hfl1 : 1 ≤ fragmentMatchLength := by omega
  have hdef : ∀ i : Int, 0 ≤ i → i * fragmentMatchLength < query.length →
      ∀ ml : List DNAMatch,
        (GenomeMatcherImpl.build (mN : Int) gs).findGenomesWithThisDNA
          ((query.extract (i * fragmentMatchLength) fragmentMatchLength).getD [])
          fragmentMatchLength exactMatchOnly ml ≠ none :=
    fun i _ _ ml => windowSearch_defined mN hm gs query fragmentMatchLength hfl1
      exactMatchOnly _ ml
  obtain ⟨ml, hw, hnames⟩ := windowLoop_defined mN hm gs query fragmentMatchLength hfl1
    exactMatchOnly hdef (query.m_sequence.length + 1) 0 ([], []) (le_refl _) (by omega)
    (by simp only [Genome.length]; push_cast; omega)
    (fun r hr => by cases hr) (fun r hr => by cases hr)
  obtain ⟨counts, hc, hl⟩ := countLoop_defined (mN : Int) gs ml (gs.map fun _ => (0 : Int))
    hnames (by simp)
  have hzero : Int.tdiv query.length fragmentMatchLength ≠ 0
      ∨ ∀ e ∈ gs.zip counts, e.2 = 0 := by
    by_cases hS : Int.tdiv query.length fragmentMatchLength = 0
    · right
      have hq0 : 0 ≤ query.length := by simp [Genome.length]
      rw [Int.tdiv_eq_ediv hq0 (by omega)] at hS
      have hshort : query.length < fragmentMatchLength := by
        have h1 := Int.emod_add_ediv query.length fragmentMatchLength
        have h2 := Int.emod_lt_of_pos query.length (by omega : 0 < fragmentMatchLength)
        rw [hS, mul_zero, add_zero] at h1
        omega
      rw [windowLoop_short _ query fragmentMatchLength exactMatchOnly hfl1 hshort] at hw
      simp only [Option.some.injEq] at hw
      subst hw
      rw [countLoop_nil] at hc
      simp only [Option.some.injEq] at hc
      subst hc
      exact zip_zeros_snd gs
    · exact Or.inl hS
  have hp := percentLoop_eq (Int.tdiv query.length fragmentMatchLength) matchPercentThreshold
    (gs.zip counts) [] hzero
  rw [List.nil_append] at hp
  refine ⟨ml, counts, hw, hc, hl, ?_⟩
  refine findRelatedGenomes_of_loops _ query fragmentMatchLength exactMatchOnly
    matchPercentThreshold [] ml counts _ ?_ (by omega) hw ?_ ?_
  · rw [GenomeMatcherImpl.build_min]; omega
  · rw [GenomeMatcherImpl.build_genomes]; exact hc
  · rw [GenomeMatcherImpl.build_genomes]; exact hp

/-- An instance of `findRelated_threshold_spec`: on the matcher with minimum search
length 4 and the genome ("G1", "ACGTC"), the query "GGGGACGT" with fragment match
length 4 and threshold 50 has one window of two found in G1, and the call returns the
record of G1 with 50. -/
theorem findRelated_threshold_spec_witness :
    (1 ≤ 4 ∧ (((4 : Nat) : Int) ≤ 4))
      ∧ (∃ (matchList : List DNAMatch) (counts : List Int),
          (GenomeMatcherImpl.build ((4 : Nat) : Int) [genomeTail]).windowLoop queryTwo 4 true
              (queryTwo.m_sequence.length + 1) 0 ([], []) = some matchList
          ∧ (GenomeMatcherImpl.build ((4 : Nat) : Int) [genomeTail]).countLoop
              ([genomeTail].map fun _ => (0 : Int)) matchList = some counts
          ∧ counts.length = [genomeTail].length
          ∧ (GenomeMatcherImpl.build ((4 : Nat) : Int) [genomeTail]).findRelatedGenomes
              queryTwo 4 true 50 []
            = some
                (decide ((thresholdRecords (Int.tdiv queryTwo.length 4) 50
                    ([genomeTail].zip counts)).length > 0),
                  thresholdRecords (Int.tdiv queryTwo.length 4) 50 ([genomeTail].zip counts)))
      ∧ (GenomeMatcherImpl.build ((4 : Nat) : Int) [genomeTail]).countLoop
            ([genomeTail].map fun _ => (0 : Int)) [DNAMatch.mk "G1".toList 0 4] = some [1]
      ∧ thresholdRecords (Int.tdiv queryTwo.length 4) 50 ([genomeTail].zip [1])
          = [GenomeMatch.mk "G1".toList 50] :=
  ⟨⟨by decide, by decide⟩,
    findRelated_threshold_spec 4 (by decide) [genomeTail] queryTwo 4 (by decide) true 50,
    by decide,
    by
      show thresholdRecords 2 50 [(genomeTail, 1)] = [GenomeMatch.mk "G1".toList 50]
      rw [thresholdRecords_cons]
      norm_num [thresholdRecords, computedPercent, percent_1_of_2, Dbl.toRat, genomeTail,
        Genome.name]⟩

/-! ## Loading genomes -/

theorem upperLine_some :
    ∀ (temp up : List Char), upperLine temp = some up →
      up = temp.map Char.toUpper ∧ ∀ c ∈ up, c ∈ bases := by
  intro temp
  induction temp with
  | nil =>
    intro up h
    simp only [upperLine, Option.some.injEq] at h
    subst h
    exact ⟨rfl, fun c hc => by cases hc⟩
  | cons x xs ih =>
    intro up h
    unfold upperLine at h
    split at h
    · cases h
    · rename_i hv
      cases hu : upperLine xs with
      | none => simp [hu] at h
      | some up' =>
        simp only [hu, Option.some.injEq] at h
        subst h
        obtain ⟨h1, h2⟩ := ih up' hu
        refine ⟨by rw [h1]; rfl, ?_⟩
        intro c hc
        rcases List.mem_cons.1 hc with e | e
        · subst e
          simp only [bases, List.mem_cons, List.mem_singleton, List.not_mem_nil, or_false]
          by_contra hcon
          simp only [not_or] at hcon
          exact hv ⟨hcon.1, hcon.2.1, hcon.2.2.2.1, hcon.2.2.1, hcon.2.2.2.2⟩
        · exact h2 c e

theorem upperFlat_cons (l : List Char) (ls : List (List Char)) :
    upperFlat (l :: ls) = l.map Char.toUpper ++ upperFlat ls := by
  simp [upperFlat]

/-- The invariant of the `getline` loop: when `load` returns `true`, the lines still
to be read are sequence lines of the genome being read followed by whole records,
and the vector on exit is the vector so far, the genome being read completed by
those lines, and the genomes of those records. -/
theorem loadLoop_spec :
    ∀ (lines : List (List Char)) (name sequence : List Char) (genomes out : List Genome),
      loadLoop lines name sequence genomes = (true, out) →
      (name = [] → sequence = []) →
      ∃ (ls0 : List (List Char)) (records : List (List Char × List (List Char))),
        lines = ls0 ++ records.flatMap recordLines
          ∧ (∀ l ∈ ls0, l.head? ≠ some '>')
          ∧ (∀ c ∈ upperFlat ls0, c ∈ bases)
          ∧ (∀ r ∈ records, ValidRecord r)
          ∧ (name = [] → ls0 = [])
          ∧ (name ≠ [] → sequence ++ upperFlat ls0 ≠ [])
          ∧ out = genomes
              ++ (if name = [] then [] else [Genome.mk name (sequence ++ upperFlat ls0)])
              ++ records.map (fun r => Genome.mk r.1 (upperFlat r.2)) := by
  intro lines
  induction lines with
  | nil =>
    intro name sequence genomes out h _
    unfold loadLoop at h
    split at h
    · cases h
    · rename_i hc
      simp only [not_or] at hc
      simp only [Prod.mk.injEq, true_and] at h
      refine ⟨[], [], rfl, (fun l hl => by cases hl), (fun c hc' => by cases hc'),
        (fun r hr => by cases hr), fun _ => rfl, ?_, ?_⟩
      · intro _
        simpa [upperFlat] using hc.1
      · simp [upperFlat, hc.2, h]
  | cons temp rest ih =>
    intro name sequence genomes out h hinv
    unfold loadLoop at h
    by_cases hhead : temp.head? = some '>'
    · rw [if_pos hhead] at h
      by_cases h1 : temp = ['>']
      · rw [if_pos h1] at h; cases h
      · rw [if_neg h1] at h
        by_cases h2 : name ≠ [] ∧ sequence = []
        · rw [if_pos h2] at h; cases h
        · rw [if_neg h2] at h
          obtain ⟨nm, hnm⟩ : ∃ nm, temp = '>' :: nm := by
            cases temp with
            | nil => simp at hhead
            | cons x xs =>
              simp only [List.head?_cons, Option.some.injEq] at hhead
              exact ⟨xs, by rw [hhead]⟩
          subst hnm
          have hnm0 : nm ≠ [] := by
            intro e; subst e; exact h1 rfl
          simp only [List.drop_succ_cons, List.drop_zero] at h
          obtain ⟨ls0, records, hl, hh, hb, hv, _, hne, hout⟩ := ih nm [] _ out h (fun _ => rfl)
          have hne' := hne hnm0
          simp only [List.nil_append] at hne' hout
          simp only [hnm0, if_false] at hout
          refine ⟨[], (nm, ls0) :: records, ?_, (fun l hl => by cases hl),
            (fun c hc' => by cases hc'), ?_, fun _ => rfl, ?_, ?_⟩
          · simp [recordLines, hl]
          · intro r hr
            rcases List.mem_cons.1 hr with e | e
            · subst e
              exact ⟨hnm0, hh, hne', hb⟩
            · exact hv r e
          · intro hname
            have : sequence ≠ [] := fun e => h2 ⟨hname, e⟩
            simpa [upperFlat] using this
          · rw [hout]
            by_cases hs : sequence = []
            · have hname : name = [] := by
                by_contra hcon
                exact h2 ⟨hcon, hs⟩
              simp [hs, hname]
            · have hname : name ≠ [] := fun e => hs (hinv e)
              simp [hs, hname, upperFlat]
    · rw [if_neg hhead] at h
      by_cases h1 : name = []
      · rw [if_pos h1] at h; cases h
      · rw [if_neg h1] at h
        cases hu : upperLine temp with
        | none => simp [hu] at h
        | some up =>
          simp only [hu] at h
          obtain ⟨hup, hupb⟩ := upperLine_some temp up hu
          obtain ⟨ls0, records, hl, hh, hb, hv, _, hne, hout⟩ :=
            ih name (sequence ++ up) genomes out h (fun e => absurd e h1)
          refine ⟨temp :: ls0, records, by simp [hl], ?_, ?_, hv, fun e => absurd e h1, ?_, ?_⟩
          · intro l hl'
            rcases List.mem_cons.1 hl' with e | e
            · rw [e]; exact hhead
            · exact hh l e
          · intro c hc
            rw [upperFlat_cons, ← hup] at hc
            rcases List.mem_append.1 hc with e | e
            · exact hupb c e
            · exact hb c e
          · intro _
            have := hne h1
            rw [upperFlat_cons, ← hup, ← List.append_assoc]
            exact this
          · rw [hout, upperFlat_cons, ← hup]
            simp only [List.append_assoc]

theorem headers_count (records : List (List Char × List (List Char)))
    (hv : ∀ r ∈ records, ValidRecord r) :
    ((records.flatMap recordLines).filter (fun l => decide (l.head? = some '>'))).length
      = records.length := by
  induction records with
  | nil => rfl
  | cons r records ih =>
    have h1 := hv r (List.mem_cons_self _ _)
    have h2 := ih (fun x hx => hv x (List.mem_cons_of_mem _ hx))
    have h3 : r.2.filter (fun l => decide (l.head? = some '>')) = [] := by
      rw [List.filter_eq_nil_iff]
      intro l hl
      simpa using h1.2.1 l hl
    simp only [List.flatMap_cons, recordLines, List.filter_append, List.filter_cons,
      List.head?_cons, decide_True, if_true, h3, List.length_append, List.length_cons,
      List.length_nil, h2]
    omega

/-- C20: when `load` returns `true` on an input given as its list of lines, the input
is a sequence of records, each a header line, `'>'` followed by a non-empty name, and
then lines not beginning with `'>'`; `load` appends one genome per record, that is
one per line beginning with `'>'`, in input order, whose name is the text after `'>'`
and whose sequence is the concatenation of the upper-cased lines of the record up to
the next header or the end, which is non-empty and holds only A, C, G, T and N. -/
theorem load_spec (lines : List (List Char)) (genomes out : List Genome)
    (h : Genome.load lines genomes = (true, out)) :
    ∃ records : List (List Char × List (List Char)),
      lines = records.flatMap recordLines
        ∧ (∀ r ∈ records, ValidRecord r)
        ∧ out = genomes ++ records.map (fun r => Genome.mk r.1 (upperFlat r.2))
        ∧ records.length = (lines.filter (fun l => decide (l.head? = some '>'))).length := by
  obtain ⟨ls0, records, hl, _, _, hv, h0, _, hout⟩ :=
    loadLoop_spec lines [] [] genomes out h (fun _ => rfl)
  have hls : ls0 = [] := h0 rfl
  subst hls
  simp only [List.nil_append, if_true, List.append_nil] at hl hout
  refine ⟨records, hl, hv, hout, ?_⟩
  rw [hl, headers_count records hv]

/-- An instance of `load_spec`: two records, the first with a lower-case line. -/
theorem load_spec_witness :
    Genome.load [">G1".toList, "ACgt".toList, "N".toList, ">G2".toList, "TT".toList] []
        = (true, [Genome.mk "G1".toList "ACGTN".toList, Genome.mk "G2".toList "TT".toList])
      ∧ ∃ records : List (List Char × List (List Char)),
          [">G1".toList, "ACgt".toList, "N".toList, ">G2".toList, "TT".toList]
              = records.flatMap recordLines
            ∧ (∀ r ∈ records, ValidRecord r)
            ∧ [Genome.mk "G1".toList "ACGTN".toList, Genome.mk "G2".toList "TT".toList]
                = [] ++ records.map (fun r => Genome.mk r.1 (upperFlat r.2))
            ∧ records.length
                = ([">G1".toList, "ACgt".toList, "N".toList, ">G2".toList, "TT".toList].filter
                    (fun l => decide (l.head? = some '>'))).length :=
  ⟨by decide,
    load_spec [">G1".toList, "ACgt".toList, "N".toList, ">G2".toList, "TT".toList] []
      [Genome.mk "G1".toList "ACGTN".toList, Genome.mk "G2".toList "TT".toList] (by decide)⟩

/-! ## The two modes of a search for a fragment of exactly the minimum length -/

/-- The one-mismatch lookup of a key of length at least 2 holds the exact lookup of
that key as a block of consecutive values. -/
theorem find_snip_block (ins : List (List Char × V)) (k : List Char) (hk : 2 ≤ k.length) :
    ∃ A B : List V,
      (buildTrie ins).find k false = A ++ (buildTrie ins).find k true ++ B := by
  obtain ⟨ks, _, hmem, hfind⟩ := find_snip_build ins k hk
  rw [find_exact_build]
  cases hv : valuesFor ins k with
  | nil => exact ⟨(buildTrie ins).find k false, [], by simp⟩
  | cons v vs =>
    have hin : (k, v) ∈ ins := (mem_valuesFor ins k v).1 (by rw [hv]; exact List.mem_cons_self _ _)
    have hks : k ∈ ks := by
      refine (hmem k).2 ⟨?_, v, hin⟩
      rw [snipMatch_iff]
      exact ⟨rfl, rfl, by rw [mismatches_self]; omega⟩
    obtain ⟨l1, l2, rfl⟩ := List.append_of_mem hks
    refine ⟨l1.flatMap (fun k' => valuesFor ins k'), l2.flatMap (fun k' => valuesFor ins k'), ?_⟩
    rw [hfind, List.flatMap_append, List.flatMap_cons, hv, List.append_assoc]

theorem filterCandidates_append (s : GenomeMatcherImpl) (fragment : List Char) :
    ∀ (X Y fx fy : List DNAMatch), s.filterCandidates fragment X = some fx →
      s.filterCandidates fragment Y = some fy →
      s.filterCandidates fragment (X ++ Y) = some (fx ++ fy) := by
  intro X
  induction X with
  | nil =>
    intro Y fx fy hx hy
    simp only [GenomeMatcherImpl.filterCandidates, Option.some.injEq] at hx
    subst hx
    simpa using hy
  | cons c X ih =>
    intro Y fx fy hx hy
    simp only [List.cons_append, GenomeMatcherImpl.filterCandidates] at hx ⊢
    cases hg : s.genomeOf c.genomeName with
    | none => rw [hg] at hx; cases hx
    | some g =>
      rw [hg] at hx
      cases hr : s.filterCandidates fragment X with
      | none => rw [hr] at hx; cases hx
      | some r =>
        rw [hr] at hx
        simp only [List.append_eq, ih Y r fy hr hy]
        simp only at hx
        split at hx
        · rename_i hc
          simp only [Option.some.injEq] at hx
          subst hx
          simp only [hc, if_true]
        · rename_i hc
          simp only [Option.some.injEq] at hx
          subst hx
          simp only [hc, if_false, List.cons_append]

/-- One turn of the loop over the candidates of a search whose minimum length is the
length of the fragment, from a state in which `tempMax` is that length and `tempFrag`
is empty or of that length: `tempFrag` becomes the extraction, or stays when the
extraction fails; the candidate is pushed, with the length of the fragment, when
`tempFrag` is then not empty and matches the fragment or the candidate already has
that length. -/
theorem extendCandidate_full (s : GenomeMatcherImpl) (fragment : List Char)
    (hn : 1 ≤ fragment.length) (exactMatchOnly : Bool) (st : ExtState) (c : DNAMatch)
    (g : Genome) (hg : s.genomeOf c.genomeName = some g)
    (hmax : st.tempMax = (fragment.length : Int))
    (htf : st.tempFrag = [] ∨ st.tempFrag.length = fragment.length) :
    ∃ st', s.extendCandidate fragment (fragment.length : Int) exactMatchOnly st c = some st'
      ∧ st'.tempFrag = (g.extract c.position (fragment.length : Int)).getD st.tempFrag
      ∧ st'.tempMax = (fragment.length : Int)
      ∧ st'.matchList
          = (if st'.tempFrag ≠ []
                ∧ (matchedB exactMatchOnly st'.tempFrag fragment = true
                  ∨ c.length = (fragment.length : Int))
            then st.matchList ++ [DNAMatch.mk c.genomeName c.position (fragment.length : Int)]
            else st.matchList)
      ∧ (st'.tempFrag = [] ∨ st'.tempFrag.length = fragment.length) := by
  have hcount : ((fragment.length : Int) - (fragment.length : Int) + 1).toNat = 1 := by omega
  have hr1 : List.range 1 = [0] := rfl
  have hz : ((0 : Nat) : Int) + (fragment.length : Int) = (fragment.length : Int) := by simp
  have htake : fragment.take (toSizeT (fragment.length : Int)) = fragment := by simp
  have hshape : (g.extract c.position (fragment.length : Int)).getD st.tempFrag = []
      ∨ ((g.extract c.position (fragment.length : Int)).getD st.tempFrag).length
          = fragment.length := by
    cases he : g.extract c.position (fragment.length : Int) with
    | none => simpa using htf
    | some f =>
      have := extract_some_length g _ _ f he
      right
      simp only [Option.getD_some]
      omega
  refine ⟨⟨(g.extract c.position (fragment.length : Int)).getD st.tempFrag,
    (fragment.length : Int),
    if (g.extract c.position (fragment.length : Int)).getD st.tempFrag ≠ []
        ∧ (matchedB exactMatchOnly
            ((g.extract c.position (fragment.length : Int)).getD st.tempFrag) fragment = true
          ∨ c.length = (fragment.length : Int))
    then st.matchList ++ [DNAMatch.mk c.genomeName c.position (fragment.length : Int)]
    else st.matchList⟩, ?_, rfl, rfl, rfl, hshape⟩
  simp only [GenomeMatcherImpl.extendCandidate, hcount, hr1, loopM,
    GenomeMatcherImpl.extendStep, hg, hz, htake]
  generalize (g.extract c.position (fragment.length : Int)).getD st.tempFrag = tf at hshape ⊢
  rcases hshape with h0 | hlen
  · subst h0
    have hc : findDNAHelper [] fragment exactMatchOnly = some true := by
      cases exactMatchOnly <;> simp [findDNAHelper, findDNAExact, findDNASNiP]
    have hne : ¬ ((0 : Int) = st.tempMax) := by rw [hmax]; omega
    simp [hc, hmax, hne]
    omega
  · have hc := findDNAHelper_eq tf fragment exactMatchOnly hlen
    have hne : tf ≠ [] := by
      intro h; rw [h] at hlen; simp at hlen; omega
    have hmb : matchedB exactMatchOnly tf fragment
        = (if exactMatchOnly then decide (tf = fragment)
            else decide (mismatches tf fragment ≤ 1)) := rfl
    rw [hc, ← hmb]
    cases hb : matchedB exactMatchOnly tf fragment
    · simp only [hmax, hne, ne_eq, not_false_eq_true, true_and, Bool.false_eq_true, false_or]
      split
      · rename_i hcl
        rw [hcl]
      · rfl
    · simp [hmax, hne, hlen]


/-- The loop over the candidates of a search whose minimum length is the length of the
fragment has a result, keeps `tempMax`, and only appends to the vector. -/
theorem extendLoop_inv (s : GenomeMatcherImpl) (fragment : List Char)
    (hn : 1 ≤ fragment.length) (exactMatchOnly : Bool) :
    ∀ (L : List DNAMatch) (st : ExtState),
      (∀ c ∈ L, s.genomeOf c.genomeName ≠ none) →
      st.tempMax = (fragment.length : Int) →
      (st.tempFrag = [] ∨ st.tempFrag.length = fragment.length) →
      ∃ st', loopM (s.extendCandidate fragment (fragment.length : Int) exactMatchOnly) st L
          = some st'
        ∧ st'.tempMax = (fragment.length : Int)
        ∧ (st'.tempFrag = [] ∨ st'.tempFrag.length = fragment.length)
        ∧ ∀ r ∈ st.matchList, r ∈ st'.matchList := by
  intro L
  induction L with
  | nil => intro st _ h1 h2; exact ⟨st, rfl, h1, h2, fun r hr => hr⟩
  | cons c L ih =>
    intro st hL h1 h2
    cases hg : s.genomeOf c.genomeName with
    | none => exact absurd hg (hL c (List.mem_cons_self _ _))
    | some g =>
      obtain ⟨st1, hstep, _, e2, e3, hshape⟩ :=
        extendCandidate_full s fragment hn exactMatchOnly st c g hg h1 h2
      obtain ⟨st', hl, k1, k2, k3⟩ := ih st1 (fun x hx => hL x (List.mem_cons_of_mem _ hx))
        e2 hshape
      refine ⟨st', by simp only [loopM, hstep, hl], k1, k2, fun r hr => k3 r ?_⟩
      rw [e3]
      split
      · exact List.mem_append_left _ hr
      · exact hr

/-- The loop over the same candidates in the two modes, for a minimum length equal to
the length of the fragment: when `tempFrag` of the exact run is empty or that of the
one-mismatch run, every record that the exact run pushes is pushed by the
one-mismatch run as well. -/
theorem extendLoop_sim (s : GenomeMatcherImpl) (fragment : List Char)
    (hn : 1 ≤ fragment.length) :
    ∀ (L : List DNAMatch) (se ss : ExtState),
      (∀ c ∈ L, s.genomeOf c.genomeName ≠ none) →
      se.tempMax = (fragment.length : Int) → ss.tempMax = (fragment.length : Int) →
      (se.tempFrag = [] ∨ se.tempFrag.length = fragment.length) →
      (ss.tempFrag = [] ∨ ss.tempFrag.length = fragment.length) →
      (se.tempFrag = [] ∨ se.tempFrag = ss.tempFrag) →
      (∀ r ∈ se.matchList, r ∈ ss.matchList) →
      ∃ se' ss', loopM (s.extendCandidate fragment (fragment.length : Int) true) se L = some se'
        ∧ loopM (s.extendCandidate fragment (fragment.length : Int) false) ss L = some ss'
        ∧ ss'.tempMax = (fragment.length : Int)
        ∧ (ss'.tempFrag = [] ∨ ss'.tempFrag.length = fragment.length)
        ∧ ∀ r ∈ se'.matchList, r ∈ ss'.matchList := by
  intro L
  induction L with
  | nil => intro se ss _ _ h2 _ h4 _ h6; exact ⟨se, ss, rfl, rfl, h2, h4, h6⟩
  | cons c L ih =>
    intro se ss hL h1 h2 h3 h4 h5 h6
    cases hg : s.genomeOf c.genomeName with
    | none => exact absurd hg (hL c (List.mem_cons_self _ _))
    | some g =>
      obtain ⟨se1, hse, a1, a2, a3, hshe⟩ :=
        extendCandidate_full s fragment hn true se c g hg h1 h3
      obtain ⟨ss1, hss, b1, b2, b3, hshs⟩ :=
        extendCandidate_full s fragment hn false ss c g hg h2 h4
      have hrel : se1.tempFrag = [] ∨ se1.tempFrag = ss1.tempFrag := by
        rw [a1, b1]
        cases he : g.extract c.position (fragment.length : Int) with
        | none => simpa using h5
        | some f => right; rfl
      have hsub : ∀ r ∈ se1.matchList, r ∈ ss1.matchList := by
        intro r hr
        rw [a3] at hr
        rw [b3]
        split at hr
        · rename_i hc
          obtain ⟨hne, hcase⟩ := hc
          have heq : se1.tempFrag = ss1.tempFrag := by
            rcases hrel with h | h
            · exact absurd h hne
            · exact h
          have hcond : ss1.tempFrag ≠ []
              ∧ (matchedB false ss1.tempFrag fragment = true
                  ∨ c.length = (fragment.length : Int)) := by
            rw [← heq]
            refine ⟨hne, ?_⟩
            rcases hcase with h | h
            · left
              simp only [matchedB, if_true, decide_eq_true_eq] at h
              simp only [matchedB, Bool.false_eq_true, if_false, decide_eq_true_eq]
              rw [h, mismatches_self]
              omega
            · exact Or.inr h
          rw [if_pos hcond]
          rcases List.mem_append.1 hr with h | h
          · exact List.mem_append_left _ (h6 r h)
          · exact List.mem_append_right _ h
        · split
          · exact List.mem_append_left _ (h6 r hr)
          · exact h6 r hr
      obtain ⟨se', ss', k1, k2, k3, k4, k5⟩ := ih se1 ss1
        (fun x hx => hL x (List.mem_cons_of_mem _ hx)) a2 b2 hshe hshs hrel hsub
      exact ⟨se', ss', by simp only [loopM, hse, k1], by simp only [loopM, hss, k2],
        k3, k4, k5⟩

/-- C7, amended: on a matcher with minimum search length at least 2, whatever the
names and the lengths of its registered genomes, for a minimum length equal to the
length of the fragment (itself at least the minimum search length), both modes return
a result and every record returned in exact mode is also returned in one-mismatch
mode. -/
theorem findGenomes_exact_subset_full_length (mN : Nat) (hm : 2 ≤ mN) (gs : List Genome)
    (fragment : List Char) (minimumLength : Int)
    (hmin : minimumLength = (fragment.length : Int)) (hn : mN ≤ fragment.length)
    (matchList1 matchList2 : List DNAMatch) :
    ∃ (b1 b2 : Bool) (ms1 ms2 : List DNAMatch),
      (GenomeMatcherImpl.build (mN : Int) gs).findGenomesWithThisDNA fragment minimumLength
          true matchList1 = some (b1, ms1)
      ∧ (GenomeMatcherImpl.build (mN : Int) gs).findGenomesWithThisDNA fragment minimumLength
          false matchList2 = some (b2, ms2)
      ∧ ∀ r ∈ ms1, r ∈ ms2 := by
  subst hmin
  have hn1 : 1 ≤ fragment.length := by omega
  have hkl : (fragment.take mN).length = mN := by simp [hn]
  obtain ⟨A, B, hAB⟩ := find_snip_block (allEntries (mN : Int) gs) (fragment.take mN)
    (by rw [hkl]; exact hm)
  rw [← GenomeMatcherImpl.build_trie] at hAB
  generalize hE : (GenomeMatcherImpl.build (mN : Int) gs).m_genomeTrie.find
    (fragment.take mN) true = E at hAB
  have hnames : ∀ (mode : Bool),
      ∀ c ∈ (GenomeMatcherImpl.build (mN : Int) gs).m_genomeTrie.find (fragment.take mN) mode,
        (GenomeMatcherImpl.build (mN : Int) gs).genomeOf c.genomeName ≠ none := by
    intro mode c hc
    obtain ⟨g, hg, i, _, rfl, _⟩ := candidates_mem mN (by omega) gs _ mode c hc
    exact genomeOf_defined _ gs g hg
  have hnE : ∀ c ∈ E, (GenomeMatcherImpl.build (mN : Int) gs).genomeOf c.genomeName ≠ none :=
    fun c hc => hnames true c (by rw [hE]; exact hc)
  have hnA : ∀ c ∈ A, (GenomeMatcherImpl.build (mN : Int) gs).genomeOf c.genomeName ≠ none :=
    fun c hc => hnames false c (by rw [hAB]; simp [hc])
  have hnB : ∀ c ∈ B, (GenomeMatcherImpl.build (mN : Int) gs).genomeOf c.genomeName ≠ none :=
    fun c hc => hnames false c (by rw [hAB]; simp [hc])
  obtain ⟨FE, hFE⟩ := filterCandidates_defined _ fragment E hnE
  obtain ⟨FA, hFA⟩ := filterCandidates_defined _ fragment A hnA
  obtain ⟨FB, hFB⟩ := filterCandidates_defined _ fragment B hnB
  have hFS := filterCandidates_append _ fragment (A ++ E) B (FA ++ FE) FB
    (filterCandidates_append _ fragment A E FA FE hFA hFE) hFB
  have hsubE := filterCandidates_subset _ fragment E FE hFE
  have hsubA := filterCandidates_subset _ fragment A FA hFA
  have hsubB := filterCandidates_subset _ fragment B FB hFB
  obtain ⟨sA, hlA, a1, a2, _⟩ := extendLoop_inv (GenomeMatcherImpl.build (mN : Int) gs)
    fragment hn1 false FA ⟨[], (fragment.length : Int), []⟩
    (fun c hc => hnA c (hsubA c hc)) rfl (Or.inl rfl)
  obtain ⟨se, ss, hle, hls, b1, b2, b3⟩ := extendLoop_sim (GenomeMatcherImpl.build (mN : Int) gs)
    fragment hn1 FE ⟨[], (fragment.length : Int), []⟩ sA
    (fun c hc => hnE c (hsubE c hc)) rfl a1 (Or.inl rfl) a2 (Or.inl rfl)
    (fun r hr => by cases hr)
  obtain ⟨sB, hlB, _, _, c3⟩ := extendLoop_inv (GenomeMatcherImpl.build (mN : Int) gs)
    fragment hn1 false FB ss (fun c hc => hnB c (hsubB c hc)) b1 b2
  have hloopS : loopM ((GenomeMatcherImpl.build (mN : Int) gs).extendCandidate fragment
      (fragment.length : Int) false) ⟨[], (fragment.length : Int), []⟩ (FA ++ FE ++ FB)
      = some sB := by
    rw [loopM_append, loopM_append, hlA]
    simp only [hls, hlB]
  have hguard : ¬ (fragment.length < fragment.length
      ∨ (fragment.length : Int) < (mN : Int)) := by omega
  refine ⟨decide (se.matchList.length > 0), decide (sB.matchList.length > 0),
    se.matchList, sB.matchList, ?_, ?_, fun r hr => c3 r (b3 r hr)⟩
  · simp only [GenomeMatcherImpl.findGenomesWithThisDNA, GenomeMatcherImpl.build_min,
      toSizeT_natCast, hguard, if_false, hE, hFE, hle]
  · simp only [GenomeMatcherImpl.findGenomesWithThisDNA, GenomeMatcherImpl.build_min,
      toSizeT_natCast, hguard, if_false, hAB, hFS, hloopS]

/-- An instance of `findGenomes_exact_subset_full_length` with a repeated name and a
genome shorter than the fragment: minimum search length 2, genomes ("X", "ACG"),
("X", "ACGTT") and ("Y", "ACTT"), fragment "ACGT". -/
theorem findGenomes_exact_subset_full_length_witness :
    (2 ≤ 2 ∧ (4 : Int) = ("ACGT".toList.length : Int) ∧ 2 ≤ "ACGT".toList.length)
      ∧ (∃ (b1 b2 : Bool) (ms1 ms2 : List DNAMatch),
          (GenomeMatcherImpl.build ((2 : Nat) : Int)
              [⟨"X".toList, "ACG".toList⟩, ⟨"X".toList, "ACGTT".toList⟩,
                ⟨"Y".toList, "ACTT".toList⟩]).findGenomesWithThisDNA
              "ACGT".toList 4 true [] = some (b1, ms1)
          ∧ (GenomeMatcherImpl.build ((2 : Nat) : Int)
              [⟨"X".toList, "ACG".toList⟩, ⟨"X".toList, "ACGTT".toList⟩,
                ⟨"Y".toList, "ACTT".toList⟩]).findGenomesWithThisDNA
              "ACGT".toList 4 false [] = some (b2, ms2)
          ∧ ∀ r ∈ ms1, r ∈ ms2) :=
  ⟨⟨by decide, by decide, by decide⟩,
    findGenomes_exact_subset_full_length 2 (by decide)
      [⟨"X".toList, "ACG".toList⟩, ⟨"X".toList, "ACGTT".toList⟩, ⟨"Y".toList, "ACTT".toList⟩]
      "ACGT".toList 4 (by decide) (by decide) [] []⟩

/-! ## The rounding of the percentage -/

/-- The percentage computed for the counter 1 and 3 whole windows. -/
theorem percent_1_of_3 :
    Dbl.mul (Dbl.div (Dbl.mul (Dbl.ofInt 1) (Dbl.ofInt 1)) (Dbl.ofInt 3)) (Dbl.ofInt 100)
      = ⟨4691249611844266, -47⟩ := by
  set_option maxRecDepth 100000 in decide

/-- The percentage is a rounded `double`. With minimum search length 1 and the genome
("G", "A"), the query of 29 bases A followed by 21 bases C has 50 windows of length 1,
29 of which are found: the percentage computed is below 58 and no record is returned
for the threshold 58. The query "ACC" yields the record of G with the `double` next
below 100 / 3. -/
theorem findRelated_rounded_percent :
    matcherOne.findRelatedGenomes queryRound 1 true 58 [] = some (false, [])
      ∧ matcherOne.findRelatedGenomes ⟨"Q".toList, "ACC".toList⟩ 1 true 0 []
          = some (true, [GenomeMatch.mk "G".toList (4691249611844266 / 2 ^ 47)])
      ∧ (4691249611844266 / 2 ^ 47 : ℚ) < 100 / 3 := by
  set_option maxRecDepth 100000 in
  exact ⟨findRelatedGenomes_of_loops matcherOne queryRound 1 true 58 []
      (List.replicate 29 (DNAMatch.mk "G".toList 0 1)) [29] []
      (by decide) (by decide) (by decide) (by decide)
      (by
        show GenomeMatcherImpl.percentLoop 50 58 [(⟨"G".toList, "A".toList⟩, 29)] [] = some []
        norm_num [GenomeMatcherImpl.percentLoop, percent_29_of_50, Dbl.toRat]),
    findRelatedGenomes_of_loops matcherOne ⟨"Q".toList, "ACC".toList⟩ 1 true 0 []
      [DNAMatch.mk "G".toList 0 1] [1]
      [GenomeMatch.mk "G".toList (4691249611844266 / 2 ^ 47)]
      (by decide) (by decide) (by decide) (by decide)
      (by
        show GenomeMatcherImpl.percentLoop 3 0 [(⟨"G".toList, "A".toList⟩, 1)] []
          = some [GenomeMatch.mk "G".toList (4691249611844266 / 2 ^ 47)]
        norm_num [GenomeMatcherImpl.percentLoop, percent_1_of_3, Dbl.toRat, Genome.name]),
    by norm_num⟩

end Genomics
